import Mathlib

/-!
Verification of `src/lidovky_project/lidovky_scraper.py` (a news-article
scraper).  The Python source is shallowly embedded below: pure functions
become Lean functions, the parsed-HTML document (`BeautifulSoup`) becomes an
explicit tree type with the CSS-selector queries the source uses, the
filesystem becomes an explicit map from paths to file contents, and the
functions of Python's standard library that the source calls (`str`
operations, `hashlib.md5`, `urllib.parse.urljoin` / `urlparse`) are embedded
as executable Lean functions following the CPython implementations.

Python strings are modelled as Lean `String`s, with all operations
implemented by structural recursion over the underlying `List Char` so that
every definition evaluates inside the kernel (`decide` / `rfl`).
-/

namespace Lidovky

set_option maxRecDepth 1000000

/-! ### Python character and string primitives -/

/-- Unicode code points that Python's `str.strip()` / `str.isspace()` (and the
regex class `\s` on `str` patterns) treat as whitespace. -/
def pyIsSpace (c : Char) : Bool :=
  c = ' ' || c = '\t' || c = '\n' || c = '\r' ||
  c = (Char.ofNat 0x0b) || c = (Char.ofNat 0x0c) ||
  (0x1c ≤ c.toNat && c.toNat ≤ 0x1f) ||
  c.toNat = 0x85 || c.toNat = 0xa0 || c.toNat = 0x1680 ||
  (0x2000 ≤ c.toNat && c.toNat ≤ 0x200a) ||
  c.toNat = 0x2028 || c.toNat = 0x2029 || c.toNat = 0x202f ||
  c.toNat = 0x205f || c.toNat = 0x3000

/-- Case-folding model for Python's `str.lower()`: ASCII letters are mapped to
their lowercase forms.  (The source only compares lowercased text against the
ASCII literals "foto", "autor:" and "reklama", for which ASCII folding agrees
with Python's full Unicode folding.) -/
def pyLowerChar (c : Char) : Char :=
  if 'A' ≤ c && c ≤ 'Z' then Char.ofNat (c.toNat + 32) else c

/-- Python `s.lower()`. -/
def pyLower (s : String) : String := ⟨s.data.map pyLowerChar⟩

/-- Python `s.strip()` on the character list: drop leading and trailing
whitespace. -/
def stripChars (l : List Char) : List Char :=
  ((l.dropWhile pyIsSpace).reverse.dropWhile pyIsSpace).reverse

/-- Python `s.strip()`. -/
def pyStrip (s : String) : String := ⟨stripChars s.data⟩

/-- Python `s.startswith(t)`. -/
def pyStartsWith (s t : String) : Bool := t.data.isPrefixOf s.data

/-- Python slicing `s[:n]` (the first `n` code points). -/
def pyTake (s : String) (n : Nat) : String := ⟨s.data.take n⟩

/-- Python `len(s)` (number of code points). -/
def pyLen (s : String) : Nat := s.data.length

/-- Split a character list at every occurrence of the separator character,
keeping empty pieces, as Python's `s.split(sep)` does for a one-character
separator. -/
def splitCharsOn (sep : Char) : List Char → List (List Char)
  | [] => [[]]
  | c :: rest =>
    if c = sep then [] :: splitCharsOn sep rest
    else
      match splitCharsOn sep rest with
      | [] => [[c]]
      | piece :: more => (c :: piece) :: more

/-- Python `s.split(sep)` for a one-character separator string. -/
def pySplitOn (s : String) (sep : Char) : List String :=
  (splitCharsOn sep s.data).map String.mk

/-- Characters of the first piece: Python `s.split(sep)[0]`, i.e. everything
before the first occurrence of `sep` (the whole string when `sep` is absent). -/
def takeUntil (sep : Char) (l : List Char) : List Char := l.takeWhile (· ≠ sep)

/-- Python `sep.join(pieces)` for a list of strings. -/
def pyJoin (sep : String) : List String → String
  | [] => ""
  | [s] => s
  | s :: rest => s ++ sep ++ pyJoin sep rest

/-- Whether `needle` occurs as a contiguous substring of `hay`
(Python's `needle in hay`). -/
def subOf (needle hay : List Char) : Bool :=
  needle.isPrefixOf hay ||
    match hay with
    | [] => false
    | _ :: rest => subOf needle rest

/-- Python `needle in hay` on strings. -/
def pySub (needle hay : String) : Bool := subOf needle.data hay.data

/-- Dropping a prefix never lengthens a list. -/
theorem len_dropWhile_le {α : Type} (p : α → Bool) (l : List α) :
    (l.dropWhile p).length ≤ l.length := by
  induction l with
  | nil => simp [List.dropWhile]
  | cons a l ih =>
    by_cases h : p a
    · simp only [List.dropWhile, h]
      exact Nat.le_succ_of_le ih
    · simp [List.dropWhile, h]

/-- Accumulator loop splitting a character list into maximal runs of
non-whitespace characters; `cur` is the current run, reversed. -/
def wsTokensAux (cur : List Char) : List Char → List (List Char)
  | [] => if cur.isEmpty then [] else [cur.reverse]
  | c :: rest =>
    if pyIsSpace c then
      if cur.isEmpty then wsTokensAux [] rest else cur.reverse :: wsTokensAux [] rest
    else wsTokensAux (c :: cur) rest

/-- Split a string into its maximal runs of non-whitespace characters
(Python's `s.split()`; also the token list CSS `~=` matches against). -/
def wsTokens (l : List Char) : List (List Char) := wsTokensAux [] l

/-- Whitespace-separated tokens of a string. -/
def pyTokens (s : String) : List String := (wsTokens s.data).map String.mk

/-- Strict lexicographic comparison of character lists by code point, the
order Python uses to compare `str` values. -/
def lexLt : List Char → List Char → Bool
  | [], [] => false
  | [], _ :: _ => true
  | _ :: _, [] => false
  | a :: as, b :: bs =>
    if a.toNat < b.toNat then true
    else if b.toNat < a.toNat then false
    else lexLt as bs

/-- Python `s < t` on strings. -/
def strLt (s t : String) : Bool := lexLt s.data t.data

/-- Insert a string into a strictly sorted list, keeping it strictly sorted
and duplicate-free. -/
def insertSorted (x : String) : List String → List String
  | [] => [x]
  | y :: ys =>
    if strLt x y then x :: y :: ys
    else if x = y then y :: ys
    else y :: insertSorted x ys

/-- Python `sorted(set(l))`: the strictly increasing enumeration of the
distinct elements of `l`. -/
def pySortedSet (l : List String) : List String := l.foldl (fun acc x => insertSorted x acc) []

/-! ### The parsed document

`BeautifulSoup(html, "html.parser")` is embedded as a tree of elements and
text nodes.  Attribute values are stored as the serialized attribute strings
of the markup (for multi-valued attributes such as `class` and `rel`,
soupsieve matches `=` and `*=` against this space-joined serialization and
`~=` against its whitespace-separated tokens).  A whole parsed page is a
`Node.elem "[document]" [] children` wrapper, matching the name
BeautifulSoup gives the document root; `select` / `select_one` search the
proper descendants of the node they are called on, in document (pre-)order. -/

inductive Node where
  | text (s : String)
  | elem (name : String) (attrs : List (String × String)) (children : List Node)

/-- Tag name of a node (text nodes have none). -/
def Node.tagName : Node → Option String
  | .text _ => none
  | .elem n _ _ => some n

/-- Children of a node. -/
def Node.childList : Node → List Node
  | .text _ => []
  | .elem _ _ cs => cs

/-- Python `el.get(key)`: the attribute value, or `None` when absent. -/
def Node.attr : Node → String → Option String
  | .text _, _ => none
  | .elem _ attrs _, k => attrs.lookup k

/-- Truthiness of `el.get(key)` in Python: `None` and the empty string are
falsy. -/
def attrTruthy (n : Node) (k : String) : Bool :=
  match n.attr k with
  | none => false
  | some v => v ≠ ""

/-- Attribute value under Python truthiness, `none` when absent or empty. -/
def attrOrNone (n : Node) (k : String) : Option String :=
  match n.attr k with
  | none => none
  | some v => if v = "" then none else some v

mutual

/-- The concatenation of all descendant text-node strings, in document
order: `el.get_text()`. -/
def getTextRaw : Node → String
  | .text s => s
  | .elem _ _ cs => getTextRawList cs

/-- Concatenated text of a forest of nodes. -/
def getTextRawList : List Node → String
  | [] => ""
  | n :: rest => getTextRaw n ++ getTextRawList rest

end

mutual

/-- The concatenation of the stripped descendant strings, skipping those that
strip to nothing: `el.get_text(strip=True)`. -/
def getTextStrip : Node → String
  | .text s => pyStrip s
  | .elem _ _ cs => getTextStripList cs

/-- Stripped concatenated text of a forest of nodes. -/
def getTextStripList : List Node → String
  | [] => ""
  | n :: rest => getTextStrip n ++ getTextStripList rest

end

/-! CSS selectors.  The source only ever queries a fixed, small set of
selector strings; each is embedded as a value of the following AST, whose
semantics (`ssMatches`, `selectAll`) follow soupsieve. -/

/-- One attribute condition of a compound selector. -/
inductive ACond where
  /-- `[k="v"]`: the serialized attribute value equals `v`. -/
  | exact (k v : String)
  /-- `[k*="v"]`: `v` occurs as a substring of the serialized value. -/
  | hasSub (k v : String)
  /-- `[k~="v"]`: `v` is one of the whitespace-separated tokens. -/
  | token (k v : String)
  /-- `[k]`: the attribute is present. -/
  | presence (k : String)

/-- A compound (single-step) selector: optional tag name, optional `#id`,
`.class` tokens and attribute conditions. -/
structure SSel where
  tag : Option String := none
  idSel : Option String := none
  classes : List String := []
  conds : List ACond := []

/-- Does an element node satisfy one attribute condition? -/
def acondHolds (n : Node) : ACond → Bool
  | .exact k v => n.attr k = some v
  | .hasSub k v =>
    match n.attr k with
    | none => false
    | some w => pySub v w
  | .token k v =>
    match n.attr k with
    | none => false
    | some w => (pyTokens w).contains v
  | .presence k => (n.attr k).isSome

/-- Does an element node match a compound selector? -/
def ssMatches (s : SSel) (n : Node) : Bool :=
  match n with
  | .text _ => false
  | .elem name _ _ =>
    (match s.tag with | none => true | some t => t = name) &&
    (match s.idSel with | none => true | some i => n.attr "id" = some i) &&
    s.classes.all (fun c =>
      match n.attr "class" with
      | none => false
      | some w => (pyTokens w).contains c) &&
    s.conds.all (acondHolds n)

/-- A selector with descendant combinators: `steps` lists the compound
selectors from the outermost ancestor to the subject (e.g. `"main article"`
is `[main, article]`).  A node matches when it matches the last step and has
a chain of proper ancestors matching the earlier steps, outermost upward. -/
structure Chain where
  steps : List SSel

/-- Do the given ancestor selectors (listed nearest-first) have matches in the
ancestor list (also nearest-first), in order? -/
def ancOk : List SSel → List Node → Bool
  | [], _ => true
  | _ :: _, [] => false
  | s :: srest, a :: arest => (ssMatches s a && ancOk srest arest) || ancOk (s :: srest) arest

/-- Does a node, with the given proper-ancestor list (nearest first), match a
descendant chain? -/
def chainMatches (c : Chain) (anc : List Node) (n : Node) : Bool :=
  match c.steps.reverse with
  | [] => false
  | subj :: ancSels => ssMatches subj n && ancOk ancSels anc

/-- A selector group (`sel1, sel2`): a node matches when any alternative
matches. -/
structure Sel where
  alts : List Chain

/-- Group matching. -/
def selNodeMatches (sel : Sel) (anc : List Node) (n : Node) : Bool :=
  sel.alts.any (fun c => chainMatches c anc n)

mutual

/-- All matches in the subtree rooted at a node (the node itself included);
`anc` are its proper ancestors, nearest first. -/
def selectTree (sel : Sel) (anc : List Node) : Node → List Node
  | .text s => if selNodeMatches sel anc (.text s) then [.text s] else []
  | .elem nm at_ cs =>
    (if selNodeMatches sel anc (.elem nm at_ cs) then [.elem nm at_ cs] else []) ++
      selectForest sel (.elem nm at_ cs :: anc) cs

/-- All matches in a forest of sibling subtrees, in document order; `anc` are
the common proper ancestors of the forest's roots, nearest first. -/
def selectForest (sel : Sel) (anc : List Node) : List Node → List Node
  | [] => []
  | n :: rest => selectTree sel anc n ++ selectForest sel anc rest

end

/-- `node.select(sel)`: matching proper descendants in document order. -/
def selectAll (n : Node) (sel : Sel) : List Node := selectForest sel [n] n.childList

/-- `node.select_one(sel)`: the first match in document order, if any. -/
def selectOne (n : Node) (sel : Sel) : Option Node := (selectAll n sel).head?

/-- Build a one-step selector group. -/
def sel1 (s : SSel) : Sel := ⟨[⟨[s]⟩]⟩

/-! ### Selectors used by the source

Each Lean value embeds the CSS selector string the source passes to
`select` / `select_one`. -/

/-- Selector string meta[property="article:published_time"]. -/
def selMetaPublished : Sel := sel1 { tag := some "meta", conds := [.exact "property" "article:published_time"] }

/-- Selector string time[datetime]. -/
def selTimeDatetime : Sel := sel1 { tag := some "time", conds := [.presence "datetime"] }

/-- Selector string meta[name="pubdate"], meta[itemprop="datePublished"]. -/
def selMetaPubdate : Sel :=
  ⟨[⟨[{ tag := some "meta", conds := [.exact "name" "pubdate"] }]⟩,
    ⟨[{ tag := some "meta", conds := [.exact "itemprop" "datePublished"] }]⟩]⟩

/-- Selector string meta[name="author"]. -/
def selMetaAuthor : Sel := sel1 { tag := some "meta", conds := [.exact "name" "author"] }

/-- Selector string [itemprop="author"]. -/
def selItempropAuthor : Sel := sel1 { conds := [.exact "itemprop" "author"] }

/-- Selector string [class*="author"]. -/
def selClassAuthor : Sel := sel1 { conds := [.hasSub "class" "author"] }

/-- Selector string a[rel="author"]. -/
def selRelAuthor : Sel := sel1 { tag := some "a", conds := [.exact "rel" "author"] }

/-- Selector string h1. -/
def selH1 : Sel := sel1 { tag := some "h1" }

/-- Selector string meta[property="og:title"]. -/
def selOgTitle : Sel := sel1 { tag := some "meta", conds := [.exact "property" "og:title"] }

/-- Selector string title. -/
def selTitle : Sel := sel1 { tag := some "title" }

/-- Selector string div[itemprop="articleBody"]. -/
def selArticleBodyAttr : Sel := sel1 { tag := some "div", conds := [.exact "itemprop" "articleBody"] }

/-- Selector string div.article-body. -/
def selArticleBodyClass : Sel := sel1 { tag := some "div", classes := ["article-body"] }

/-- Selector string div#article. -/
def selDivIdArticle : Sel := sel1 { tag := some "div", idSel := some "article" }

/-- Selector string article. -/
def selArticleTag : Sel := sel1 { tag := some "article" }

/-- Selector string main article. -/
def selMainArticle : Sel := ⟨[⟨[{ tag := some "main" }, { tag := some "article" }]⟩]⟩

/-- Selector string p. -/
def selP : Sel := sel1 { tag := some "p" }

/-- Selector string meta[name="description"]. -/
def selMetaDesc : Sel := sel1 { tag := some "meta", conds := [.exact "name" "description"] }

/-- Selector string meta[name="keywords"]. -/
def selMetaKeywords : Sel := sel1 { tag := some "meta", conds := [.exact "name" "keywords"] }

/-- Selector string a[rel~="tag"]. -/
def selRelTag : Sel := sel1 { tag := some "a", conds := [.token "rel" "tag"] }

/-! ### Translation of the extraction functions of `lidovky_scraper.py` -/

/-- Source identifier constant `SOURCE_SECOND_LEVEL`. -/
def SOURCE_SECOND_LEVEL : String := "lidovky"

/-- Helper `text_or_none(el)`: stripped element text, or `None`. -/
def text_or_none : Option Node → Option String
  | none => none
  | some el => some (getTextStrip el)

/-- Truthiness of an optional string (Python: `None` and `""` are falsy). -/
def optTruthy : Option String → Bool
  | none => false
  | some s => s ≠ ""

/-- Source `extract_date(soup)`: published-time meta, then `time[datetime]`,
then pubdate/datePublished meta, then `datetime.now().isoformat()` (the
extraction-time clock enters as the explicit argument `now`). -/
def extract_date (now : String) (soup : Node) : String :=
  match (selectOne soup selMetaPublished).bind (fun m => attrOrNone m "content") with
  | some v => v
  | none =>
    match (selectOne soup selTimeDatetime).bind (fun t => attrOrNone t "datetime") with
    | some v => v
    | none =>
      match (selectOne soup selMetaPubdate).bind (fun m => attrOrNone m "content") with
      | some v => v
      | none => now

/-- The body of the candidate loop of `extract_author`: a `meta` candidate
with truthy `content` yields the stripped content (even when the stripped
content is empty); otherwise a candidate with non-empty stripped text yields
that text; otherwise the loop moves on. -/
def authorStep (c : Node) : Option String :=
  if c.tagName = some "meta" && attrTruthy c "content" then
    some (pyStrip ((c.attr "content").getD ""))
  else if getTextStrip c ≠ "" then some (getTextStrip c)
  else none

/-- The candidate list of `extract_author`. -/
def authorCands (soup : Node) : List (Option Node) :=
  [selectOne soup selMetaAuthor, selectOne soup selItempropAuthor,
   selectOne soup selClassAuthor, selectOne soup selRelAuthor]

/-- The candidate loop of `extract_author`. -/
def authorLoop : List (Option Node) → String
  | [] => "Neznámý"
  | none :: rest => authorLoop rest
  | some c :: rest =>
    match authorStep c with
    | some v => v
    | none => authorLoop rest

/-- Source `extract_author(soup)`. -/
def extract_author (soup : Node) : String := authorLoop (authorCands soup)

/-- Source `extract_title(soup)`: `h1` text, then `og:title` meta content,
then the `title` element, else the empty string. -/
def extract_title (soup : Node) : String :=
  let h1 := text_or_none (selectOne soup selH1)
  if optTruthy h1 then h1.getD ""
  else
    match (selectOne soup selOgTitle).bind (fun m => attrOrNone m "content") with
    | some v => pyStrip v
    | none => (text_or_none (selectOne soup selTitle)).getD ""

/-- Collapse every maximal whitespace run to a single space, the effect of
the source regex substitution `re.sub(r"\s+", " ", ptext)`; the flag records
whether the previous character was whitespace (so only the first character
of a run emits the space). -/
def collapseWSAux (prevSpace : Bool) : List Char → List Char
  | [] => []
  | c :: rest =>
    if pyIsSpace c then
      if prevSpace then collapseWSAux true rest else ' ' :: collapseWSAux true rest
    else c :: collapseWSAux false rest

/-- Whitespace-run collapsing of a character list. -/
def collapseWS (l : List Char) : List Char := collapseWSAux false l

/-- Source `clean_paragraph(ptext)`: collapse whitespace runs, then strip. -/
def clean_paragraph (ptext : String) : String := pyStrip ⟨collapseWS ptext.data⟩

/-- The container-candidate selector list of `extract_body_paragraphs`. -/
def bodySelectors : List Sel :=
  [selArticleBodyAttr, selArticleBodyClass, selDivIdArticle, selArticleTag, selMainArticle]

/-- The container-discovery loop: the first selector with a match wins. -/
def findContainer (soup : Node) : List Sel → Option Node
  | [] => none
  | sel :: rest =>
    match selectOne soup sel with
    | some c => some c
    | none => findContainer soup rest

/-- The paragraph filter of `extract_body_paragraphs`: at least 40
characters and not starting (lowercased) with "foto", "autor:" or
"reklama". -/
def keepPar (txt : String) : Bool :=
  40 ≤ pyLen txt &&
    !(pyStartsWith (pyLower txt) "foto" || pyStartsWith (pyLower txt) "autor:" ||
      pyStartsWith (pyLower txt) "reklama")

/-- The cleaned and filtered paragraph texts of the chosen container (the
list `texts` of the source). -/
def bodyTexts (soup : Node) : List String :=
  let container := findContainer soup bodySelectors
  (((selectAll (container.getD soup) selP).map (fun p => clean_paragraph (getTextRaw p))).filter
    keepPar)

/-- The seen-set de-duplication loop of `extract_body_paragraphs`. -/
def pyDedupAux (seen : List String) : List String → List String
  | [] => []
  | t :: rest =>
    if seen.contains t then pyDedupAux seen rest
    else t :: pyDedupAux (t :: seen) rest

/-- De-duplication keeping the first occurrence of each string, in encounter
order. -/
def pyDedup (l : List String) : List String := pyDedupAux [] l

/-- Source `extract_body_paragraphs(soup)`. -/
def extract_body_paragraphs (soup : Node) : List String := pyDedup (bodyTexts soup)

/-- Source `extract_snippet(soup, body_paragraphs)`: meta description, then
the first body paragraph truncated to 400 characters, then the first `p`
anywhere, else the empty string. -/
def extract_snippet (soup : Node) (body_paragraphs : List String) : String :=
  match (selectOne soup selMetaDesc).bind (fun m => attrOrNone m "content") with
  | some v => clean_paragraph v
  | none =>
    match body_paragraphs with
    | p0 :: _ => pyTake p0 400
    | [] =>
      match selectOne soup selP with
      | some p => clean_paragraph (getTextRaw p)
      | none => ""

/-- The keywords-meta contribution to `extract_tags`: the comma-separated
pieces of the `keywords` meta content, stripped, empty pieces skipped. -/
def keywordTags (soup : Node) : List String :=
  match (selectOne soup selMetaKeywords).bind (fun m => attrOrNone m "content") with
  | some v => ((pySplitOn v ',').map pyStrip).filter (fun t => t ≠ "")
  | none => []

/-- The rel~="tag" contribution to `extract_tags`: the stripped text of every
matching anchor, empty texts skipped. -/
def relTagTexts (soup : Node) : List String :=
  ((selectAll soup selRelTag).map getTextStrip).filter (fun t => t ≠ "")

/-- Source `extract_tags(soup)`: the sorted set of the keyword tags and the
rel-tag anchor texts. -/
def extract_tags (soup : Node) : List String :=
  pySortedSet (keywordTags soup ++ relTagTexts soup)

/-- The article record assembled by `parse_article`, with the fields in the
source dict's insertion order. -/
structure Article where
  title : String
  url : String
  date : String
  author : String
  source : String
  content_snippet : String
  full_content : String
  tags : List String
deriving DecidableEq

/-- Source `parse_article(url)` after a successful fetch and parse of the
page (`soup`): `None` when the title is empty, otherwise the assembled
record.  `now` is the extraction-time clock used by the date fallback. -/
def parse_article (now url : String) (soup : Node) : Option Article :=
  let title := extract_title soup
  if title = "" then none
  else
    let body_pars := extract_body_paragraphs soup
    some
      { title := title
        url := url
        date := extract_date now soup
        author := extract_author soup
        source := SOURCE_SECOND_LEVEL ++ ".cz"
        content_snippet := extract_snippet soup body_pars
        full_content := pyJoin "\n\n" body_pars
        tags := extract_tags soup }

/-- The per-candidate decision of `main`: a fetch failure or a title-less
page yields nothing from `parse_article`; an article whose `full_content` is
empty is dropped by the check `if art and art.get("full_content")`; anything
else is kept (persisted, or appended to the aggregate). -/
def processCandidate (now url : String) (fetched : Option Node) : Option Article :=
  match fetched with
  | none => none
  | some soup =>
    match parse_article now url soup with
    | none => none
    | some art => if art.full_content ≠ "" then some art else none

/-! ### MD5 (`hashlib.md5`)

The MD5 algorithm of RFC 1321, operating on the UTF-8 encoding of the input
string, exactly as `hashlib.md5(s.encode("utf-8"))` does.  32-bit machine
arithmetic is modelled on `Nat` with explicit reduction `% 2^32`. -/

/-- `2^32`, the modulus of MD5's 32-bit arithmetic. -/
def m32 : Nat := 4294967296

/-- UTF-8 encoding of one code point. -/
def utf8Char (c : Char) : List Nat :=
  let n := c.toNat
  if n < 0x80 then [n]
  else if n < 0x800 then [0xc0 + n / 64, 0x80 + n % 64]
  else if n < 0x10000 then [0xe0 + n / 4096, 0x80 + (n / 64) % 64, 0x80 + n % 64]
  else [0xf0 + n / 262144, 0x80 + (n / 4096) % 64, 0x80 + (n / 64) % 64, 0x80 + n % 64]

/-- Python `s.encode("utf-8")` as a byte list. -/
def utf8Encode (s : String) : List Nat := (s.data.map utf8Char).flatten

/-- 32-bit left rotation. -/
def rotl (x s : Nat) : Nat := ((x <<< s) ||| (x >>> (32 - s))) % m32

/-- MD5 round function F. -/
def md5F (b c d : Nat) : Nat := (b &&& c) ||| ((b ^^^ 0xffffffff) &&& d)

/-- MD5 round function G. -/
def md5G (b c d : Nat) : Nat := (d &&& b) ||| ((d ^^^ 0xffffffff) &&& c)

/-- MD5 round function H. -/
def md5H (b c d : Nat) : Nat := b ^^^ c ^^^ d

/-- MD5 round function I. -/
def md5I (b c d : Nat) : Nat := c ^^^ (b ||| (d ^^^ 0xffffffff))

/-- The 64 MD5 sine-derived constants of RFC 1321. -/
def md5K : List Nat := [
  0xd76aa478, 0xe8c7b756, 0x242070db, 0xc1bdceee,
  0xf57c0faf, 0x4787c62a, 0xa8304613, 0xfd469501,
  0x698098d8, 0x8b44f7af, 0xffff5bb1, 0x895cd7be,
  0x6b901122, 0xfd987193, 0xa679438e, 0x49b40821,
  0xf61e2562, 0xc040b340, 0x265e5a51, 0xe9b6c7aa,
  0xd62f105d, 0x02441453, 0xd8a1e681, 0xe7d3fbc8,
  0x21e1cde6, 0xc33707d6, 0xf4d50d87, 0x455a14ed,
  0xa9e3e905, 0xfcefa3f8, 0x676f02d9, 0x8d2a4c8a,
  0xfffa3942, 0x8771f681, 0x6d9d6122, 0xfde5380c,
  0xa4beea44, 0x4bdecfa9, 0xf6bb4b60, 0xbebfbc70,
  0x289b7ec6, 0xeaa127fa, 0xd4ef3085, 0x04881d05,
  0xd9d4d039, 0xe6db99e5, 0x1fa27cf8, 0xc4ac5665,
  0xf4292244, 0x432aff97, 0xab9423a7, 0xfc93a039,
  0x655b59c3, 0x8f0ccc92, 0xffeff47d, 0x85845dd1,
  0x6fa87e4f, 0xfe2ce6e0, 0xa3014314, 0x4e0811a1,
  0xf7537e82, 0xbd3af235, 0x2ad7d2bb, 0xeb86d391]

/-- The 64 MD5 per-round rotation amounts. -/
def md5S : List Nat := [
  7, 12, 17, 22, 7, 12, 17, 22, 7, 12, 17, 22, 7, 12, 17, 22,
  5, 9, 14, 20, 5, 9, 14, 20, 5, 9, 14, 20, 5, 9, 14, 20,
  4, 11, 16, 23, 4, 11, 16, 23, 4, 11, 16, 23, 4, 11, 16, 23,
  6, 10, 15, 21, 6, 10, 15, 21, 6, 10, 15, 21, 6, 10, 15, 21]

/-- The little-endian byte representation of `x` on `k` bytes. -/
def leBytes : Nat → Nat → List Nat
  | 0, _ => []
  | k + 1, x => (x % 256) :: leBytes k (x / 256)

/-- MD5 padding: append `0x80`, zero bytes up to 56 mod 64, and the 64-bit
little-endian bit length. -/
def md5Pad (msg : List Nat) : List Nat :=
  msg ++ [0x80] ++ List.replicate ((119 - msg.length % 64) % 64) 0 ++
    leBytes 8 ((8 * msg.length) % (m32 * m32))

/-- Split a byte list whose length is a multiple of 64 into 64-byte blocks
(`cur` accumulates the current block, reversed). -/
def chunks64Aux (cur : List Nat) (curLen : Nat) : List Nat → List (List Nat)
  | [] => if cur.isEmpty then [] else [cur.reverse]
  | b :: rest =>
    if curLen = 63 then (b :: cur).reverse :: chunks64Aux [] 0 rest
    else chunks64Aux (b :: cur) (curLen + 1) rest

/-- The 64-byte blocks of a padded message. -/
def chunks64 (l : List Nat) : List (List Nat) := chunks64Aux [] 0 l

/-- One step of the MD5 compression loop; `M g` is the `g`-th 32-bit
little-endian word of the current block. -/
def md5Round (M : Nat → Nat) (st : Nat × Nat × Nat × Nat) (i : Nat) :
    Nat × Nat × Nat × Nat :=
  let (a, b, c, d) := st
  let fg : Nat × Nat :=
    if i < 16 then (md5F b c d, i)
    else if i < 32 then (md5G b c d, (5 * i + 1) % 16)
    else if i < 48 then (md5H b c d, (3 * i + 5) % 16)
    else (md5I b c d, (7 * i) % 16)
  let tmp := (a + fg.1 + md5K.getD i 0 + M fg.2) % m32
  (d, (b + rotl tmp (md5S.getD i 0)) % m32, b, c)

/-- MD5 compression of one 64-byte block into the running state. -/
def md5Chunk (st : Nat × Nat × Nat × Nat) (block : List Nat) :
    Nat × Nat × Nat × Nat :=
  let M : Nat → Nat := fun g =>
    block.getD (4 * g) 0 + 256 * block.getD (4 * g + 1) 0 +
      65536 * block.getD (4 * g + 2) 0 + 16777216 * block.getD (4 * g + 3) 0
  let r := (List.range 64).foldl (md5Round M) st
  ((st.1 + r.1) % m32, (st.2.1 + r.2.1) % m32, (st.2.2.1 + r.2.2.1) % m32,
    (st.2.2.2 + r.2.2.2) % m32)

/-- The 16-byte MD5 digest of a byte list. -/
def md5Digest (msg : List Nat) : List Nat :=
  let st := (chunks64 (md5Pad msg)).foldl md5Chunk
    (0x67452301, 0xefcdab89, 0x98badcfe, 0x10325476)
  leBytes 4 st.1 ++ leBytes 4 st.2.1 ++ leBytes 4 st.2.2.1 ++ leBytes 4 st.2.2.2

/-- A lowercase hexadecimal digit. -/
def hexChar (n : Nat) : Char :=
  if n < 10 then Char.ofNat (48 + n) else Char.ofNat (87 + n)

/-- The two lowercase hex characters of one byte. -/
def byteHex (b : Nat) : List Char := [hexChar (b / 16), hexChar (b % 16)]

/-- Python `hashlib.md5(s.encode("utf-8")).hexdigest()`. -/
def md5hex (s : String) : String := ⟨((utf8Encode s |> md5Digest).map byteHex).flatten⟩

/-- Python slicing `s[-n:]`: the last `n` code points (the whole string when
it is shorter). -/
def pyLastSlice (s : String) (n : Nat) : String := ⟨s.data.drop (s.data.length - n)⟩

/-- Source `md5_tail8(s)`: the last 8 characters of the MD5 hex digest of
the UTF-8 encoding of `s`. -/
def md5_tail8 (s : String) : String := pyLastSlice (md5hex s) 8

/-! ### `urllib.parse`: `urlsplit`, `urlparse`, `urljoin`

An executable embedding of the CPython (3.11) implementations used by
`normalize_url`.  `ValueError` is modelled with `Except String`.  The
internal computations work on `List Char`.  Deliberate modelling choices,
each only reachable for inputs the lidovky host filter rejects anyway:
`_checknetloc`'s NFKC-based check (which can raise only for certain
non-ASCII authorities) is modelled as always passing, and the textual
IPv4/IPv6 validation of bracketed hosts follows the `ipaddress` grammar. -/

/-- ASCII letter test (`url[0].isascii() and url[0].isalpha()`). -/
def isAsciiAlpha (c : Char) : Bool :=
  ('a' ≤ c && c ≤ 'z') || ('A' ≤ c && c ≤ 'Z')

/-- ASCII digit test. -/
def isAsciiDigit (c : Char) : Bool := '0' ≤ c && c ≤ '9'

/-- Hexadecimal digit test (`ipaddress._HEX_DIGITS`). -/
def isHexDigit (c : Char) : Bool :=
  isAsciiDigit c || ('a' ≤ c && c ≤ 'f') || ('A' ≤ c && c ≤ 'F')

/-- The C0 control characters and space (`_WHATWG_C0_CONTROL_OR_SPACE`),
stripped from the start of every URL. -/
def isC0OrSpace (c : Char) : Bool := c.toNat ≤ 0x20

/-- Tab, carriage return and newline (`_UNSAFE_URL_BYTES_TO_REMOVE`),
removed everywhere in a URL. -/
def isUnsafeByte (c : Char) : Bool := c = '\t' || c = '\r' || c = '\n'

/-- The sanitization `urlsplit` applies to its `url` argument: left-strip
C0 controls and space, then remove tab/CR/LF everywhere. -/
def sanitizeUrl (l : List Char) : List Char :=
  (l.dropWhile isC0OrSpace).filter (fun c => !isUnsafeByte c)

/-- The sanitization `urlsplit` applies to its default-scheme argument:
strip C0 controls and space from both ends, then remove tab/CR/LF. -/
def sanitizeDflt (l : List Char) : List Char :=
  (((l.dropWhile isC0OrSpace).reverse.dropWhile isC0OrSpace).reverse).filter
    (fun c => !isUnsafeByte c)

/-- The characters allowed in a scheme (`scheme_chars`). -/
def schemeChar (c : Char) : Bool :=
  isAsciiAlpha c || isAsciiDigit c || c = '+' || c = '-' || c = '.'

/-- Head-is-ASCII-letter test. -/
def headAlpha : List Char → Bool
  | [] => false
  | c :: _ => isAsciiAlpha c

/-- Scheme extraction of `urlsplit`: when the URL has a colon at a positive
index, the first character is an ASCII letter and everything before the
colon is a scheme character, return the lowercased scheme and the remainder;
otherwise no scheme is extracted. -/
def extractScheme (u : List Char) : Option (List Char) × List Char :=
  let pre := u.takeWhile (fun c => c ≠ ':')
  if pre.length < u.length && !pre.isEmpty && headAlpha u && pre.all schemeChar then
    (some (pre.map pyLowerChar), u.drop (pre.length + 1))
  else (none, u)

/-- `_splitnetloc(url, 2)` applied when the remainder starts with `//`: the
netloc runs to the first of `/`, `?`, `#`; the delimiter stays with the
remainder. -/
def netlocSplit : List Char → Option (List Char × List Char)
  | '/' :: '/' :: r2 =>
    let nl := r2.takeWhile (fun c => c ≠ '/' && c ≠ '?' && c ≠ '#')
    some (nl, r2.drop nl.length)
  | _ => none

/-- Python `l.split(sep, 1)`: the part before the first occurrence of `sep`,
and the part after it when `sep` occurs. -/
def splitFirst (sep : Char) : List Char → List Char × Option (List Char)
  | [] => ([], none)
  | c :: rest =>
    if c = sep then ([], some rest)
    else
      let r := splitFirst sep rest
      (c :: r.1, r.2)

/-- The decimal value of an ASCII digit string. -/
def decVal (l : List Char) : Nat := l.foldl (fun a c => a * 10 + (c.toNat - 48)) 0

/-- One IPv4 octet per `ipaddress`: 1-3 ASCII digits, no leading zero, value
at most 255. -/
def validOctet (p : List Char) : Bool :=
  !p.isEmpty && p.length ≤ 3 && p.all isAsciiDigit &&
    (p.length = 1 || p.take 1 ≠ ['0']) && decVal p ≤ 255

/-- Textual IPv4 address per `ipaddress`: exactly four valid octets. -/
def validIPv4 (l : List Char) : Bool :=
  let ps := splitCharsOn '.' l
  ps.length = 4 && ps.all validOctet

/-- One IPv6 hextet per `ipaddress._parse_hextet`: 1-4 hex digits. -/
def validHextet (p : List Char) : Bool :=
  !p.isEmpty && p.length ≤ 4 && p.all isHexDigit

/-- The compression/grouping check of `ipaddress.IPv6Address._ip_int_from_string`
on the colon-separated parts (an embedded IPv4 tail has already been replaced
by two hextets). -/
def v6PartsOk (parts : List (List Char)) : Bool :=
  let n := parts.length
  let mids := (parts.drop 1).dropLast
  let emptyCount := (mids.filter (fun p => p.isEmpty)).length
  let headEmpty := (parts.headD ['x']).isEmpty
  let lastEmpty := (parts.getLastD ['x']).isEmpty
  if 1 < emptyCount then false
  else if emptyCount = 1 then
    let skipIdx := 1 + mids.findIdx (fun p => p.isEmpty)
    let hi0 := skipIdx
    let lo0 := n - skipIdx - 1
    let hi := if headEmpty then hi0 - 1 else hi0
    if headEmpty && hi ≠ 0 then false
    else
      let lo := if lastEmpty then lo0 - 1 else lo0
      if lastEmpty && lo ≠ 0 then false
      else if 8 - (hi + lo) < 1 || 8 < hi + lo then false
      else (parts.take hi).all validHextet && (parts.drop (n - lo)).all validHextet
  else n = 8 && !headEmpty && !lastEmpty && parts.all validHextet

/-- Textual IPv6 address (optionally `%zone`-scoped) per `ipaddress`. -/
def validIPv6 (l : List Char) : Bool :=
  let z := splitFirst '%' l
  (match z.2 with
   | none => true
   | some zone => !zone.isEmpty && !zone.contains '%') &&
  (let parts0 := splitCharsOn ':' z.1
   if parts0.length < 3 then false
   else
     let lastP := parts0.getLastD []
     if lastP.contains '.' then
       validIPv4 lastP && v6PartsOk (parts0.dropLast ++ [['0'], ['0']])
     else v6PartsOk parts0)

/-- `_check_bracketed_host`: an IPvFuture literal `v<hex>+.<anything>+`, or a
textual IPv6 address (an IPv4 address in brackets raises, as does anything
else `ipaddress` rejects). -/
def bracketedHostOk (host : List Char) : Bool :=
  match host with
  | 'v' :: rest =>
    let pre := rest.takeWhile (fun c => c ≠ '.')
    !pre.isEmpty && pre.all isHexDigit && pre.length + 1 < rest.length
  | _ => validIPv6 host

/-- The host between the first `[` and the following `]` of a netloc
(`netloc.partition('[')[2].partition(']')[0]`). -/
def bracketedHostOf (nl : List Char) : List Char :=
  ((nl.dropWhile (fun c => c ≠ '[')).drop 1).takeWhile (fun c => c ≠ ']')

/-- Result record of `urlsplit`. -/
structure SplitC where
  scheme : List Char
  netloc : List Char
  path : List Char
  query : List Char
  fragment : List Char

/-- The fragment and query splits closing `urlsplit` (fragments are always
allowed in the source's calls). -/
def finishSplit (sch nl rest : List Char) : SplitC :=
  let f := splitFirst '#' rest
  let q := splitFirst '?' f.1
  ⟨sch, nl, q.1, (q.2).getD [], (f.2).getD []⟩

/-- The two authority checks of `urlsplit`: balanced brackets, and a valid
bracketed host when brackets are present. -/
def netlocOkB (nl : List Char) : Bool :=
  !((nl.contains '[' && !nl.contains ']') || (nl.contains ']' && !nl.contains '[')) &&
    !(nl.contains '[' && nl.contains ']' && !bracketedHostOk (bracketedHostOf nl))

/-- The body of `urlsplit` after input sanitization: scheme extraction,
authority split with its checks, then the fragment and query splits. -/
def urlsplitCore (u1 ds : List Char) : Except String SplitC :=
  let es := extractScheme u1
  let sch := es.1.getD ds
  match netlocSplit es.2 with
  | some (nl, rest2) =>
    if (nl.contains '[' && !nl.contains ']') || (nl.contains ']' && !nl.contains '[') then
      .error "Invalid IPv6 URL"
    else if nl.contains '[' && nl.contains ']' && !bracketedHostOk (bracketedHostOf nl) then
      .error "invalid bracketed host"
    else .ok (finishSplit sch nl rest2)
  | none => .ok (finishSplit sch [] es.2)

/-- CPython `urlsplit(url, scheme=dflt, allow_fragments=True)`. -/
def urlsplitC (url0 dflt0 : List Char) : Except String SplitC :=
  urlsplitCore (sanitizeUrl url0) (sanitizeDflt dflt0)

/-- Result record of `urlparse` (`urlsplit` plus the `;`-params split). -/
structure ParseC where
  scheme : List Char
  netloc : List Char
  path : List Char
  params : List Char
  query : List Char
  fragment : List Char

/-- The suffix of a character list after its last `/` (the whole list when
there is no `/`). -/
def afterLastSlash (l : List Char) : List Char :=
  (l.reverse.takeWhile (fun c => c ≠ '/')).reverse

/-- `_splitparams(url)`: split at the first `;` of the segment after the
last `/` (of the whole string when there is no `/`). -/
def splitParams (p : List Char) : List Char × List Char :=
  if p.contains '/' then
    let region := afterLastSlash p
    let pre := p.take (p.length - region.length)
    match splitFirst ';' region with
    | (a, some b) => (pre ++ a, b)
    | (_, none) => (p, [])
  else
    match splitFirst ';' p with
    | (a, some b) => (a, b)
    | (_, none) => (p, [])

/-- The schemes of `uses_relative`. -/
def uses_relative : List String :=
  ["", "ftp", "http", "gopher", "nntp", "imap", "wais", "file", "https",
   "shttp", "mms", "prospero", "rtsp", "rtspu", "sftp", "svn", "svn+ssh",
   "ws", "wss"]

/-- The schemes of `uses_netloc`. -/
def uses_netloc : List String :=
  ["", "ftp", "http", "gopher", "nntp", "telnet", "imap", "wais", "file",
   "mms", "https", "shttp", "snews", "prospero", "rtsp", "rtspu", "rsync",
   "svn", "svn+ssh", "sftp", "nfs", "git", "git+ssh", "ws", "wss",
   "itms-services"]

/-- The schemes of `uses_params`. -/
def uses_params : List String :=
  ["", "ftp", "hdl", "prospero", "http", "imap", "https", "shttp", "rtsp",
   "rtspu", "sip", "sips", "mms", "sftp", "tel"]

/-- CPython `urlparse(url, scheme=dflt)`. -/
def urlparseC (url0 dflt0 : List Char) : Except String ParseC :=
  match urlsplitC url0 dflt0 with
  | .error e => .error e
  | .ok s =>
    if uses_params.contains ⟨s.scheme⟩ && s.path.contains ';' then
      let pr := splitParams s.path
      .ok ⟨s.scheme, s.netloc, pr.1, pr.2, s.query, s.fragment⟩
    else .ok ⟨s.scheme, s.netloc, s.path, [], s.query, s.fragment⟩

/-- The slash `urlunsplit` inserts before a rootless path when an
authority is present (`url[:1] != '/'`). -/
def insSlash (p : List Char) : List Char :=
  if !p.isEmpty && p.take 1 ≠ ['/'] then '/' :: p else p

/-- CPython `urlunsplit((scheme, netloc, path, query, fragment))`. -/
def urlunsplitC (sch nl p q f : List Char) : List Char :=
  let u1 :=
    if !nl.isEmpty || p.take 2 = ['/', '/'] then
      '/' :: '/' :: (nl ++ insSlash p)
    else p
  let u2 := if !sch.isEmpty then sch ++ ':' :: u1 else u1
  let u3 := if !q.isEmpty then u2 ++ '?' :: q else u2
  if !f.isEmpty then u3 ++ '#' :: f else u3

/-- `urlunparse`: re-attach nonempty params to the path with `;`. -/
def mergeParams (p params : List Char) : List Char :=
  if params.isEmpty then p else p ++ ';' :: params

/-- CPython `urlunparse`: re-attach the params to the last path segment,
then `urlunsplit`. -/
def urlunparseC (sch nl p params q f : List Char) : List Char :=
  urlunsplitC sch nl (mergeParams p params) q f

/-- Keep every non-empty segment, but keep the final segment even when
empty (`segments[1:-1] = filter(None, segments[1:-1])` acting on the tail). -/
def midKeepLast : List (List Char) → List (List Char)
  | [] => []
  | [y] => [y]
  | y :: rest => if y.isEmpty then midKeepLast rest else y :: midKeepLast rest

/-- Join segments with `/` (`'/'.join(resolved_path)`). -/
def joinSlash : List (List Char) → List Char
  | [] => []
  | [x] => x
  | x :: rest => x ++ '/' :: joinSlash rest

/-- The dot-segment resolution of `urljoin` for a relative-path reference:
`segs` are the merged path segments; the accumulator holds the resolved
segments in reverse (`.pop()` on an empty list is ignored, as CPython's
`except IndexError: pass` does). -/
def resolveSegs (segs : List (List Char)) : List (List Char) :=
  let acc := segs.foldl
    (fun acc seg =>
      if seg = ['.', '.'] then acc.tail
      else if seg = ['.'] then acc
      else seg :: acc) []
  let acc2 :=
    if segs.getLastD [] = ['.'] || segs.getLastD [] = ['.', '.'] then [] :: acc
    else acc
  acc2.reverse

/-- The merged segment list of `urljoin`'s path-joining branch: the base
path's directory segments (all but a final non-directory segment) followed
by the reference path's segments, redundant empty middle segments removed;
an absolute reference path keeps only its own segments. -/
def mergedSegs (b r : ParseC) : List (List Char) :=
  let baseParts0 := splitCharsOn '/' b.path
  let baseParts :=
    if baseParts0.getLastD [] ≠ [] then baseParts0.dropLast else baseParts0
  if r.path.take 1 = ['/'] then splitCharsOn '/' r.path
  else
    match baseParts ++ splitCharsOn '/' r.path with
    | [] => []
    | x :: rest => x :: midKeepLast rest

/-- The joined path: dot segments resolved and the pieces reassembled, an
empty result becoming `/`. -/
def joinedPathC (b r : ParseC) : List Char :=
  let joined := joinSlash (resolveSegs (mergedSegs b r))
  if joined.isEmpty then ['/'] else joined

/-- The path-merging branch of `urljoin` (relative path, netloc already
resolved): drop the base path's final non-directory segment, merge, filter
redundant empty middle segments, resolve dot segments, and reassemble. -/
def joinPathsC (b r : ParseC) (nl : List Char) : List Char :=
  urlunparseC r.scheme nl (joinedPathC b r) r.params r.query r.fragment

/-- CPython `urljoin(base, url)`. -/
def urljoinC (base url : List Char) : Except String (List Char) :=
  if base.isEmpty then .ok url
  else if url.isEmpty then .ok base
  else
    match urlparseC base [] with
    | .error e => .error e
    | .ok b =>
      match urlparseC url b.scheme with
      | .error e => .error e
      | .ok r =>
        if r.scheme ≠ b.scheme || !uses_relative.contains ⟨r.scheme⟩ then .ok url
        else if uses_netloc.contains ⟨r.scheme⟩ && !r.netloc.isEmpty then
          .ok (urlunparseC r.scheme r.netloc r.path r.params r.query r.fragment)
        else
          let nl := if uses_netloc.contains ⟨r.scheme⟩ then b.netloc else r.netloc
          if r.path.isEmpty && r.params.isEmpty then
            let q := if r.query.isEmpty then b.query else r.query
            .ok (urlunparseC r.scheme nl b.path b.params q r.fragment)
          else .ok (joinPathsC b r nl)

/-- The canonical hostnames `normalize_url` accepts. -/
def lidovkyHosts : List String := ["www.lidovky.cz", "lidovky.cz"]

/-- Source `normalize_url(base, href)`: empty for a falsy href, otherwise
resolve against the base, reject foreign hosts as the empty string, and
return everything before the first `#`.  A `ValueError` raised inside
`urljoin` / `urlparse` propagates to the caller uncaught, modelled as
`.error`. -/
def normalize_url (base href : String) : Except String String :=
  if href = "" then .ok ""
  else
    match urljoinC base.data href.data with
    | .error e => .error e
    | .ok absu =>
      match urlparseC absu [] with
      | .error e => .error e
      | .ok parsed =>
        if lidovkyHosts.contains ⟨parsed.netloc⟩ then .ok ⟨takeUntil '#' absu⟩
        else .ok ""

/-! ### Persistence (`save_article`)

The filesystem is modelled as a map from paths to file contents (an
association list; directories, which `mkdir(exist_ok=True)` creates without
ever touching file contents, are not modelled).  The date-dependent path
follows the source: `datetime.fromisoformat` on the article date with `"Z"`
replaced by `"+00:00"`, falling back to the current time on a parse error.
The model validates the calendar-date component (which alone determines the
path) for the `YYYY-MM-DD` and `YYYYMMDD` forms accepted by Python 3.11 and
leaves the time-of-day component unvalidated. -/

/-- A calendar date. -/
structure DateD where
  year : Nat
  month : Nat
  day : Nat
deriving DecidableEq

/-- Gregorian leap-year rule. -/
def isLeap (y : Nat) : Bool := (y % 4 = 0 && y % 100 ≠ 0) || y % 400 = 0

/-- Days in a month. -/
def daysInMonth (y m : Nat) : Nat :=
  if m = 2 then (if isLeap y then 29 else 28)
  else if m = 4 || m = 6 || m = 9 || m = 11 then 30
  else 31

/-- A valid `datetime.date` triple (year within MINYEAR..MAXYEAR). -/
def validDate (y m d : Nat) : Bool :=
  1 ≤ y && y ≤ 9999 && 1 ≤ m && m ≤ 12 && 1 ≤ d && d ≤ daysInMonth y m

/-- Python `s.replace("Z", "+00:00")` on the character list. -/
def replaceZ (l : List Char) : List Char :=
  l.flatMap (fun c => if c = 'Z' then ['+', '0', '0', ':', '0', '0'] else [c])

/-- The calendar-date component accepted by `datetime.fromisoformat` (Python
3.11 forms `YYYY-MM-DD` and `YYYYMMDD`; week-date forms and the validity of a
following time-of-day component are not modelled). -/
def pyFromIsoDate (s0 : String) : Option DateD :=
  match replaceZ s0.data with
  | y1 :: y2 :: y3 :: y4 :: rest =>
    if [y1, y2, y3, y4].all isAsciiDigit then
      let y := decVal [y1, y2, y3, y4]
      match rest with
      | '-' :: m1 :: m2 :: '-' :: d1 :: d2 :: _ =>
        if [m1, m2, d1, d2].all isAsciiDigit &&
            validDate y (decVal [m1, m2]) (decVal [d1, d2]) then
          some ⟨y, decVal [m1, m2], decVal [d1, d2]⟩
        else none
      | m1 :: m2 :: d1 :: d2 :: _ =>
        if [m1, m2, d1, d2].all isAsciiDigit &&
            validDate y (decVal [m1, m2]) (decVal [d1, d2]) then
          some ⟨y, decVal [m1, m2], decVal [d1, d2]⟩
        else none
      | _ => none
    else none
  | _ => none

/-- A decimal digit character. -/
def digitChar (n : Nat) : Char := Char.ofNat (48 + n % 10)

/-- Decimal digits of a natural number (fuel-driven so that it evaluates in
the kernel; the fuel bounds the number of digits). -/
def natDigitsAux : Nat → Nat → List Char
  | 0, _ => []
  | f + 1, n => if n < 10 then [digitChar n] else natDigitsAux f (n / 10) ++ [digitChar (n % 10)]

/-- Decimal representation of a natural number. -/
def natStr (n : Nat) : String := ⟨natDigitsAux (n + 1) n⟩

/-- Left-pad with zeros to the given width (`strftime`'s `%Y`, `%m`, `%d`). -/
def padZeros (s : String) (w : Nat) : String :=
  ⟨List.replicate (w - s.data.length) '0' ++ s.data⟩

/-- The output path `save_article` computes:
`base_dir/data/lidovky/YYYY/MM/lidovky-YYYYMMDD-hash8.json`, dated from the
article's metadata when parseable, else from the current time `now`. -/
def save_path (base_dir : String) (now : DateD) (article : Article) : String :=
  let dt := (pyFromIsoDate article.date).getD now
  let yyyy := padZeros (natStr dt.year) 4
  let mm := padZeros (natStr dt.month) 2
  let yyyymmdd := yyyy ++ mm ++ padZeros (natStr dt.day) 2
  let hash8 := md5_tail8 article.url
  base_dir ++ "/data/" ++ SOURCE_SECOND_LEVEL ++ "/" ++ yyyy ++ "/" ++ mm ++ "/" ++
    (SOURCE_SECOND_LEVEL ++ "-" ++ yyyymmdd ++ "-" ++ hash8 ++ ".json")

/-- JSON string escaping as `json.dump(..., ensure_ascii=False)` performs it. -/
def jsonEscapeChar (c : Char) : List Char :=
  if c = '"' then ['\\', '"']
  else if c = '\\' then ['\\', '\\']
  else if c = '\n' then ['\\', 'n']
  else if c = '\r' then ['\\', 'r']
  else if c = '\t' then ['\\', 't']
  else if c.toNat = 8 then ['\\', 'b']
  else if c.toNat = 12 then ['\\', 'f']
  else if c.toNat < 0x20 then
    '\\' :: 'u' :: '0' :: '0' :: byteHex c.toNat
  else [c]

/-- A JSON string literal. -/
def jsonStr (s : String) : String := "\"" ++ ⟨s.data.flatMap jsonEscapeChar⟩ ++ "\""

/-- The `tags` array with `json.dump`'s `indent=4` layout. -/
def serializeTags (tags : List String) : String :=
  match tags with
  | [] => "[]"
  | _ => "[\n" ++ pyJoin ",\n" (tags.map (fun t => "        " ++ jsonStr t)) ++ "\n    ]"

/-- `json.dump(article, f, indent=4, ensure_ascii=False)`: the serialized
article with the dict's insertion order of fields. -/
def serializeArticle (a : Article) : String :=
  "\x7b\n" ++
    pyJoin ",\n"
      ["    " ++ jsonStr "title" ++ ": " ++ jsonStr a.title,
       "    " ++ jsonStr "url" ++ ": " ++ jsonStr a.url,
       "    " ++ jsonStr "date" ++ ": " ++ jsonStr a.date,
       "    " ++ jsonStr "author" ++ ": " ++ jsonStr a.author,
       "    " ++ jsonStr "source" ++ ": " ++ jsonStr a.source,
       "    " ++ jsonStr "content_snippet" ++ ": " ++ jsonStr a.content_snippet,
       "    " ++ jsonStr "full_content" ++ ": " ++ jsonStr a.full_content,
       "    " ++ jsonStr "tags" ++ ": " ++ serializeTags a.tags] ++
    "\n\x7d"

/-- Source `save_article(article, base_dir)` as a transform of the
file-content map: compute the output path; when a file already exists there,
print `[SKIP]` and return with no write; otherwise write the serialized
article. -/
def save_article (base_dir : String) (now : DateD) (article : Article)
    (fs : List (String × String)) : List (String × String) :=
  let outpath := save_path base_dir now article
  match fs.lookup outpath with
  | some _ => fs
  | none => (outpath, serializeArticle article) :: fs

/-! ### Properties of the lexicographic order and of `pySortedSet` -/

/-- Unfolding of the lexicographic comparison on cons cells. -/
theorem lexLt_cons (x y : Char) (xs ys : List Char) :
    lexLt (x :: xs) (y :: ys) =
      (x.toNat < y.toNat || (x.toNat = y.toNat && lexLt xs ys)) := by
  simp only [lexLt]
  by_cases h1 : x.toNat < y.toNat <;> by_cases h2 : y.toNat < x.toNat <;>
    simp [h1, h2] <;> omega

/-- Irreflexivity of the lexicographic comparison. -/
theorem lexLt_irrefl (a : List Char) : lexLt a a = false := by
  induction a with
  | nil => rfl
  | cons c cs ih => simp [lexLt_cons, ih]

/-- Transitivity of the lexicographic comparison. -/
theorem lexLt_trans : ∀ a b c : List Char,
    lexLt a b = true → lexLt b c = true → lexLt a c = true := by
  intro a
  induction a with
  | nil =>
    intro b c hab hbc
    cases b with
    | nil => simp [lexLt] at hab
    | cons y ys =>
      cases c with
      | nil => simp [lexLt] at hbc
      | cons z zs => simp [lexLt]
  | cons x xs ih =>
    intro b c hab hbc
    cases b with
    | nil => simp [lexLt] at hab
    | cons y ys =>
      cases c with
      | nil => simp [lexLt] at hbc
      | cons z zs =>
        simp only [lexLt_cons, Bool.or_eq_true, Bool.and_eq_true,
          decide_eq_true_eq] at hab hbc ⊢
        rcases hab with h1 | ⟨h1, h1r⟩
        · rcases hbc with h2 | ⟨h2, _⟩
          · exact Or.inl (Nat.lt_trans h1 h2)
          · exact Or.inl (by omega)
        · rcases hbc with h2 | ⟨h2, h2r⟩
          · exact Or.inl (by omega)
          · exact Or.inr ⟨by omega, ih ys zs h1r h2r⟩

/-- Totality: two distinct lists compare in one direction or the other. -/
theorem lexLt_connex : ∀ a b : List Char,
    a ≠ b → lexLt a b = false → lexLt b a = true := by
  intro a
  induction a with
  | nil =>
    intro b hne hf
    cases b with
    | nil => exact absurd rfl hne
    | cons y ys => simp [lexLt] at hf
  | cons x xs ih =>
    intro b hne hf
    cases b with
    | nil => simp [lexLt]
    | cons y ys =>
      simp only [lexLt_cons, Bool.or_eq_false_iff, Bool.and_eq_false_iff,
        Bool.or_eq_true, Bool.and_eq_true, decide_eq_true_eq,
        decide_eq_false_iff_not] at hf ⊢
      rcases hf with ⟨hlt, heq⟩
      by_cases hxy : x.toNat = y.toNat
      · have hchar : x = y := Char.eq_of_val_eq (UInt32.eq_of_toBitVec_eq (BitVec.eq_of_toNat_eq hxy))
        subst hchar
        have hxs : xs ≠ ys := by
          intro h
          exact hne (by rw [h])
        rcases heq with h | h
        · omega
        · exact Or.inr ⟨rfl, ih ys hxs h⟩
      · exact Or.inl (by omega)

/-- String comparison is irreflexive. -/
theorem strLt_irrefl (s : String) : strLt s s = false := lexLt_irrefl s.data

/-- String comparison is transitive. -/
theorem strLt_trans {a b c : String} (h1 : strLt a b = true) (h2 : strLt b c = true) :
    strLt a c = true := lexLt_trans a.data b.data c.data h1 h2

/-- String comparison is total on distinct strings. -/
theorem strLt_connex {a b : String} (hne : a ≠ b) (hf : strLt a b = false) :
    strLt b a = true := by
  apply lexLt_connex a.data b.data _ hf
  intro h
  apply hne
  cases a
  cases b
  exact congrArg String.mk h

/-- Membership after insertion. -/
theorem mem_insertSorted {z x : String} : ∀ {l : List String},
    z ∈ insertSorted x l ↔ z = x ∨ z ∈ l := by
  intro l
  induction l with
  | nil => simp [insertSorted]
  | cons y ys ih =>
    simp only [insertSorted]
    by_cases h1 : strLt x y
    · simp [h1]
    · by_cases h2 : x = y
      · subst h2
        rw [if_neg h1, if_pos rfl]
        simp only [List.mem_cons]
        tauto
      · rw [if_neg h1, if_neg h2]
        simp only [List.mem_cons, ih]
        tauto

/-- Insertion preserves strict sortedness (pairwise `strLt`). -/
theorem pairwise_insertSorted {x : String} : ∀ {l : List String},
    l.Pairwise (fun a b => strLt a b = true) →
    (insertSorted x l).Pairwise (fun a b => strLt a b = true) := by
  intro l
  induction l with
  | nil => simp [insertSorted]
  | cons y ys ih =>
    intro h
    rcases List.pairwise_cons.mp h with ⟨hy, hys⟩
    simp only [insertSorted]
    by_cases h1 : strLt x y
    · simp only [h1, if_true]
      refine List.pairwise_cons.mpr ⟨?_, h⟩
      intro z hz
      rcases List.mem_cons.mp hz with h | h
      · subst h; exact h1
      · exact strLt_trans h1 (hy z h)
    · by_cases h2 : x = y
      · subst h2
        rw [if_neg h1, if_pos rfl]
        exact h
      · rw [if_neg h1, if_neg h2]
        refine List.pairwise_cons.mpr ⟨?_, ih hys⟩
        intro z hz
        rcases mem_insertSorted.mp hz with h | h
        · subst h
          exact strLt_connex h2 (by simpa using h1)
        · exact hy z h

/-- Elements of the fold are the inserted ones plus the accumulator's. -/
theorem mem_sortedSetFold {z : String} : ∀ (l acc : List String),
    (z ∈ l.foldl (fun acc x => insertSorted x acc) acc ↔ z ∈ acc ∨ z ∈ l) := by
  intro l
  induction l with
  | nil => simp
  | cons x xs ih =>
    intro acc
    simp only [List.foldl_cons, ih, mem_insertSorted, List.mem_cons]
    tauto

/-- The fold preserves strict sortedness. -/
theorem pairwise_sortedSetFold : ∀ (l acc : List String),
    acc.Pairwise (fun a b => strLt a b = true) →
    (l.foldl (fun acc x => insertSorted x acc) acc).Pairwise
      (fun a b => strLt a b = true) := by
  intro l
  induction l with
  | nil => intro acc h; simpa using h
  | cons x xs ih =>
    intro acc h
    exact ih _ (pairwise_insertSorted h)

/-- Membership in the sorted set. -/
theorem mem_pySortedSet {z : String} {l : List String} :
    z ∈ pySortedSet l ↔ z ∈ l := by
  unfold pySortedSet
  rw [mem_sortedSetFold]
  simp

/-- The sorted set is strictly sorted. -/
theorem pairwise_pySortedSet (l : List String) :
    (pySortedSet l).Pairwise (fun a b => strLt a b = true) :=
  pairwise_sortedSetFold l [] (List.Pairwise.nil)

/-- The sorted set has no duplicates. -/
theorem nodup_pySortedSet (l : List String) : (pySortedSet l).Nodup := by
  apply (pairwise_pySortedSet l).imp
  intro a b hab
  intro h
  subst h
  rw [strLt_irrefl] at hab
  exact Bool.false_ne_true hab

/-! ### Facts about the MD5 hex digest -/

/-- Lowercase hexadecimal digit (0-9, a-f). -/
def isHexLowerDigit (c : Char) : Bool := isAsciiDigit c || ('a' ≤ c && c ≤ 'f')

/-- `leBytes` produces exactly `k` bytes. -/
theorem leBytes_length : ∀ (k x : Nat), (leBytes k x).length = k := by
  intro k
  induction k with
  | zero => intro x; rfl
  | succ n ih => intro x; simp [leBytes, ih]

/-- `leBytes` produces bytes below 256. -/
theorem leBytes_lt : ∀ (k x : Nat), ∀ b ∈ leBytes k x, b < 256 := by
  intro k
  induction k with
  | zero => intro x b hb; simp [leBytes] at hb
  | succ n ih =>
    intro x b hb
    simp only [leBytes, List.mem_cons] at hb
    rcases hb with h | h
    · subst h; exact Nat.mod_lt _ (by omega)
    · exact ih _ b h

/-- The MD5 digest is 16 bytes long. -/
theorem md5Digest_length (m : List Nat) : (md5Digest m).length = 16 := by
  unfold md5Digest
  simp [leBytes_length]

/-- Every MD5 digest byte is below 256. -/
theorem md5Digest_lt (m : List Nat) : ∀ b ∈ md5Digest m, b < 256 := by
  unfold md5Digest
  intro b hb
  simp only [List.mem_append] at hb
  rcases hb with ((h | h) | h) | h <;> exact leBytes_lt _ _ b h

/-- Flattened two-character byte renderings have twice the length. -/
theorem byteHex_flatten_length : ∀ l : List Nat, ((l.map byteHex).flatten).length = 2 * l.length := by
  intro l
  induction l with
  | nil => rfl
  | cons b rest ih => simp [byteHex, ih]; omega

/-- Hex characters of small values are lowercase hex digits. -/
theorem hexChar_isHexLower : ∀ n, n < 16 → isHexLowerDigit (hexChar n) = true := by decide

/-- All characters of a byte rendering are lowercase hex digits. -/
theorem byteHex_chars {b : Nat} (hb : b < 256) :
    ∀ c ∈ byteHex b, isHexLowerDigit c = true := by
  intro c hc
  simp only [byteHex, List.mem_cons, List.not_mem_nil, or_false] at hc
  rcases hc with h | h <;> subst h
  · exact hexChar_isHexLower _ (Nat.div_lt_of_lt_mul (by omega))
  · exact hexChar_isHexLower _ (Nat.mod_lt _ (by omega))

/-- The MD5 hex digest has 32 characters. -/
theorem md5hex_length (s : String) : (md5hex s).data.length = 32 := by
  show ((List.map byteHex (md5Digest (utf8Encode s))).flatten).length = 32
  rw [byteHex_flatten_length, md5Digest_length]

/-- Every character of the MD5 hex digest is a lowercase hex digit. -/
theorem md5hex_chars (s : String) : ∀ c ∈ (md5hex s).data, isHexLowerDigit c = true := by
  intro c hc
  have hc2 : c ∈ (List.map byteHex (md5Digest (utf8Encode s))).flatten := hc
  rw [List.mem_flatten] at hc2
  rcases hc2 with ⟨piece, hpiece, hcp⟩
  rw [List.mem_map] at hpiece
  rcases hpiece with ⟨b, hb, hbp⟩
  subst hbp
  exact byteHex_chars (md5Digest_lt _ b hb) c hcp

/-! ### The filter and dedup structure of `extract_body_paragraphs` -/

/-- Specification-style first-occurrence de-duplication: keep each element's
first occurrence, erasing its later duplicates.  (Stated from the spec's
words "retain first occurrence of each distinct paragraph string, preserving
original encounter order", to be compared with the seen-set loop of the
source.) -/
def specDedup (l : List String) : List String :=
  match l with
  | [] => []
  | x :: xs => x :: specDedup (xs.filter (fun t => t ≠ x))
termination_by l.length
decreasing_by
  exact Nat.lt_succ_of_le (List.length_filter_le _ _)

/-- Unfolding the dedup loop on an already-seen head. -/
theorem pyDedupAux_cons_mem {seen : List String} {x : String} {xs : List String}
    (hx : seen.contains x = true) :
    pyDedupAux seen (x :: xs) = pyDedupAux seen xs := by
  show (if seen.contains x then pyDedupAux seen xs else x :: pyDedupAux (x :: seen) xs) =
    pyDedupAux seen xs
  rw [hx]
  simp

/-- Unfolding the dedup loop on a new head. -/
theorem pyDedupAux_cons_new {seen : List String} {x : String} {xs : List String}
    (hx : seen.contains x = false) :
    pyDedupAux seen (x :: xs) = x :: pyDedupAux (x :: seen) xs := by
  show (if seen.contains x then pyDedupAux seen xs else x :: pyDedupAux (x :: seen) xs) =
    x :: pyDedupAux (x :: seen) xs
  rw [hx]
  simp

/-- The seen-set loop equals spec-style dedup of the not-yet-seen elements. -/
theorem pyDedupAux_eq_specDedup : ∀ (l seen : List String),
    pyDedupAux seen l = specDedup (l.filter (fun t => !seen.contains t)) := by
  intro l
  induction l with
  | nil => intro seen; simp [pyDedupAux, specDedup]
  | cons x xs ih =>
    intro seen
    rcases hx : seen.contains x with _ | _
    · rw [pyDedupAux_cons_new hx, List.filter_cons, hx]
      simp only [Bool.not_false, if_true]
      rw [specDedup]
      congr 1
      rw [ih (x :: seen), List.filter_filter]
      congr 1
      apply List.filter_congr
      intro t _
      by_cases h : t = x <;> simp [h, List.contains_cons]
    · rw [pyDedupAux_cons_mem hx, ih seen]
      congr 1
      rw [List.filter_cons, hx]
      simp
  
/-- `extract_body_paragraphs` refines the spec's first-occurrence dedup. -/
theorem extract_body_paragraphs_eq_specDedup (doc : Node) :
    extract_body_paragraphs doc = specDedup (bodyTexts doc) := by
  unfold extract_body_paragraphs pyDedup
  rw [pyDedupAux_eq_specDedup]
  congr 1
  simp

/-- Everything the dedup loop keeps was in its input. -/
theorem mem_of_mem_pyDedupAux {z : String} : ∀ (l seen : List String),
    z ∈ pyDedupAux seen l → z ∈ l := by
  intro l
  induction l with
  | nil => intro seen h; simp [pyDedupAux] at h
  | cons x xs ih =>
    intro seen h
    rcases hx : seen.contains x with _ | _
    · rw [pyDedupAux_cons_new hx] at h
      rcases List.mem_cons.mp h with h | h
      · exact h ▸ List.mem_cons_self x xs
      · exact List.mem_cons_of_mem x (ih (x :: seen) h)
    · rw [pyDedupAux_cons_mem hx] at h
      exact List.mem_cons_of_mem x (ih seen h)

/-- The dedup loop's output avoids the seen set and has no duplicates. -/
theorem pyDedupAux_nodup : ∀ (l seen : List String),
    (∀ z ∈ pyDedupAux seen l, seen.contains z = false) ∧ (pyDedupAux seen l).Nodup := by
  intro l
  induction l with
  | nil => intro seen; simp [pyDedupAux]
  | cons x xs ih =>
    intro seen
    rcases hx : seen.contains x with _ | _
    · rw [pyDedupAux_cons_new hx]
      rcases ih (x :: seen) with ⟨havoid, hnodup⟩
      constructor
      · intro z hz
        rcases List.mem_cons.mp hz with h | h
        · subst h; exact hx
        · have h2 := havoid z h
          simp only [List.contains_cons, Bool.or_eq_false_iff] at h2
          exact h2.2
      · refine List.nodup_cons.mpr ⟨?_, hnodup⟩
        intro hmem
        have h2 := havoid x hmem
        simp at h2
    · rw [pyDedupAux_cons_mem hx]
      exact ih seen

/-- The dedup loop's output is a sublist of its input. -/
theorem pyDedupAux_sublist : ∀ (l seen : List String),
    (pyDedupAux seen l).Sublist l := by
  intro l
  induction l with
  | nil => intro seen; simp [pyDedupAux]
  | cons x xs ih =>
    intro seen
    rcases hx : seen.contains x with _ | _
    · rw [pyDedupAux_cons_new hx]
      exact (ih (x :: seen)).cons₂ x
    · rw [pyDedupAux_cons_mem hx]
      exact (ih seen).cons x

/-- Every kept body paragraph passes the length-and-prefix filter. -/
theorem bodyPars_keepPar {doc : Node} {s : String}
    (h : s ∈ extract_body_paragraphs doc) : keepPar s = true := by
  have h2 : s ∈ bodyTexts doc := mem_of_mem_pyDedupAux _ _ h
  unfold bodyTexts at h2
  exact List.of_mem_filter h2

/-! ### Concrete documents used by counterexamples and witnesses -/

/-- A page whose body holds the spec's flagship sentence as its only
paragraph (no keywords meta, no rel-tag anchors). -/
def C1doc : Node :=
  .elem "[document]" [] [.elem "html" [] [.elem "body" [] [
    .elem "h1" [] [.text "Titulek"],
    .elem "p" [] [.text "Cena byla 150 000 Kč a sleva 3,2 % platí od 21. 10. 2025."]]]]

/-- A page with a keywords meta. -/
def C1wdoc : Node :=
  .elem "[document]" [] [.elem "html" [] [.elem "head" [] [
    .elem "meta" [("name", "keywords"), ("content", "zpravy, domov")] []]]]

/-- A page with 41 distinct comma-separated keywords. -/
def C2doc : Node :=
  .elem "[document]" [] [.elem "html" [] [.elem "head" [] [
    .elem "meta" [("name", "keywords"), ("content", "t01,t02,t03,t04,t05,t06,t07,t08,t09,t10,t11,t12,t13,t14,t15,t16,t17,t18,t19,t20,t21,t22,t23,t24,t25,t26,t27,t28,t29,t30,t31,t32,t33,t34,t35,t36,t37,t38,t39,t40,t41")] []]]]

/-- A page whose meta description is 401 characters long. -/
def C3doc : Node :=
  .elem "[document]" [] [.elem "html" [] [.elem "head" [] [
    .elem "meta" [("name", "description"), ("content", "aaaaaaaaaaaaaaaaaaaaaaaaaaaaaaaaaaaaaaaaaaaaaaaaaaaaaaaaaaaaaaaaaaaaaaaaaaaaaaaaaaaaaaaaaaaaaaaaaaaaaaaaaaaaaaaaaaaaaaaaaaaaaaaaaaaaaaaaaaaaaaaaaaaaaaaaaaaaaaaaaaaaaaaaaaaaaaaaaaaaaaaaaaaaaaaaaaaaaaaaaaaaaaaaaaaaaaaaaaaaaaaaaaaaaaaaaaaaaaaaaaaaaaaaaaaaaaaaaaaaaaaaaaaaaaaaaaaaaaaaaaaaaaaaaaaaaaaaaaaaaaaaaaaaaaaaaaaaaaaaaaaaaaaaaaaaaaaaaaaaaaaaaaaaaaaaaaaaaaaaaaaaaaaaaaaaaaaaaaaaaaaaaaaaaaaaaaaaaaaaa")] []]]]

/-- A page with no meta description. -/
def C3wdoc : Node := .elem "[document]" [] [.elem "html" [] [.elem "body" [] []]]

/-- A 500-character body paragraph. -/
def C3p500 : String := "bbbbbbbbbbbbbbbbbbbbbbbbbbbbbbbbbbbbbbbbbbbbbbbbbbbbbbbbbbbbbbbbbbbbbbbbbbbbbbbbbbbbbbbbbbbbbbbbbbbbbbbbbbbbbbbbbbbbbbbbbbbbbbbbbbbbbbbbbbbbbbbbbbbbbbbbbbbbbbbbbbbbbbbbbbbbbbbbbbbbbbbbbbbbbbbbbbbbbbbbbbbbbbbbbbbbbbbbbbbbbbbbbbbbbbbbbbbbbbbbbbbbbbbbbbbbbbbbbbbbbbbbbbbbbbbbbbbbbbbbbbbbbbbbbbbbbbbbbbbbbbbbbbbbbbbbbbbbbbbbbbbbbbbbbbbbbbbbbbbbbbbbbbbbbbbbbbbbbbbbbbbbbbbbbbbbbbbbbbbbbbbbbbbbbbbbbbbbbbbbbbbbbbbbbbbbbbbbbbbbbbbbbbbbbbbbbbbbbbbbbbbbbbbbbbbbbbbbbbbbbbbbbbbbbbbbbbbbbbbbbbbbbbbbbbbbbbbbbbbb"

/-- A page with no author signals at all. -/
def C4doc : Node := .elem "[document]" [] [.elem "html" [] [.elem "body" [] []]]

/-- First demonstration paragraph (at least 40 characters). -/
def C5parA : String := "Odstavec A je dostatečně dlouhý, aby prošel filtrem čtyřiceti znaků."

/-- Second demonstration paragraph. -/
def C5parB : String := "Odstavec B je dostatečně dlouhý, aby prošel filtrem čtyřiceti znaků."

/-- Third demonstration paragraph. -/
def C5parC : String := "Odstavec C je dostatečně dlouhý, aby prošel filtrem čtyřiceti znaků."

/-- A page whose article container holds the paragraphs A, B, A, C. -/
def C5doc : Node :=
  .elem "[document]" [] [.elem "html" [] [.elem "body" [] [
    .elem "article" [] [
      .elem "p" [] [.text "Odstavec A je dostatečně dlouhý, aby prošel filtrem čtyřiceti znaků."],
      .elem "p" [] [.text "Odstavec B je dostatečně dlouhý, aby prošel filtrem čtyřiceti znaků."],
      .elem "p" [] [.text "Odstavec A je dostatečně dlouhý, aby prošel filtrem čtyřiceti znaků."],
      .elem "p" [] [.text "Odstavec C je dostatečně dlouhý, aby prošel filtrem čtyřiceti znaků."]]]]]

/-- A titled page with a meta description but no body paragraphs. -/
def C7doc : Node :=
  .elem "[document]" [] [.elem "html" [] [
    .elem "head" [] [
      .elem "meta" [("name", "description"), ("content", "Popis stránky bez těla")] []],
    .elem "body" [] [.elem "h1" [] [.text "Titulek bez těla"]]]]

/-- A page with one rel~="tag" anchor and a keywords meta. -/
def C10doc : Node :=
  .elem "[document]" [] [.elem "html" [] [
    .elem "head" [] [.elem "meta" [("name", "keywords"), ("content", "kw1, kw2")] []],
    .elem "body" [] [.elem "a" [("rel", "tag"), ("href", "/t")] [.text " Praha "]]]]

/-- The rel-tag anchor of `C10doc`. -/
def C10anchor : Node := .elem "a" [("rel", "tag"), ("href", "/t")] [.text " Praha "]

/-! ### Helper lemmas for the claim theorems -/

/-- Splitting the body-paragraph filter into its component facts. -/
theorem keepPar_split {s : String} (h : keepPar s = true) :
    40 ≤ pyLen s ∧ pyStartsWith (pyLower s) "foto" = false ∧
    pyStartsWith (pyLower s) "autor:" = false ∧
    pyStartsWith (pyLower s) "reklama" = false := by
  unfold keepPar at h
  simp only [Bool.and_eq_true, Bool.not_eq_true', Bool.or_eq_false_iff,
    decide_eq_true_eq] at h
  exact ⟨h.1, h.2.1.1, h.2.1.2, h.2.2⟩

/-- String concatenation concatenates the character lists. -/
theorem str_data_append (a b : String) : (a ++ b).data = a.data ++ b.data := rfl

/-- A successful `parse_article` returns exactly the record the extractors
assemble. -/
theorem parse_article_some {now url : String} {doc : Node} {art : Article}
    (h : parse_article now url doc = some art) :
    art = { title := extract_title doc, url := url, date := extract_date now doc,
            author := extract_author doc, source := SOURCE_SECOND_LEVEL ++ ".cz",
            content_snippet := extract_snippet doc (extract_body_paragraphs doc),
            full_content := pyJoin "\n\n" (extract_body_paragraphs doc),
            tags := extract_tags doc } := by
  have h2 : (if extract_title doc = "" then (none : Option Article)
      else some { title := extract_title doc, url := url, date := extract_date now doc,
                  author := extract_author doc, source := SOURCE_SECOND_LEVEL ++ ".cz",
                  content_snippet := extract_snippet doc (extract_body_paragraphs doc),
                  full_content := pyJoin "\n\n" (extract_body_paragraphs doc),
                  tags := extract_tags doc }) = some art := h
  by_cases ht : extract_title doc = ""
  · rw [if_pos ht] at h2
    cases h2
  · rw [if_neg ht] at h2
    exact (Option.some.inj h2).symm

/-- A joined body is empty only when there are no body paragraphs (each
kept paragraph has at least 40 characters). -/
theorem body_join_empty {doc : Node}
    (h : pyJoin "\n\n" (extract_body_paragraphs doc) = "") :
    extract_body_paragraphs doc = [] := by
  cases hps : extract_body_paragraphs doc with
  | nil => rfl
  | cons p rest =>
    exfalso
    have hp40 : 40 ≤ pyLen p :=
      (keepPar_split (bodyPars_keepPar (by
        rw [hps]; exact List.mem_cons_self p rest))).1
    rw [hps] at h
    cases rest with
    | nil =>
      have : p = "" := h
      rw [this] at hp40
      simp [pyLen] at hp40
    | cons q r =>
      have hstep : pyJoin "\n\n" (p :: q :: r) = (p ++ "\n\n") ++ pyJoin "\n\n" (q :: r) := by
        show p ++ "\n\n" ++ pyJoin "\n\n" (q :: r) = (p ++ "\n\n") ++ pyJoin "\n\n" (q :: r)
        rfl
      rw [hstep] at h
      have hd := congrArg String.data h
      rw [str_data_append, str_data_append] at hd
      simp only [List.append_assoc, List.append_eq_nil] at hd
      have : p.data = [] := hd.1
      rw [pyLen, this] at hp40
      simp at hp40

/-- The author-candidate loop yields the sentinel when no candidate
produces a value. -/
theorem authorLoop_sentinel : ∀ (l : List (Option Node)),
    (∀ c : Node, some c ∈ l → authorStep c = none) → authorLoop l = "Neznámý" := by
  intro l
  induction l with
  | nil => intro _; rfl
  | cons oc rest ih =>
    intro h
    cases oc with
    | none =>
      show authorLoop rest = "Neznámý"
      exact ih (fun c hc => h c (List.mem_cons_of_mem _ hc))
    | some c =>
      have hc := h c (List.mem_cons_self _ _)
      show (match authorStep c with
            | some v => v
            | none => authorLoop rest) = "Neznámý"
      rw [hc]
      exact ih (fun d hd => h d (List.mem_cons_of_mem _ hd))

/-- The meta-description value the snippet chain keys on. -/
def metaDescContent (doc : Node) : Option String :=
  (selectOne doc selMetaDesc).bind (fun m => attrOrNone m "content")

/-- Modelled from the spec: the snippet priority chain of section 4.4 (meta
description whitespace-normalized, then the first body paragraph truncated
to 400 characters, then the first paragraph anywhere in the document, then
the empty string), amended so that only the body-paragraph branch
truncates, which is what the source does. -/
def snippetChainAmended (doc : Node) (ps : List String) : String :=
  match metaDescContent doc with
  | some v => clean_paragraph v
  | none =>
    match ps with
    | p0 :: _ => pyTake p0 400
    | [] =>
      match selectOne doc selP with
      | some p => clean_paragraph (getTextRaw p)
      | none => ""

/-! ### The claims -/

/-- C1, counterexample: on the spec's flagship sentence (present as the only
body paragraph), the tag set is empty — it contains none of the four
pattern-derived tags the claim requires, because `extract_tags` runs no
pattern extractors at all. -/
theorem C1_counterexample :
    extract_body_paragraphs C1doc =
      ["Cena byla 150 000 Kč a sleva 3,2 % platí od 21. 10. 2025."] ∧
    extract_tags C1doc = [] ∧
    "money:150 000 Kč" ∉ extract_tags C1doc ∧
    "money_value:150000" ∉ extract_tags C1doc ∧
    "percent:3,2%" ∉ extract_tags C1doc ∧
    "date:21.10.2025" ∉ extract_tags C1doc := by
  refine ⟨by decide, by decide, ?_, ?_, ?_, ?_⟩ <;> decide

/-- C1, amended: tag derivation runs no pattern extractors over the
paragraph text; every derived tag comes from the comma-separated keywords
meta or from a rel~="tag" anchor text, unioned into the sorted set. -/
theorem C1_tags_only_from_keywords_or_rel_anchors :
    ∀ (doc : Node) (t : String), t ∈ extract_tags doc →
      t ∈ keywordTags doc ∨ t ∈ relTagTexts doc := by
  intro doc t h
  unfold extract_tags at h
  exact List.mem_append.mp (mem_pySortedSet.mp h)

/-- Witness for the amended C1 at a concrete page with a keywords meta. -/
theorem C1_tags_witness :
    "zpravy" ∈ keywordTags C1wdoc ∨ "zpravy" ∈ relTagTexts C1wdoc :=
  C1_tags_only_from_keywords_or_rel_anchors C1wdoc "zpravy" (by decide)

/-- C2, counterexample: a keywords meta with 41 distinct entries yields 41
tags — there is no cap of 40 in the source. -/
theorem C2_counterexample : 40 < (extract_tags C2doc).length := by decide

/-- C2, amended: for every document the tag list is strictly sorted in the
code-point lexicographic order (hence duplicate-free), but it is not
truncated — no bound of 40 holds. -/
theorem C2_tags_sorted_and_nodup :
    ∀ doc : Node,
      (extract_tags doc).Pairwise (fun a b => strLt a b = true) ∧
      (extract_tags doc).Nodup :=
  fun _ => ⟨pairwise_pySortedSet _, nodup_pySortedSet _⟩

/-- C3, counterexample: a 401-character meta description becomes a
401-character snippet — the meta-description branch does not truncate to
400 characters. -/
theorem C3_counterexample : 400 < pyLen (extract_snippet C3doc []) := by decide

/-- C3, amended: the snippet follows the spec's priority chain, but only
the body-paragraph branch truncates to 400 characters (the meta-description
and first-paragraph branches return whitespace-normalized text of unbounded
length); in particular, whenever the meta description is absent and a body
paragraph exists the snippet is at most 400 characters long. -/
theorem C3_snippet_chain :
    ∀ (doc : Node) (ps : List String),
      extract_snippet doc ps = snippetChainAmended doc ps ∧
      (metaDescContent doc = none → ps ≠ [] →
        pyLen (extract_snippet doc ps) ≤ 400) := by
  intro doc ps
  constructor
  · rfl
  · intro h1 h2
    unfold extract_snippet
    rw [show (selectOne doc selMetaDesc).bind (fun m => attrOrNone m "content") = none from h1]
    cases ps with
    | nil => exact absurd rfl h2
    | cons p0 rest =>
      show pyLen (pyTake p0 400) ≤ 400
      unfold pyLen pyTake
      rw [List.length_take]
      exact Nat.min_le_left _ _

/-- Witness for the amended C3: no meta description, one 500-character body
paragraph, snippet is its 400-character truncation. -/
theorem C3_snippet_witness :
    extract_snippet C3wdoc [C3p500] = snippetChainAmended C3wdoc [C3p500] ∧
    pyLen (extract_snippet C3wdoc [C3p500]) ≤ 400 :=
  ⟨(C3_snippet_chain C3wdoc [C3p500]).1,
   (C3_snippet_chain C3wdoc [C3p500]).2 rfl (by simp)⟩

/-- C4, counterexample: on a page with no author signal the source returns
the Czech sentinel "Neznámý", not "Unknown". -/
theorem C4_counterexample :
    extract_author C4doc = "Neznámý" ∧ extract_author C4doc ≠ "Unknown" := by
  refine ⟨by decide, by decide⟩

/-- C4, amended: when no candidate of the author fallback chain (author
meta with truthy content, itemprop=author, class containing "author",
rel=author link) produces a value, `extract_author` returns the sentinel
"Neznámý". -/
theorem C4_author_sentinel :
    ∀ (doc : Node),
      (∀ c : Node, some c ∈ authorCands doc → authorStep c = none) →
      extract_author doc = "Neznámý" := by
  intro doc h
  exact authorLoop_sentinel (authorCands doc) h

/-- Witness for the amended C4 at a concrete signal-free page. -/
theorem C4_author_witness : extract_author C4doc = "Neznámý" :=
  C4_author_sentinel C4doc (by
    intro c hc
    rw [show authorCands C4doc = [none, none, none, none] from rfl] at hc
    simp at hc)

/-- C5: every kept body paragraph is at least 40 characters long and does
not start (lowercased) with "foto", "autor:" or "reklama"; the paragraph
list has no duplicates; it is a sublist of the filtered paragraph stream;
and it equals the spec's first-occurrence de-duplication of that stream
(so the relative order of first occurrences is preserved). -/
theorem C5_body_paragraph_invariants :
    ∀ (doc : Node),
      (∀ s ∈ extract_body_paragraphs doc,
        40 ≤ pyLen s ∧ pyStartsWith (pyLower s) "foto" = false ∧
        pyStartsWith (pyLower s) "autor:" = false ∧
        pyStartsWith (pyLower s) "reklama" = false) ∧
      (extract_body_paragraphs doc).Nodup ∧
      (extract_body_paragraphs doc).Sublist (bodyTexts doc) ∧
      extract_body_paragraphs doc = specDedup (bodyTexts doc) := by
  intro doc
  refine ⟨?_, (pyDedupAux_nodup _ _).2, pyDedupAux_sublist _ _,
    extract_body_paragraphs_eq_specDedup doc⟩
  intro c hc
  exact keepPar_split (bodyPars_keepPar hc)

/-- Witness for C5: the document with paragraph stream A, B, A, C yields
exactly A, B, C in order, and A satisfies the filter facts. -/
theorem C5_body_witness :
    extract_body_paragraphs C5doc = [C5parA, C5parB, C5parC] ∧
    40 ≤ pyLen C5parA ∧ pyStartsWith (pyLower C5parA) "foto" = false :=
  ⟨by decide,
   ((C5_body_paragraph_invariants C5doc).1 C5parA (by decide)).1,
   ((C5_body_paragraph_invariants C5doc).1 C5parA (by decide)).2.1⟩

/-- C7, counterexample: a titled page with no body paragraphs still yields
an Article value from `parse_article` (so an Article is produced), its
snippet is derived (non-empty, from the meta description) even though the
body is empty, and only the main loop then drops it. -/
theorem C7_counterexample :
    (parse_article "2025-01-01T00:00:00" "https://www.lidovky.cz/d/x" C7doc).isSome = true ∧
    (parse_article "2025-01-01T00:00:00" "https://www.lidovky.cz/d/x" C7doc).map
      Article.full_content = some "" ∧
    (parse_article "2025-01-01T00:00:00" "https://www.lidovky.cz/d/x" C7doc).map
      Article.content_snippet = some "Popis stránky bez těla" ∧
    processCandidate "2025-01-01T00:00:00" "https://www.lidovky.cz/d/x" (some C7doc) =
      none := by
  refine ⟨by decide, by decide, by decide, by decide⟩

/-- C7, amended: a candidate whose body-paragraph extraction is empty is
never persisted or aggregated (the main loop's `full_content` check drops
it), but `parse_article` still assembles the Article and both snippet
derivation and tag derivation run on the page with the empty body. -/
theorem C7_empty_body_dropped_not_uninvoked :
    ∀ (now url : String) (doc : Node) (art : Article),
      parse_article now url doc = some art →
      art.full_content = "" →
      extract_body_paragraphs doc = [] ∧
      processCandidate now url (some doc) = none ∧
      art.content_snippet = extract_snippet doc [] ∧
      art.tags = extract_tags doc := by
  intro now url doc art hpa hfc
  have hart := parse_article_some hpa
  subst hart
  have hfc2 : pyJoin "\n\n" (extract_body_paragraphs doc) = "" := hfc
  have hbody := body_join_empty hfc2
  refine ⟨hbody, ?_, ?_, rfl⟩
  · simp only [processCandidate]
    rw [hpa]
    simp [hfc2]
  · show extract_snippet doc (extract_body_paragraphs doc) = extract_snippet doc []
    rw [hbody]

/-- Witness for the amended C7 at the concrete titled body-less page. -/
theorem C7_empty_body_witness :
    extract_body_paragraphs C7doc = [] ∧
    processCandidate "2025-01-01T00:00:00" "https://www.lidovky.cz/d/x" (some C7doc) = none := by
  have h := C7_empty_body_dropped_not_uninvoked "2025-01-01T00:00:00"
    "https://www.lidovky.cz/d/x" C7doc
    { title := "Titulek bez těla", url := "https://www.lidovky.cz/d/x",
      date := "2025-01-01T00:00:00", author := "Neznámý", source := "lidovky.cz",
      content_snippet := "Popis stránky bez těla", full_content := "", tags := [] }
    (by decide) (by decide)
  exact ⟨h.1, h.2.1⟩

/-- C8: the article identity is a pure function of the URL string — equal
URLs give byte-identical results — and it is exactly the trailing 8
characters of the 32-character lowercase MD5 hex digest of the URL's UTF-8
encoding. -/
theorem C8_identity_deterministic_md5_tail :
    ∀ s : String,
      (md5_tail8 s).data.length = 8 ∧
      (∀ c ∈ (md5_tail8 s).data, isHexLowerDigit c = true) ∧
      md5_tail8 s = ⟨(md5hex s).data.drop 24⟩ ∧
      (∀ t : String, t = s → md5_tail8 t = md5_tail8 s) := by
  intro s
  have hlen := md5hex_length s
  have h8 : md5_tail8 s = ⟨(md5hex s).data.drop 24⟩ := by
    unfold md5_tail8 pyLastSlice
    rw [hlen]
  refine ⟨?_, ?_, h8, fun t ht => by rw [ht]⟩
  · rw [h8]
    show ((md5hex s).data.drop 24).length = 8
    rw [List.length_drop, hlen]
  · rw [h8]
    intro c hc
    exact md5hex_chars s c (List.drop_subset _ _ hc)

set_option maxRecDepth 100000 in
/-- Witness for C8 at a concrete URL (the digest tail is "25d678e0"). -/
theorem C8_identity_witness :
    (md5_tail8 "https://www.lidovky.cz/domov/x").data.length = 8 ∧
    isHexLowerDigit '2' = true ∧
    md5_tail8 "https://www.lidovky.cz/domov/x" = md5_tail8 "https://www.lidovky.cz/domov/x" ∧
    md5_tail8 "https://www.lidovky.cz/domov/x" = "25d678e0" :=
  ⟨(C8_identity_deterministic_md5_tail "https://www.lidovky.cz/domov/x").1,
   (C8_identity_deterministic_md5_tail "https://www.lidovky.cz/domov/x").2.1 '2' (by decide),
   (C8_identity_deterministic_md5_tail "https://www.lidovky.cz/domov/x").2.2.2
     "https://www.lidovky.cz/domov/x" rfl,
   by decide⟩

/-- C9: when a file already exists at the computed output path, saving is a
no-op — the map of files is unchanged, and in particular the existing
contents at that path survive untouched. -/
theorem C9_save_collision_noop :
    ∀ (base_dir : String) (now : DateD) (article : Article)
      (fs : List (String × String)) (c : String),
      fs.lookup (save_path base_dir now article) = some c →
      save_article base_dir now article fs = fs ∧
      (save_article base_dir now article fs).lookup
        (save_path base_dir now article) = some c := by
  intro bd now art fs c h
  have heq : save_article bd now art fs = fs := by
    show (match fs.lookup (save_path bd now art) with
          | some _ => fs
          | none => (save_path bd now art, serializeArticle art) :: fs) = fs
    rw [h]
  exact ⟨heq, by rw [heq, h]⟩

/-- The article of the C9 witness. -/
def C9art : Article :=
  { title := "T", url := "https://www.lidovky.cz/domov/x",
    date := "2025-10-21T10:00:00", author := "A", source := "lidovky.cz",
    content_snippet := "s", full_content := "obsah", tags := ["a"] }

/-- The pre-existing file map of the C9 witness. -/
def C9fs : List (String × String) :=
  [(save_path "/out" ⟨2025, 10, 21⟩ C9art, "stary obsah")]

set_option maxRecDepth 100000 in
/-- Witness for C9: saving over the pre-existing file changes nothing. -/
theorem C9_save_witness :
    save_article "/out" ⟨2025, 10, 21⟩ C9art C9fs = C9fs ∧
    (save_article "/out" ⟨2025, 10, 21⟩ C9art C9fs).lookup
      (save_path "/out" ⟨2025, 10, 21⟩ C9art) = some "stary obsah" :=
  C9_save_collision_noop "/out" ⟨2025, 10, 21⟩ C9art C9fs "stary obsah" (by decide)

/-- C10: the stripped non-empty text of every rel~="tag" anchor is a bare
tag in the tag set, and the keywords-meta tags are unioned in alongside. -/
theorem C10_rel_tag_anchors :
    ∀ (doc : Node),
      (∀ a ∈ selectAll doc selRelTag, getTextStrip a ≠ "" →
        getTextStrip a ∈ extract_tags doc) ∧
      (∀ t ∈ keywordTags doc, t ∈ extract_tags doc) := by
  intro doc
  constructor
  · intro a ha hne
    unfold extract_tags
    apply mem_pySortedSet.mpr
    apply List.mem_append.mpr
    right
    unfold relTagTexts
    apply List.mem_filter.mpr
    exact ⟨List.mem_map.mpr ⟨a, ha, rfl⟩, by simpa using hne⟩
  · intro t ht
    exact mem_pySortedSet.mpr (List.mem_append.mpr (Or.inl ht))

/-- Witness for C10: the anchor text "Praha" and the keyword "kw1" are both
in the tag set of the concrete page. -/
theorem C10_rel_tag_witness :
    getTextStrip C10anchor ∈ extract_tags C10doc ∧ "kw1" ∈ extract_tags C10doc := by
  constructor
  · apply (C10_rel_tag_anchors C10doc).1 C10anchor
    · rw [show selectAll C10doc selRelTag = [C10anchor] from rfl]
      exact List.mem_singleton.mpr rfl
    · decide
  · exact (C10_rel_tag_anchors C10doc).2 "kw1" (by decide)

/-! ### List algebra for the URL proofs -/

/-- Abbreviate truncation at the first `#`. -/
def tU (l : List Char) : List Char := takeUntil '#' l

/-- Truncation is idempotent. -/
theorem takeWhile_idem {p : Char → Bool} {l : List Char} :
    (l.takeWhile p).takeWhile p = l.takeWhile p := by
  induction l with
  | nil => rfl
  | cons c cs ih =>
    by_cases h : p c
    · simp [List.takeWhile_cons, h, ih]
    · simp [List.takeWhile_cons, h]

/-- Nesting two truncations truncates at the conjunction. -/
theorem takeWhile_takeWhile {p q : Char → Bool} {l : List Char} :
    (l.takeWhile q).takeWhile p = l.takeWhile (fun c => q c && p c) := by
  induction l with
  | nil => rfl
  | cons c cs ih =>
    by_cases hq : q c
    · by_cases hp : p c <;> simp [List.takeWhile_cons, hq, hp, ih]
    · simp [List.takeWhile_cons, hq]

/-- Truncating a list all of whose members pass walks through it. -/
theorem takeWhile_append_all {p : Char → Bool} {a : List Char} (b : List Char)
    (h : ∀ x ∈ a, p x = true) : (a ++ b).takeWhile p = a ++ b.takeWhile p := by
  induction a with
  | nil => rfl
  | cons c cs ih =>
    have hc : p c = true := h c (List.mem_cons_self _ _)
    simp only [List.cons_append, List.takeWhile_cons, hc, if_true]
    rw [ih (fun x hx => h x (List.mem_cons_of_mem _ hx))]

/-- Truncation stops exactly at the first failing element. -/
theorem takeWhile_append_stop {p : Char → Bool} {a : List Char} {c : Char}
    (b : List Char) (h : ∀ x ∈ a, p x = true) (hc : p c = false) :
    (a ++ c :: b).takeWhile p = a := by
  rw [takeWhile_append_all (c :: b) h]
  simp [List.takeWhile_cons, hc]

/-- Dropping by `p` and truncating by `q` commute when every dropped
character also passes `q`. -/
theorem dropWhile_takeWhile_comm {p q : Char → Bool}
    (hpq : ∀ c, p c = true → q c = true) (l : List Char) :
    (l.takeWhile q).dropWhile p = (l.dropWhile p).takeWhile q := by
  induction l with
  | nil => rfl
  | cons c cs ih =>
    by_cases hp : p c
    · have hq : q c = true := hpq c hp
      simp only [List.takeWhile_cons, hq, if_true, List.dropWhile_cons, hp, if_true]
      exact ih
    · by_cases hq : q c <;>
        simp [List.takeWhile_cons, List.dropWhile_cons, hp, hq]

/-- Filtering by `p` and truncating by `q` commute when every removed
character also passes `q`. -/
theorem filter_takeWhile_comm {p q : Char → Bool}
    (hpq : ∀ c, p c = false → q c = true) (l : List Char) :
    (l.takeWhile q).filter p = (l.filter p).takeWhile q := by
  induction l with
  | nil => rfl
  | cons c cs ih =>
    by_cases hp : p c
    · by_cases hq : q c
      · simp [List.takeWhile_cons, List.filter_cons, hp, hq, ih]
      · simp [List.takeWhile_cons, List.filter_cons, hp, hq]
    · have hq : q c = true := hpq c (by simpa using hp)
      simp [List.takeWhile_cons, List.filter_cons, hp, hq, ih]

/-- Members of a `takeWhile` by membership in the source. -/
theorem mem_of_mem_takeWhile {p : Char → Bool} {l : List Char} {x : Char}
    (h : x ∈ l.takeWhile p) : x ∈ l :=
  (l.takeWhile_prefix p).subset h

/-- A prefix that contains the stop character truncates identically. -/
theorem takeWhile_of_prefix {p : Char → Bool} {v w : List Char}
    (hpre : v <+: w) (hstop : ∃ x ∈ v, p x = false) :
    w.takeWhile p = v.takeWhile p := by
  rcases hpre with ⟨t, rfl⟩
  induction v with
  | nil => rcases hstop with ⟨x, hx, _⟩; cases hx
  | cons c cs ih =>
    by_cases hc : p c
    · simp only [List.cons_append, List.takeWhile_cons, hc, if_true]
      rcases hstop with ⟨x, hx, hpx⟩
      rcases List.mem_cons.mp hx with rfl | hx2
      · rw [hc] at hpx; cases hpx
      · rw [ih ⟨x, hx2, hpx⟩]
    · simp [List.takeWhile_cons, hc]

/-- `takeUntil` never keeps its separator. -/
theorem not_mem_takeUntil (sep : Char) (l : List Char) : sep ∉ takeUntil sep l := by
  intro h
  have := List.mem_takeWhile_imp h
  simp at this

/-- `takeUntil` of a separator-free list is the list. -/
theorem takeUntil_of_not_mem {sep : Char} {l : List Char} (h : sep ∉ l) :
    takeUntil sep l = l := by
  unfold takeUntil
  rw [List.takeWhile_eq_self_iff.mpr]
  intro x hx
  simp only [decide_eq_true_eq]
  intro hxe
  exact h (hxe ▸ hx)

/-- `splitFirst` on a separator-free list. -/
theorem splitFirst_of_not_mem {sep : Char} {l : List Char} (h : sep ∉ l) :
    splitFirst sep l = (l, none) := by
  induction l with
  | nil => rfl
  | cons c cs ih =>
    have hc : ¬(c = sep) := fun he => h (he ▸ List.mem_cons_self _ _)
    simp only [splitFirst, if_neg hc]
    rw [ih (fun hm => h (List.mem_cons_of_mem _ hm))]

/-- `splitFirst` at the first occurrence of the separator. -/
theorem splitFirst_append {sep : Char} {a : List Char} (b : List Char)
    (h : sep ∉ a) : splitFirst sep (a ++ sep :: b) = (a, some b) := by
  induction a with
  | nil => simp [splitFirst]
  | cons c cs ih =>
    have hc : ¬(c = sep) := fun he => h (he ▸ List.mem_cons_self _ _)
    show splitFirst sep (c :: (cs ++ sep :: b)) = (c :: cs, some b)
    simp only [splitFirst, if_neg hc]
    rw [ih (fun hm => h (List.mem_cons_of_mem _ hm))]

/-! ### Character-level facts for scheme handling -/

/-- `Char.ofNat` below the surrogate range keeps its code point. -/
theorem toNat_ofNat_of_lt {n : Nat} (h : n < 0xd800) : (Char.ofNat n).toNat = n := by
  simp [Char.ofNat, Nat.isValidChar, h, Char.ofNatAux, Char.toNat, UInt32.toNat,
    BitVec.toNat_ofNatLt]

/-- Character order is code-point order. -/
theorem charLe_toNat {a b : Char} (h : a ≤ b) : a.toNat ≤ b.toNat := h

/-- Code-point order gives character order. -/
theorem toNat_charLe {a b : Char} (h : a.toNat ≤ b.toNat) : a ≤ b := h

/-- Lowercasing a scheme character yields a scheme character. -/
theorem schemeChar_pyLowerChar {c : Char} (h : schemeChar c = true) :
    schemeChar (pyLowerChar c) = true := by
  unfold pyLowerChar
  by_cases hr : ('A' ≤ c && c ≤ 'Z') = true
  · rw [if_pos hr]
    simp only [Bool.and_eq_true] at hr
    obtain ⟨h1, h2⟩ := hr
    have hA : (65 : Nat) ≤ c.toNat := @charLe_toNat 'A' c (by simpa using h1)
    have hZ : c.toNat ≤ 90 := @charLe_toNat c 'Z' (by simpa using h2)
    have hv : (Char.ofNat (c.toNat + 32)).toNat = c.toNat + 32 :=
      toNat_ofNat_of_lt (by omega)
    unfold schemeChar isAsciiAlpha isAsciiDigit
    have hlow : 'a'.toNat ≤ (Char.ofNat (c.toNat + 32)).toNat := by
      rw [hv]; show 97 ≤ c.toNat + 32; omega
    have hhigh : (Char.ofNat (c.toNat + 32)).toNat ≤ 'z'.toNat := by
      rw [hv]; show c.toNat + 32 ≤ 122; omega
    simp [toNat_charLe hlow, toNat_charLe hhigh]
  · rw [if_neg hr]
    exact h

/-- Lowercasing is idempotent on scheme characters (and in fact on any
character, since a lowered letter is no longer upper-case). -/
theorem pyLowerChar_idem (c : Char) : pyLowerChar (pyLowerChar c) = pyLowerChar c := by
  unfold pyLowerChar
  by_cases hr : ('A' ≤ c && c ≤ 'Z') = true
  · rw [if_pos hr]
    simp only [Bool.and_eq_true] at hr
    obtain ⟨h1, h2⟩ := hr
    have hA : (65 : Nat) ≤ c.toNat := @charLe_toNat 'A' c (by simpa using h1)
    have hZ : c.toNat ≤ 90 := @charLe_toNat c 'Z' (by simpa using h2)
    have hv : (Char.ofNat (c.toNat + 32)).toNat = c.toNat + 32 :=
      toNat_ofNat_of_lt (by omega)
    rw [if_neg]
    intro hcon
    simp only [Bool.and_eq_true] at hcon
    obtain ⟨_, h4⟩ := hcon
    have := @charLe_toNat (Char.ofNat (c.toNat + 32)) 'Z' (by simpa using h4)
    rw [hv] at this
    show False
    have : c.toNat + 32 ≤ 90 := this
    omega
  · rw [if_neg hr, if_neg hr]

/-- Lowercasing keeps an ASCII letter an ASCII letter. -/
theorem isAsciiAlpha_pyLowerChar {c : Char} (h : isAsciiAlpha c = true) :
    isAsciiAlpha (pyLowerChar c) = true := by
  unfold pyLowerChar
  by_cases hr : ('A' ≤ c && c ≤ 'Z') = true
  · rw [if_pos hr]
    simp only [Bool.and_eq_true] at hr
    obtain ⟨h1, h2⟩ := hr
    have hA : (65 : Nat) ≤ c.toNat := @charLe_toNat 'A' c (by simpa using h1)
    have hZ : c.toNat ≤ 90 := @charLe_toNat c 'Z' (by simpa using h2)
    have hv : (Char.ofNat (c.toNat + 32)).toNat = c.toNat + 32 :=
      toNat_ofNat_of_lt (by omega)
    unfold isAsciiAlpha
    have hlow : 'a'.toNat ≤ (Char.ofNat (c.toNat + 32)).toNat := by
      rw [hv]; show 97 ≤ c.toNat + 32; omega
    have hhigh : (Char.ofNat (c.toNat + 32)).toNat ≤ 'z'.toNat := by
      rw [hv]; show c.toNat + 32 ≤ 122; omega
    simp [toNat_charLe hlow, toNat_charLe hhigh]
  · rw [if_neg hr]
    exact h

/-- A scheme character is not one of the URL delimiters. -/
theorem schemeChar_ne {c : Char} (h : schemeChar c = true) :
    c ≠ ':' ∧ c ≠ '#' ∧ c ≠ '?' ∧ c ≠ '/' := by
  refine ⟨?_, ?_, ?_, ?_⟩ <;> intro he <;> subst he <;> revert h <;> decide

/-! ### Sanitization lemmas -/

/-- Free of tab, CR and LF. -/
def Clean (l : List Char) : Prop := ∀ c ∈ l, isUnsafeByte c = false

/-- Sanitization commutes with truncation at the first `#` (the removed
characters are never `#`). -/
theorem sanitizeUrl_tU (l : List Char) : sanitizeUrl (tU l) = tU (sanitizeUrl l) := by
  unfold sanitizeUrl tU takeUntil
  rw [show (l.takeWhile (fun c => decide (c ≠ '#'))).dropWhile isC0OrSpace =
      (l.dropWhile isC0OrSpace).takeWhile (fun c => decide (c ≠ '#')) from
    dropWhile_takeWhile_comm (fun c hc => by
      simp only [decide_eq_true_eq]
      intro he
      subst he
      exact absurd hc (by decide)) l]
  exact filter_takeWhile_comm (fun c hc => by
    have hu : isUnsafeByte c = true := by
      revert hc
      simp [isUnsafeByte]
      tauto
    simp only [decide_eq_true_eq]
    intro he
    subst he
    exact absurd hu (by decide)) _

/-- Sanitization is the identity on a clean list whose head is not a
control character or space. -/
theorem sanitizeUrl_noop {l : List Char} (hclean : Clean l)
    (hhead : l = [] ∨ ∃ c rest, l = c :: rest ∧ isC0OrSpace c = false) :
    sanitizeUrl l = l := by
  unfold sanitizeUrl
  have hdrop : l.dropWhile isC0OrSpace = l := by
    rcases hhead with rfl | ⟨c, rest, rfl, hc⟩
    · rfl
    · simp [List.dropWhile_cons, hc]
  rw [hdrop]
  rw [List.filter_eq_self.mpr]
  intro c hc
  simp [hclean c hc]

/-- Sanitized output is clean. -/
theorem clean_sanitizeUrl (l : List Char) : Clean (sanitizeUrl l) := by
  intro c hc
  unfold sanitizeUrl at hc
  have := List.of_mem_filter hc
  simpa using this

/-- Truncation preserves cleanliness. -/
theorem clean_tU {l : List Char} (h : Clean l) : Clean (tU l) :=
  fun c hc => h c (mem_of_mem_takeWhile hc)

/-- Sublists of clean lists (by membership) are clean. -/
theorem clean_of_subset {l m : List Char} (h : Clean l) (hsub : ∀ c ∈ m, c ∈ l) :
    Clean m := fun c hc => h c (hsub c hc)

/-! ### `extractScheme` lemmas -/

/-- The head of a `dropWhile` result fails the predicate. -/
theorem dropWhile_head_not {p : Char → Bool} {l : List Char} {c : Char}
    {rest : List Char} (h : l.dropWhile p = c :: rest) : p c = false := by
  induction l with
  | nil => cases h
  | cons a as ih =>
    by_cases ha : p a
    · rw [List.dropWhile_cons, if_pos ha] at h
      exact ih h
    · rw [List.dropWhile_cons, if_neg ha] at h
      cases h
      simpa using ha

/-- Dropping one past an appended head. -/
theorem drop_succ_append (a : List Char) (c : Char) (b : List Char) :
    (a ++ c :: b).drop (a.length + 1) = b := by
  rw [show a ++ c :: b = (a ++ [c]) ++ b by simp,
    show a.length + 1 = (a ++ [c]).length by simp]
  exact List.drop_left _ _

/-- `headAlpha` only looks at the head. -/
theorem headAlpha_append {a : List Char} (b : List Char) (h : a ≠ []) :
    headAlpha (a ++ b) = headAlpha a := by
  cases a with
  | nil => exact absurd rfl h
  | cons c cs => rfl

/-- A successful extraction decomposes the input: the input is the scheme
prefix, a colon, and the remainder. -/
theorem extractScheme_some_spec {u s rest : List Char}
    (h : extractScheme u = (some s, rest)) :
    u = u.takeWhile (fun c => c ≠ ':') ++ ':' :: rest ∧
    s = (u.takeWhile (fun c => c ≠ ':')).map pyLowerChar ∧
    u.takeWhile (fun c => c ≠ ':') ≠ [] ∧ headAlpha u = true ∧
    (u.takeWhile (fun c => c ≠ ':')).all schemeChar = true := by
  unfold extractScheme at h
  by_cases hcond : ((u.takeWhile (fun c => c ≠ ':')).length < u.length &&
      !(u.takeWhile (fun c => c ≠ ':')).isEmpty && headAlpha u &&
      (u.takeWhile (fun c => c ≠ ':')).all schemeChar) = true
  · rw [if_pos hcond] at h
    simp only [Prod.mk.injEq, Option.some.injEq] at h
    obtain ⟨hs, hrest⟩ := h
    simp only [Bool.and_eq_true] at hcond
    obtain ⟨⟨⟨hlen, hne⟩, hhead⟩, hall⟩ := hcond
    simp only [decide_eq_true_eq] at hlen
    have hsplit := List.takeWhile_append_dropWhile
      (p := fun c => decide (c ≠ ':')) (l := u)
    rcases hd : u.dropWhile (fun c => decide (c ≠ ':')) with _ | ⟨d0, dtl⟩
    · exfalso
      rw [hd, List.append_nil] at hsplit
      rw [hsplit] at hlen
      exact absurd hlen (by omega)
    · have hd0 : d0 = ':' := by
        have := dropWhile_head_not hd
        simpa using this
      subst hd0
      rw [hd] at hsplit
      have hu : u = u.takeWhile (fun c => c ≠ ':') ++ ':' :: dtl := hsplit.symm
      have hdtl : rest = dtl := by
        rw [← hrest]
        calc u.drop ((u.takeWhile (fun c => c ≠ ':')).length + 1)
            = (u.takeWhile (fun c => c ≠ ':') ++ ':' :: dtl).drop
                ((u.takeWhile (fun c => c ≠ ':')).length + 1) := by rw [← hu]
          _ = dtl := drop_succ_append _ _ _
      subst hdtl
      refine ⟨hu, hs.symm, ?_, hhead, hall⟩
      intro hnil
      rw [hnil] at hne
      simp at hne
  · rw [if_neg hcond] at h
    simp at h
/-- Extraction on an explicitly decomposed scheme-colon-rest input. -/
theorem extractScheme_build {pre : List Char} (rest : List Char) (hne : pre ≠ [])
    (hh : headAlpha pre = true) (hall : pre.all schemeChar = true) :
    extractScheme (pre ++ ':' :: rest) = (some (pre.map pyLowerChar), rest) := by
  have hmem : ∀ x ∈ pre, (fun c => decide (c ≠ ':')) x = true := by
    intro x hx
    simp only [decide_eq_true_eq]
    exact (schemeChar_ne (List.all_eq_true.mp hall x hx)).1
  have htw : (pre ++ ':' :: rest).takeWhile (fun c => c ≠ ':') = pre :=
    takeWhile_append_stop rest hmem (by simp)
  unfold extractScheme
  rw [htw]
  rw [if_pos]
  · rw [drop_succ_append]
  · have h1 : pre.length < (pre ++ ':' :: rest).length := by
      simp only [List.length_append, List.length_cons]
      omega
    simp only [Bool.and_eq_true]
    refine ⟨⟨⟨by simpa using h1, ?_⟩, ?_⟩, hall⟩
    · simpa using hne
    · rw [headAlpha_append _ hne]
      exact hh

/-- When the whole input fails extraction, so does every non-empty prefix
(with the prefix returned unchanged). -/
theorem extractScheme_none_prefix {v w : List Char} (hvw : v <+: w)
    (hw : (extractScheme w).1 = none) : extractScheme v = (none, v) := by
  unfold extractScheme
  rw [if_neg]
  intro hcond
  simp only [Bool.and_eq_true] at hcond
  obtain ⟨⟨⟨hlen, hne⟩, hhead⟩, hall⟩ := hcond
  simp only [decide_eq_true_eq] at hlen
  -- the colon inside v
  have hsplit := List.takeWhile_append_dropWhile
    (p := fun c => decide (c ≠ ':')) (l := v)
  rcases hd : v.dropWhile (fun c => decide (c ≠ ':')) with _ | ⟨d0, dtl⟩
  · rw [hd, List.append_nil] at hsplit
    rw [hsplit] at hlen
    exact absurd hlen (by omega)
  · have hd0 : d0 = ':' := by
      have := dropWhile_head_not hd
      simpa using this
    subst hd0
    rw [hd] at hsplit
    have hvne2 : v ≠ [] := by
      intro hv
      rw [hv] at hd
      simp at hd
    -- w's takeWhile agrees with v's
    have hstop : ∃ x ∈ v, (fun c => decide (c ≠ ':')) x = false := by
      refine ⟨':', ?_, by simp⟩
      rw [← hsplit]
      exact List.mem_append.mpr (Or.inr (List.mem_cons_self _ _))
    have htww : w.takeWhile (fun c => c ≠ ':') = v.takeWhile (fun c => c ≠ ':') :=
      takeWhile_of_prefix hvw hstop
    -- w satisfies the extraction condition: contradiction with hw
    have hwcond : ((w.takeWhile (fun c => c ≠ ':')).length < w.length &&
        !(w.takeWhile (fun c => c ≠ ':')).isEmpty && headAlpha w &&
        (w.takeWhile (fun c => c ≠ ':')).all schemeChar) = true := by
      simp only [Bool.and_eq_true]
      refine ⟨⟨⟨?_, ?_⟩, ?_⟩, ?_⟩
      · simp only [decide_eq_true_eq]
        rw [htww]
        calc (v.takeWhile (fun c => c ≠ ':')).length < v.length := hlen
          _ ≤ w.length := hvw.length_le
      · rw [htww]
        exact hne
      · rcases hvw with ⟨t, rfl⟩
        rw [headAlpha_append t hvne2]
        exact hhead
      · rw [htww]
        exact hall
    unfold extractScheme at hw
    rw [if_pos hwcond] at hw
    cases hw

/-- Extraction fails when the head is not an ASCII letter. -/
theorem extractScheme_headFalse {u : List Char} (h : headAlpha u = false) :
    extractScheme u = (none, u) := by
  unfold extractScheme
  rw [if_neg]
  intro hcond
  simp only [Bool.and_eq_true] at hcond
  rw [hcond.1.2] at h
  cases h

/-- Extraction commutes with truncation at the first `#`. -/
theorem extractScheme_some_tU {u s rest : List Char}
    (h : extractScheme u = (some s, rest)) :
    extractScheme (tU u) = (some s, tU rest) := by
  obtain ⟨hu, hs, hne, hhead, hall⟩ := extractScheme_some_spec h
  have hpre : ∀ x ∈ u.takeWhile (fun c => c ≠ ':'), (fun c => decide (c ≠ '#')) x = true := by
    intro x hx
    simp only [decide_eq_true_eq]
    exact (schemeChar_ne (List.all_eq_true.mp hall x hx)).2.1
  have htu : tU u = u.takeWhile (fun c => c ≠ ':') ++ ':' :: tU rest := by
    unfold tU takeUntil
    conv => lhs; rw [hu]
    rw [show (u.takeWhile (fun c => c ≠ ':')) ++ ':' :: rest =
      ((u.takeWhile (fun c => c ≠ ':')) ++ [':']) ++ rest by simp]
    rw [takeWhile_append_all rest (by
      intro x hx
      rcases List.mem_append.mp hx with h2 | h2
      · exact hpre x h2
      · simp only [List.mem_singleton] at h2
        subst h2
        simp)]
    simp [tU, takeUntil]
  rw [htu]
  rw [extractScheme_build (tU rest) hne ?hh hall]
  · rw [← hs]
  · case hh =>
      rcases hu2 : u.takeWhile (fun c => c ≠ ':') with _ | ⟨c, cs⟩
      · exact absurd hu2 hne
      · rw [hu2] at hu
        rw [hu] at hhead
        rw [headAlpha_append _ (by simp)] at hhead
        exact hu2 ▸ hhead

/-! ### `urlsplitCore` lemmas -/

/-- Dropping the length of the matched prefix is `dropWhile`. -/
theorem drop_takeWhile_length (p : Char → Bool) (l : List Char) :
    l.drop (l.takeWhile p).length = l.dropWhile p := by
  induction l with
  | nil => rfl
  | cons c cs ih =>
    by_cases hc : p c
    · simp [List.takeWhile_cons, List.dropWhile_cons, hc, ih]
    · simp [List.takeWhile_cons, List.dropWhile_cons, hc]

/-- The first component of `splitFirst` is the truncation at the separator. -/
theorem splitFirst_fst (sep : Char) (l : List Char) :
    (splitFirst sep l).1 = l.takeWhile (fun c => c ≠ sep) := by
  induction l with
  | nil => rfl
  | cons c cs ih =>
    by_cases hc : c = sep
    · subst hc
      simp [splitFirst, List.takeWhile_cons]
    · simp only [splitFirst, if_neg hc, List.takeWhile_cons]
      rw [if_pos (by simpa using hc)]
      rw [← ih]

/-- `extractScheme` returns its input unchanged when it extracts nothing. -/
theorem extractScheme_none_snd {u : List Char} (h : (extractScheme u).1 = none) :
    extractScheme u = (none, u) := by
  unfold extractScheme at h ⊢
  by_cases hcond : ((u.takeWhile (fun c => c ≠ ':')).length < u.length &&
      !(u.takeWhile (fun c => c ≠ ':')).isEmpty && headAlpha u &&
      (u.takeWhile (fun c => c ≠ ':')).all schemeChar) = true
  · rw [if_pos hcond] at h
    cases h
  · rw [if_neg hcond]

/-- The authority split commutes with truncation at the first `#`. -/
theorem netlocSplit_tU {rest nl rest2 : List Char}
    (h : netlocSplit rest = some (nl, rest2)) :
    netlocSplit (tU rest) = some (nl, tU rest2) := by
  rcases rest with _ | ⟨c1, rest1⟩
  · cases h
  rcases rest1 with _ | ⟨c2, r2⟩
  · unfold netlocSplit at h
    revert h
    split <;> intro h
    · rename_i heq
      cases heq
    · cases h
  · -- rest = c1 :: c2 :: r2; for a match we need c1 = c2 = '/'
    by_cases hc1 : c1 = '/'
    · by_cases hc2 : c2 = '/'
      · subst hc1
        subst hc2
        unfold netlocSplit at h
        simp only [Option.some.injEq, Prod.mk.injEq] at h
        obtain ⟨hnl, hrest2⟩ := h
        have htU : tU ('/' :: '/' :: r2) = '/' :: '/' :: tU r2 := by
          simp [tU, takeUntil, List.takeWhile_cons]
        rw [htU]
        unfold netlocSplit
        simp only [Option.some.injEq, Prod.mk.injEq]
        have hq : (tU r2).takeWhile (fun c => c ≠ '/' && c ≠ '?' && c ≠ '#') =
            r2.takeWhile (fun c => c ≠ '/' && c ≠ '?' && c ≠ '#') := by
          unfold tU takeUntil
          rw [takeWhile_takeWhile]
          congr 1
          funext c
          by_cases hc : c = '#'
          · subst hc
            simp
          · simp [hc]
        constructor
        · rw [hq, hnl]
        · rw [drop_takeWhile_length, ← hrest2, drop_takeWhile_length]
          unfold tU takeUntil
          exact dropWhile_takeWhile_comm (fun c hc => by
            simp only [Bool.and_eq_true, decide_eq_true_eq] at hc
            simp [hc.2]) r2
      · exfalso
        unfold netlocSplit at h
        revert h
        split <;> intro h
        · rename_i heq
          injection heq with e1 e2
          injection e2 with e2 _
          exact hc2 e2
        · cases h
    · exfalso
      unfold netlocSplit at h
      revert h
      split <;> intro h
      · rename_i heq
        injection heq with e1 _
        exact hc1 e1
      · cases h

/-- `finishSplit` on a `#`-truncated remainder keeps path and query and
empties the fragment. -/
theorem finishSplit_tU (sch nl rest : List Char) :
    finishSplit sch nl (tU rest) =
      ⟨sch, nl, (finishSplit sch nl rest).path, (finishSplit sch nl rest).query, []⟩ := by
  have h1 : splitFirst '#' (tU rest) = (tU rest, none) :=
    splitFirst_of_not_mem (not_mem_takeUntil '#' rest)
  have h2 : (splitFirst '#' rest).1 = tU rest := by
    rw [splitFirst_fst]
    rfl
  simp only [finishSplit, h1, h2]
  rfl

/-- The bracket checks and terminal splits of `urlsplit` once an authority
was found. -/
def nlChecks (sch nl rest2 : List Char) : Except String SplitC :=
  if (nl.contains '[' && !nl.contains ']') || (nl.contains ']' && !nl.contains '[') then
    .error "Invalid IPv6 URL"
  else if nl.contains '[' && nl.contains ']' && !bracketedHostOk (bracketedHostOf nl) then
    .error "invalid bracketed host"
  else .ok (finishSplit sch nl rest2)

/-- `urlsplitCore` when an authority is present. -/
theorem urlsplitCore_reduce_netloc {w d rest nl rest2 : List Char} {o : Option (List Char)}
    (hes : extractScheme w = (o, rest)) (hns : netlocSplit rest = some (nl, rest2)) :
    urlsplitCore w d = nlChecks (o.getD d) nl rest2 := by
  simp only [urlsplitCore, hes, hns]
  try rfl

/-- `urlsplitCore` when no authority is present. -/
theorem urlsplitCore_reduce_nonetloc {w d rest : List Char} {o : Option (List Char)}
    (hes : extractScheme w = (o, rest)) (hns : netlocSplit rest = none) :
    urlsplitCore w d = .ok (finishSplit (o.getD d) [] rest) := by
  simp only [urlsplitCore, hes, hns]
  try rfl

/-- Truncating the (sanitized) input at the first `#` keeps scheme, netloc,
path and query and empties the fragment whenever the split succeeds with a
nonempty netloc. -/
theorem urlsplitCore_tU {w d : List Char} {r : SplitC}
    (h : urlsplitCore w d = .ok r) (hn : r.netloc ≠ []) :
    urlsplitCore (tU w) d = .ok ⟨r.scheme, r.netloc, r.path, r.query, []⟩ := by
  cases hes : extractScheme w with
  | mk o rest =>
  cases hns : netlocSplit rest with
  | some pr =>
    obtain ⟨nl, rest2⟩ := pr
    rw [urlsplitCore_reduce_netloc hes hns] at h
    have htes : extractScheme (tU w) = (o, tU rest) := by
      cases o with
      | some s => exact extractScheme_some_tU hes
      | none =>
        have hrw : rest = w := by
          have h0 := extractScheme_none_snd (by rw [hes])
          rw [hes] at h0
          exact congrArg Prod.snd h0
        subst hrw
        exact extractScheme_none_prefix (by
          unfold tU takeUntil
          exact List.takeWhile_prefix _) (by rw [hes])
    rw [urlsplitCore_reduce_netloc htes (netlocSplit_tU hns)]
    unfold nlChecks at h ⊢
    by_cases hA : ((nl.contains '[' && !nl.contains ']') ||
        (nl.contains ']' && !nl.contains '[')) = true
    · rw [if_pos hA] at h
      cases h
    · rw [if_neg hA] at h ⊢
      by_cases hB : (nl.contains '[' && nl.contains ']' &&
          !bracketedHostOk (bracketedHostOf nl)) = true
      · rw [if_pos hB] at h
        cases h
      · rw [if_neg hB] at h ⊢
        have hr : finishSplit (o.getD d) nl rest2 = r := Except.ok.inj h
        rw [finishSplit_tU, ← hr]
        simp [finishSplit]
  | none =>
    rw [urlsplitCore_reduce_nonetloc hes hns] at h
    have hr : finishSplit (o.getD d) [] rest = r := Except.ok.inj h
    exfalso
    apply hn
    rw [← hr]
    simp [finishSplit]


/-- `netlocSplit` fails exactly when the remainder does not start with `//`. -/
theorem netlocSplit_none_iff (l : List Char) :
    netlocSplit l = none ↔ l.take 2 ≠ ['/', '/'] := by
  match l with
  | [] => constructor <;> intro h <;> simp_all [netlocSplit]
  | [c] => constructor <;> intro h <;> simp_all [netlocSplit]
  | c1 :: c2 :: r =>
    constructor
    · intro h hc
      simp only [List.take, List.cons.injEq] at hc
      obtain ⟨h1, h2, -⟩ := hc
      subst h1
      subst h2
      cases h
    · intro h
      unfold netlocSplit
      split
      · rename_i heq
        exfalso
        apply h
        injection heq with e1 e2
        injection e2 with e2 _
        rw [e1, e2]
        rfl
      · rfl

/-- The part of `splitFirst` before the separator is made of input characters. -/
theorem splitFirst_fst_subset (sep : Char) (l : List Char) :
    (splitFirst sep l).1 ⊆ l := by
  rw [splitFirst_fst]
  exact List.takeWhile_subset _

/-- The part of `splitFirst` after the separator is made of input characters. -/
theorem splitFirst_snd_subset {sep : Char} {l b : List Char}
    (h : (splitFirst sep l).2 = some b) : b ⊆ l := by
  induction l with
  | nil => cases h
  | cons c cs ih =>
    by_cases hc : c = sep
    · subst hc
      simp only [splitFirst, if_pos rfl] at h
      cases h
      exact fun x hx => List.mem_cons_of_mem _ hx
    · simp only [splitFirst, if_neg hc] at h
      exact fun x hx => List.mem_cons_of_mem _ (ih h hx)

/-- The separator does not occur before the split point. -/
theorem splitFirst_fst_not_mem (sep : Char) (l : List Char) :
    sep ∉ (splitFirst sep l).1 := by
  rw [splitFirst_fst]
  intro h
  have := List.mem_takeWhile_imp h
  simp at this

/-- A successful `splitFirst` decomposes its input. -/
theorem splitFirst_snd_some {sep : Char} {l b : List Char}
    (h : (splitFirst sep l).2 = some b) :
    l = (splitFirst sep l).1 ++ sep :: b := by
  induction l with
  | nil => cases h
  | cons c cs ih =>
    by_cases hc : c = sep
    · subst hc
      simp only [splitFirst, if_pos rfl] at h ⊢
      cases h
      rfl
    · simp only [splitFirst, if_neg hc] at h ⊢
      rw [List.cons_append, ← ih h]

/-- A failing `splitFirst` returns its input. -/
theorem splitFirst_snd_none {sep : Char} {l : List Char}
    (h : (splitFirst sep l).2 = none) : splitFirst sep l = (l, none) := by
  induction l with
  | nil => rfl
  | cons c cs ih =>
    by_cases hc : c = sep
    · simp only [splitFirst, if_pos hc] at h
      exact Option.noConfusion h
    · simp only [splitFirst, if_neg hc] at h ⊢
      rw [ih h]

/-- Shape of a successful authority split. -/
theorem netlocSplit_some_spec {rest nl rest2 : List Char}
    (h : netlocSplit rest = some (nl, rest2)) :
    ∃ r2, rest = '/' :: '/' :: r2 ∧
      nl = r2.takeWhile (fun c => c ≠ '/' && c ≠ '?' && c ≠ '#') ∧
      rest2 = r2.dropWhile (fun c => c ≠ '/' && c ≠ '?' && c ≠ '#') := by
  match rest with
  | [] => cases h
  | [c] =>
    exfalso
    unfold netlocSplit at h
    revert h
    split <;> intro h
    · rename_i heq
      cases heq
    · cases h
  | c1 :: c2 :: r2 =>
    by_cases hc1 : c1 = '/'
    · by_cases hc2 : c2 = '/'
      · subst hc1
        subst hc2
        refine ⟨r2, rfl, ?_, ?_⟩
        · unfold netlocSplit at h
          simp only [Option.some.injEq, Prod.mk.injEq] at h
          exact h.1.symm
        · unfold netlocSplit at h
          simp only [Option.some.injEq, Prod.mk.injEq] at h
          rw [← h.2]
          exact drop_takeWhile_length _ _
      · exfalso
        unfold netlocSplit at h
        revert h
        split <;> intro h
        · rename_i heq
          injection heq with e1 e2
          injection e2 with e2 _
          exact hc2 e2
        · cases h
    · exfalso
      unfold netlocSplit at h
      revert h
      split <;> intro h
      · rename_i heq
        injection heq with e1 _
        exact hc1 e1
      · cases h

/-- The default scheme only ever lands in the scheme field. -/
theorem urlsplitCore_dflt {w d d' : List Char} {r : SplitC}
    (h : urlsplitCore w d = .ok r) :
    r.scheme = (extractScheme w).1.getD d ∧
    urlsplitCore w d' =
      .ok ⟨(extractScheme w).1.getD d', r.netloc, r.path, r.query, r.fragment⟩ := by
  cases hes : extractScheme w with
  | mk o rest =>
  cases hns : netlocSplit rest with
  | some pr =>
    obtain ⟨nl, rest2⟩ := pr
    rw [urlsplitCore_reduce_netloc hes hns] at h
    rw [urlsplitCore_reduce_netloc hes hns]
    unfold nlChecks at h ⊢
    by_cases hA : ((nl.contains '[' && !nl.contains ']') ||
        (nl.contains ']' && !nl.contains '[')) = true
    · rw [if_pos hA] at h
      cases h
    · rw [if_neg hA] at h ⊢
      by_cases hB : (nl.contains '[' && nl.contains ']' &&
          !bracketedHostOk (bracketedHostOf nl)) = true
      · rw [if_pos hB] at h
        cases h
      · rw [if_neg hB] at h ⊢
        have hr := Except.ok.inj h
        constructor
        · rw [← hr]
          rfl
        · rw [← hr]
          rfl
  | none =>
    rw [urlsplitCore_reduce_nonetloc hes hns] at h
    rw [urlsplitCore_reduce_nonetloc hes hns]
    have hr := Except.ok.inj h
    constructor
    · rw [← hr]
      rfl
    · rw [← hr]
      rfl

/-- Characters of the terminal-split components come from the remainder. -/
theorem finishSplit_chars {sch nl rest : List Char} {P : Char → Prop}
    (hw : ∀ c ∈ rest, P c) :
    (∀ c ∈ (finishSplit sch nl rest).path, P c) ∧
    (∀ c ∈ (finishSplit sch nl rest).query, P c) ∧
    (∀ c ∈ (finishSplit sch nl rest).fragment, P c) := by
  have hf1 : ∀ c ∈ (splitFirst '#' rest).1, P c :=
    fun c hc => hw c (splitFirst_fst_subset '#' rest hc)
  refine ⟨?_, ?_, ?_⟩
  · intro c hc
    exact hf1 c (splitFirst_fst_subset '?' _ hc)
  · intro c hc
    cases hq : (splitFirst '?' (splitFirst '#' rest).1).2 with
    | none =>
      rw [show (finishSplit sch nl rest).query =
        (splitFirst '?' (splitFirst '#' rest).1).2.getD [] from rfl, hq] at hc
      cases hc
    | some q =>
      rw [show (finishSplit sch nl rest).query =
        (splitFirst '?' (splitFirst '#' rest).1).2.getD [] from rfl, hq] at hc
      exact hf1 c (splitFirst_snd_subset hq hc)
  · intro c hc
    cases hq : (splitFirst '#' rest).2 with
    | none =>
      rw [show (finishSplit sch nl rest).fragment =
        (splitFirst '#' rest).2.getD [] from rfl, hq] at hc
      cases hc
    | some f =>
      rw [show (finishSplit sch nl rest).fragment =
        (splitFirst '#' rest).2.getD [] from rfl, hq] at hc
      exact hw c (splitFirst_snd_subset hq hc)

/-- The path has no `#` and no `?`, and the query no `#`. -/
theorem finishSplit_seps (sch nl rest : List Char) :
    '#' ∉ (finishSplit sch nl rest).path ∧ '?' ∉ (finishSplit sch nl rest).path ∧
    '#' ∉ (finishSplit sch nl rest).query := by
  have hf1 : '#' ∉ (splitFirst '#' rest).1 := splitFirst_fst_not_mem '#' rest
  refine ⟨?_, ?_, ?_⟩
  · intro hc
    exact hf1 (splitFirst_fst_subset '?' _ hc)
  · exact splitFirst_fst_not_mem '?' _
  · intro hc
    cases hq : (splitFirst '?' (splitFirst '#' rest).1).2 with
    | none =>
      rw [show (finishSplit sch nl rest).query =
        (splitFirst '?' (splitFirst '#' rest).1).2.getD [] from rfl, hq] at hc
      cases hc
    | some q =>
      rw [show (finishSplit sch nl rest).query =
        (splitFirst '?' (splitFirst '#' rest).1).2.getD [] from rfl, hq] at hc
      exact hf1 (splitFirst_snd_subset hq hc)

/-- Split invariants guaranteed by a successful `urlsplit`: the netloc has
no `/`, `?` or `#` and passed both bracket checks, the path has no `#` or
`?`, the query no `#`, and the scheme is the extracted one or the default. -/
theorem urlsplitCore_ok_spec {w d : List Char} {r : SplitC}
    (h : urlsplitCore w d = .ok r) :
    r.netloc.all (fun c => c ≠ '/' && c ≠ '?' && c ≠ '#') = true ∧
    ((r.netloc.contains '[' && !r.netloc.contains ']') ||
      (r.netloc.contains ']' && !r.netloc.contains '[')) = false ∧
    (r.netloc.contains '[' && r.netloc.contains ']' &&
      !bracketedHostOk (bracketedHostOf r.netloc)) = false ∧
    '#' ∉ r.path ∧ '?' ∉ r.path ∧ '#' ∉ r.query ∧
    r.scheme = (extractScheme w).1.getD d := by
  cases hes : extractScheme w with
  | mk o rest =>
  cases hns : netlocSplit rest with
  | some pr =>
    obtain ⟨nl, rest2⟩ := pr
    rw [urlsplitCore_reduce_netloc hes hns] at h
    unfold nlChecks at h
    by_cases hA : ((nl.contains '[' && !nl.contains ']') ||
        (nl.contains ']' && !nl.contains '[')) = true
    · rw [if_pos hA] at h
      cases h
    · rw [if_neg hA] at h
      by_cases hB : (nl.contains '[' && nl.contains ']' &&
          !bracketedHostOk (bracketedHostOf nl)) = true
      · rw [if_pos hB] at h
        cases h
      · rw [if_neg hB] at h
        have hr := Except.ok.inj h
        subst hr
        simp only [Bool.not_eq_true] at hA hB
        obtain ⟨r2, hrest, hnl, hrest2⟩ := netlocSplit_some_spec hns
        refine ⟨?_, hA, hB, (finishSplit_seps _ _ _).1, (finishSplit_seps _ _ _).2.1,
          (finishSplit_seps _ _ _).2.2, rfl⟩
        show nl.all (fun c => c ≠ '/' && c ≠ '?' && c ≠ '#') = true
        rw [hnl]
        rw [List.all_eq_true]
        intro x hx
        have hpx := List.mem_takeWhile_imp hx
        exact hpx
  | none =>
    rw [urlsplitCore_reduce_nonetloc hes hns] at h
    have hr := Except.ok.inj h
    subst hr
    exact ⟨rfl, rfl, rfl, (finishSplit_seps _ _ _).1, (finishSplit_seps _ _ _).2.1,
      (finishSplit_seps _ _ _).2.2, rfl⟩

/-- A predicate holding on the input holds on every character of the netloc,
path, query and fragment of a successful split. -/
theorem urlsplitCore_chars {w d : List Char} {r : SplitC} {P : Char → Prop}
    (h : urlsplitCore w d = .ok r) (hw : ∀ c ∈ w, P c) :
    (∀ c ∈ r.netloc, P c) ∧ (∀ c ∈ r.path, P c) ∧ (∀ c ∈ r.query, P c) ∧
      (∀ c ∈ r.fragment, P c) := by
  cases hes : extractScheme w with
  | mk o rest =>
  have hrest : ∀ c ∈ rest, P c := by
    cases o with
    | none =>
      have h0 := extractScheme_none_snd (by rw [hes])
      rw [hes] at h0
      have : rest = w := congrArg Prod.snd h0
      rw [this]
      exact hw
    | some s =>
      obtain ⟨hu, -, -, -, -⟩ := extractScheme_some_spec hes
      intro c hc
      apply hw
      rw [hu]
      exact List.mem_append_right _ (List.mem_cons_of_mem _ hc)
  cases hns : netlocSplit rest with
  | some pr =>
    obtain ⟨nl, rest2⟩ := pr
    rw [urlsplitCore_reduce_netloc hes hns] at h
    unfold nlChecks at h
    by_cases hA : ((nl.contains '[' && !nl.contains ']') ||
        (nl.contains ']' && !nl.contains '[')) = true
    · rw [if_pos hA] at h
      cases h
    · rw [if_neg hA] at h
      by_cases hB : (nl.contains '[' && nl.contains ']' &&
          !bracketedHostOk (bracketedHostOf nl)) = true
      · rw [if_pos hB] at h
        cases h
      · rw [if_neg hB] at h
        have hr := Except.ok.inj h
        subst hr
        obtain ⟨r2, hrest', hnl, hrest2⟩ := netlocSplit_some_spec hns
        have hr2 : ∀ c ∈ r2, P c := by
          intro c hc
          apply hrest
          rw [hrest']
          exact List.mem_cons_of_mem _ (List.mem_cons_of_mem _ hc)
        have hrest2P : ∀ c ∈ rest2, P c := by
          intro c hc
          apply hr2
          rw [hrest2] at hc
          exact (List.dropWhile_suffix _).subset hc
        refine ⟨?_, (finishSplit_chars hrest2P).1, (finishSplit_chars hrest2P).2.1,
          (finishSplit_chars hrest2P).2.2⟩
        show ∀ c ∈ nl, P c
        intro c hc
        apply hr2
        rw [hnl] at hc
        exact List.takeWhile_subset _ hc
  | none =>
    rw [urlsplitCore_reduce_nonetloc hes hns] at h
    have hr := Except.ok.inj h
    subst hr
    exact ⟨(by intro c hc; cases hc), (finishSplit_chars hrest).1,
      (finishSplit_chars hrest).2.1, (finishSplit_chars hrest).2.2⟩

/-- An extracted scheme is nonempty, letter-headed, made of scheme
characters, and fixed by lowercasing. -/
theorem extractScheme_some_wf {w s rest : List Char}
    (h : extractScheme w = (some s, rest)) :
    s ≠ [] ∧ headAlpha s = true ∧ s.all schemeChar = true ∧
      s.map pyLowerChar = s := by
  obtain ⟨hu, hs, hne, hhead, hall⟩ := extractScheme_some_spec h
  refine ⟨?_, ?_, ?_, ?_⟩
  · rw [hs]
    simpa using hne
  · rw [hu, headAlpha_append _ hne] at hhead
    rw [hs]
    cases hpre : w.takeWhile (fun c => c ≠ ':') with
    | nil => exact absurd hpre hne
    | cons c cs =>
      rw [hpre] at hhead
      exact isAsciiAlpha_pyLowerChar hhead
  · rw [hs]
    apply List.all_eq_true.mpr
    intro x hx
    obtain ⟨y, hy, rfl⟩ := List.mem_map.mp hx
    exact schemeChar_pyLowerChar (List.all_eq_true.mp hall y hy)
  · rw [hs, List.map_map]
    exact List.map_congr_left (fun x _ => pyLowerChar_idem x)

/-- Scheme characters are above the control/space range. -/
theorem schemeChar_big {c : Char} (h : schemeChar c = true) : 0x20 < c.toNat := by
  unfold schemeChar isAsciiAlpha isAsciiDigit at h
  simp only [Bool.or_eq_true, Bool.and_eq_true, decide_eq_true_eq] at h
  rcases h with ((((hab | hab) | hd) | hp) | hm) | hdot
  · have h1 := @charLe_toNat 'a' c hab.1
    have h2 : Char.toNat 'a' = 97 := rfl
    omega
  · have h1 := @charLe_toNat 'A' c hab.1
    have h2 : Char.toNat 'A' = 65 := rfl
    omega
  · have h1 := @charLe_toNat '0' c hd.1
    have h2 : Char.toNat '0' = 48 := rfl
    omega
  · subst hp
    decide
  · subst hm
    decide
  · subst hdot
    decide

/-- Scheme characters are neither control/space nor unsafe bytes. -/
theorem schemeChar_clean {c : Char} (h : schemeChar c = true) :
    isC0OrSpace c = false ∧ isUnsafeByte c = false := by
  have hbig := schemeChar_big h
  constructor
  · unfold isC0OrSpace
    exact decide_eq_false (by omega)
  · unfold isUnsafeByte
    simp only [Bool.or_eq_false_iff, decide_eq_false_iff_not]
    refine ⟨⟨?_, ?_⟩, ?_⟩ <;> intro he <;> subst he <;> revert hbig <;> decide

/-- The default-scheme sanitization is the identity on scheme strings. -/
theorem sanitizeDflt_noop {l : List Char} (h : ∀ c ∈ l, schemeChar c = true) :
    sanitizeDflt l = l := by
  unfold sanitizeDflt
  have h1 : l.dropWhile isC0OrSpace = l := by
    cases l with
    | nil => rfl
    | cons c cs =>
      rw [List.dropWhile_cons, if_neg]
      rw [(schemeChar_clean (h c (List.mem_cons_self _ _))).1]
      simp
  rw [h1]
  have h2 : l.reverse.dropWhile isC0OrSpace = l.reverse := by
    cases hrl : l.reverse with
    | nil => rfl
    | cons c cs =>
      rw [List.dropWhile_cons, if_neg]
      have hc : c ∈ l := by
        rw [← List.mem_reverse, hrl]
        exact List.mem_cons_self _ _
      rw [(schemeChar_clean (h c hc)).1]
      simp
  rw [h2, List.reverse_reverse]
  apply List.filter_eq_self.mpr
  intro c hc
  rw [(schemeChar_clean (h c hc)).2]
  rfl

/-- Taking the length of the left part of an append returns it. -/
theorem take_len_append (a b : List Char) : (a ++ b).take a.length = a := by
  induction a with
  | nil => rfl
  | cons c cs ih => simp [List.take, ih]

/-- The after-last-slash region contains no slash. -/
theorem afterLastSlash_noslash (p : List Char) : '/' ∉ afterLastSlash p := by
  unfold afterLastSlash
  intro h
  rw [List.mem_reverse] at h
  have := List.mem_takeWhile_imp h
  simp at this

/-- Without a slash the region is the whole list. -/
theorem afterLastSlash_of_not_mem {p : List Char} (h : '/' ∉ p) :
    afterLastSlash p = p := by
  unfold afterLastSlash
  rw [List.takeWhile_eq_self_iff.mpr, List.reverse_reverse]
  intro x hx
  simp only [decide_eq_true_eq]
  intro he
  subst he
  exact h (List.mem_reverse.mp hx)

/-- The region after the last slash of `a ++ '/' :: b` with slash-free `b`. -/
theorem afterLastSlash_append {a : List Char} (b : List Char) (h : '/' ∉ b) :
    afterLastSlash (a ++ '/' :: b) = b := by
  unfold afterLastSlash
  rw [show (a ++ '/' :: b).reverse = b.reverse ++ '/' :: a.reverse by simp]
  rw [takeWhile_append_stop a.reverse ?hall ?hc]
  · exact List.reverse_reverse b
  case hall =>
    intro x hx
    simp only [decide_eq_true_eq]
    intro he
    subst he
    exact h (List.mem_reverse.mp hx)
  case hc => simp

/-- Every list splits as a prefix plus its after-last-slash region; with a
slash present, the prefix ends in a slash. -/
theorem afterLastSlash_decomp (p : List Char) :
    p = (p.reverse.dropWhile (fun c => c ≠ '/')).reverse ++ afterLastSlash p ∧
    (p.contains '/' = true →
      ∃ pre0, (p.reverse.dropWhile (fun c => c ≠ '/')).reverse = pre0 ++ ['/']) := by
  constructor
  · unfold afterLastSlash
    rw [show (p.reverse.dropWhile (fun c => c ≠ '/')).reverse ++
        (p.reverse.takeWhile (fun c => c ≠ '/')).reverse =
        ((p.reverse.takeWhile (fun c => c ≠ '/')) ++
          (p.reverse.dropWhile (fun c => c ≠ '/'))).reverse by
      rw [List.reverse_append]]
    rw [List.takeWhile_append_dropWhile, List.reverse_reverse]
  · intro hc
    have hmem : '/' ∈ p.reverse := by
      rw [List.mem_reverse]
      exact List.elem_iff.mp hc
    cases hd : p.reverse.dropWhile (fun c => c ≠ '/') with
    | nil =>
      exfalso
      have : p.reverse.takeWhile (fun c => c ≠ '/') = p.reverse := by
        have h0 := @List.takeWhile_append_dropWhile _ (fun c => decide (c ≠ '/')) p.reverse
        rw [hd, List.append_nil] at h0
        exact h0
      have h2 : '/' ∈ p.reverse.takeWhile (fun c => c ≠ '/') := by
        rw [this]
        exact hmem
      have := List.mem_takeWhile_imp h2
      simp at this
    | cons c cs =>
      have hc0 : c = '/' := by
        have := dropWhile_head_not hd
        simpa using this
      subst hc0
      exact ⟨cs.reverse, by simp⟩

/-- Re-splitting a merged path/params pair recovers it, provided the params
are nonempty and slash-free and the path's final segment has no `;`. -/
theorem splitParams_merge {P0 prm : List Char} (hne : prm ≠ [])
    (hslash : '/' ∉ prm) (hsemi : ';' ∉ afterLastSlash P0) :
    splitParams (mergeParams P0 prm) = (P0, prm) := by
  have hm : mergeParams P0 prm = P0 ++ ';' :: prm := by
    unfold mergeParams
    rw [if_neg]
    simpa using hne
  rw [hm]
  by_cases hc : P0.contains '/' = true
  · obtain ⟨hdec, hpre⟩ := afterLastSlash_decomp P0
    obtain ⟨pre0, hpre0⟩ := hpre hc
    have hP0 : P0 = pre0 ++ '/' :: afterLastSlash P0 := by
      conv => lhs; rw [hdec]
      rw [hpre0]
      simp
    have hreg : afterLastSlash (P0 ++ ';' :: prm) = afterLastSlash P0 ++ ';' :: prm := by
      conv => lhs; rw [hP0]
      rw [show (pre0 ++ '/' :: afterLastSlash P0) ++ ';' :: prm =
        pre0 ++ '/' :: (afterLastSlash P0 ++ ';' :: prm) by simp]
      apply afterLastSlash_append
      intro hx
      rcases List.mem_append.mp hx with hx1 | hx2
      · exact afterLastSlash_noslash P0 hx1
      · rcases List.mem_cons.mp hx2 with he | hx3
        · cases he
        · exact hslash hx3
    have hcontains : (P0 ++ ';' :: prm).contains '/' = true := by
      rw [List.elem_iff] at hc ⊢
      exact List.mem_append_left _ hc
    unfold splitParams
    rw [if_pos hcontains]
    simp only [hreg, splitFirst_append prm hsemi]
    have hlen : (P0 ++ ';' :: prm).length -
        (afterLastSlash P0 ++ ';' :: prm).length = P0.length - (afterLastSlash P0).length := by
      simp only [List.length_append, List.length_cons]
      omega
    have hlenP : P0.length = pre0.length + 1 + (afterLastSlash P0).length := by
      conv => lhs; rw [hP0]
      simp only [List.length_append, List.length_cons]
      omega
    have htake : (P0 ++ ';' :: prm).take (P0.length - (afterLastSlash P0).length) =
        P0.take (P0.length - (afterLastSlash P0).length) :=
      List.take_append_of_le_length (by omega)
    have htake2 : P0.take (P0.length - (afterLastSlash P0).length) = pre0 ++ ['/'] := by
      have he : P0.length - (afterLastSlash P0).length = (pre0 ++ ['/']).length := by
        simp only [List.length_append, List.length_singleton]
        omega
      rw [he]
      conv => lhs; rw [hP0]
      rw [show pre0 ++ '/' :: afterLastSlash P0 = (pre0 ++ ['/']) ++ afterLastSlash P0 by simp]
      exact take_len_append _ _
    simp only [hlen, htake, htake2]
    rw [show (pre0 ++ ['/']) ++ afterLastSlash P0 = pre0 ++ '/' :: afterLastSlash P0 by simp]
    rw [← hP0]
    try rfl
  · have hnos : '/' ∉ P0 := by
      intro hx
      exact hc (List.elem_iff.mpr hx)
    have hcontains : (P0 ++ ';' :: prm).contains '/' = false := by
      rw [← Bool.not_eq_true]
      rw [List.elem_iff]
      intro hx
      rcases List.mem_append.mp hx with hx1 | hx2
      · exact hnos hx1
      · rcases List.mem_cons.mp hx2 with he | hx3
        · cases he
        · exact hslash hx3
    unfold splitParams
    rw [if_neg (by rw [hcontains]; exact Bool.false_ne_true)]
    rw [afterLastSlash_of_not_mem hnos] at hsemi
    simp only [splitFirst_append prm hsemi]

/-- Splitting a path whose final segment has no `;` is trivial. -/
theorem splitParams_nosemi {P0 : List Char} (hsemi : ';' ∉ afterLastSlash P0) :
    splitParams P0 = (P0, []) := by
  unfold splitParams
  by_cases hc : P0.contains '/' = true
  · rw [if_pos hc]
    simp only [(splitFirst_of_not_mem hsemi : splitFirst ';' (afterLastSlash P0) = _)]
  · rw [if_neg hc]
    have hnos : '/' ∉ P0 := fun hx => hc (List.elem_iff.mpr hx)
    rw [afterLastSlash_of_not_mem hnos] at hsemi
    simp only [(splitFirst_of_not_mem hsemi : splitFirst ';' P0 = _)]

/-- `urlunsplit` is the fragment-free rendering plus an optional `#`-tail. -/
theorem unsplit_frag_split (S N P Q f : List Char) :
    urlunsplitC S N P Q f =
      (if !f.isEmpty then urlunsplitC S N P Q [] ++ '#' :: f else urlunsplitC S N P Q []) :=
  rfl

/-- The fragment-free rendering contains no `#` when no component does. -/
theorem hash_not_mem_unsplit {S N P Q : List Char}
    (hS : '#' ∉ S) (hN : '#' ∉ N) (hP : '#' ∉ P) (hQ : '#' ∉ Q) :
    '#' ∉ urlunsplitC S N P Q [] := by
  have hP2 : '#' ∉ insSlash P := by
    unfold insSlash
    by_cases h : (!P.isEmpty && decide (List.take 1 P ≠ ['/'])) = true
    · rw [if_pos h]
      intro hx
      rcases List.mem_cons.mp hx with he | hx2
      · cases he
      · exact hP hx2
    · rw [if_neg h]
      exact hP
  unfold urlunsplitC
  intro h
  split_ifs at h <;> simp_all [List.mem_append, List.mem_cons]

/-- Truncating a rendered URL at the first `#` drops exactly the fragment. -/
theorem tU_unsplit {S N P Q : List Char} (f : List Char)
    (hS : '#' ∉ S) (hN : '#' ∉ N) (hP : '#' ∉ P) (hQ : '#' ∉ Q) :
    tU (urlunsplitC S N P Q f) = urlunsplitC S N P Q [] := by
  rw [unsplit_frag_split S N P Q f]
  have h3 := hash_not_mem_unsplit hS hN hP hQ
  by_cases hf : f.isEmpty = true
  · rw [if_neg (by rw [hf]; simp)]
    exact takeUntil_of_not_mem h3
  · rw [if_pos (by rw [Bool.not_eq_true', ← Bool.not_eq_true]; exact hf)]
    unfold tU takeUntil
    apply takeWhile_append_stop
    · intro x hx
      simp only [decide_eq_true_eq]
      intro he
      subst he
      exact h3 hx
    · simp

/-- The inserted root slash is idempotent. -/
theorem insSlash_insSlash (p : List Char) : insSlash (insSlash p) = insSlash p := by
  unfold insSlash
  by_cases h : (!p.isEmpty && p.take 1 ≠ ['/']) = true
  · rw [if_pos h, if_neg (by simp)]
  · rw [if_neg h, if_neg h]

/-- With an authority present, `urlunsplit` ignores a pre-inserted slash. -/
theorem unsplit_insSlash {S N Q f : List Char} (P : List Char) (hN : N ≠ []) :
    urlunsplitC S N (insSlash P) Q f = urlunsplitC S N P Q f := by
  have hN2 : N.isEmpty = false := by
    cases N with
    | nil => exact absurd rfl hN
    | cons c cs => rfl
  simp [urlunsplitC, hN2, insSlash_insSlash]

/-- Truncation at the first `#` is idempotent. -/
theorem tU_tU (l : List Char) : tU (tU l) = tU l := takeWhile_idem

/-- Dropping over a fully passing prefix continues in the tail. -/
theorem dropWhile_append_all {p : Char → Bool} {a : List Char} (b : List Char)
    (h : ∀ x ∈ a, p x = true) : (a ++ b).dropWhile p = b.dropWhile p := by
  induction a with
  | nil => rfl
  | cons c cs ih =>
    have hc : p c = true := h c (List.mem_cons_self _ _)
    simp only [List.cons_append, List.dropWhile_cons, hc, if_true]
    exact ih (fun x hx => h x (List.mem_cons_of_mem _ hx))

/-- The slash-inserted path is empty or starts with a slash. -/
theorem insSlash_head (P : List Char) :
    insSlash P = [] ∨ ∃ t, insSlash P = '/' :: t := by
  unfold insSlash
  by_cases h : (!P.isEmpty && decide (List.take 1 P ≠ ['/'])) = true
  · rw [if_pos h]
    exact Or.inr ⟨P, rfl⟩
  · rw [if_neg h]
    cases P with
    | nil => exact Or.inl rfl
    | cons c cs =>
      simp only [List.isEmpty_cons, Bool.not_false, Bool.true_and,
        decide_eq_true_eq, Decidable.not_not] at h
      simp only [List.take, List.cons.injEq] at h
      exact Or.inr ⟨cs, by rw [h.1]⟩

/-- The rendered tail after the authority never starts with an
authority character. -/
theorem tail_nlp_break (P Q f : List Char) :
    (insSlash P ++ (if Q.isEmpty then [] else '?' :: Q) ++
        (if f.isEmpty then [] else '#' :: f)).takeWhile
          (fun c => c ≠ '/' && c ≠ '?' && c ≠ '#') = [] ∧
    (insSlash P ++ (if Q.isEmpty then [] else '?' :: Q) ++
        (if f.isEmpty then [] else '#' :: f)).dropWhile
          (fun c => c ≠ '/' && c ≠ '?' && c ≠ '#') =
      insSlash P ++ (if Q.isEmpty then [] else '?' :: Q) ++
        (if f.isEmpty then [] else '#' :: f) := by
  rcases insSlash_head P with hP | ⟨t, hP⟩ <;> rw [hP]
  · simp only [List.nil_append]
    by_cases hQe : Q.isEmpty = true
    · rw [if_pos hQe]
      simp only [List.nil_append]
      by_cases hfe : f.isEmpty = true
      · rw [if_pos hfe]
        exact ⟨rfl, rfl⟩
      · rw [if_neg hfe]
        exact ⟨rfl, rfl⟩
    · rw [if_neg hQe]
      exact ⟨rfl, rfl⟩
  · exact ⟨rfl, rfl⟩

/-- The authority split on a rendered URL body recovers netloc and tail. -/
theorem netlocSplit_build {N : List Char} (R : List Char)
    (hNall : N.all (fun c => c ≠ '/' && c ≠ '?' && c ≠ '#') = true)
    (hR1 : R.takeWhile (fun c => c ≠ '/' && c ≠ '?' && c ≠ '#') = [])
    (hR2 : R.dropWhile (fun c => c ≠ '/' && c ≠ '?' && c ≠ '#') = R) :
    netlocSplit ('/' :: '/' :: (N ++ R)) = some (N, R) := by
  have hNmem : ∀ x ∈ N, (fun c => c ≠ '/' && c ≠ '?' && c ≠ '#') x = true :=
    fun x hx => List.all_eq_true.mp hNall x hx
  unfold netlocSplit
  simp only [Option.some.injEq, Prod.mk.injEq]
  have ht : (N ++ R).takeWhile (fun c => c ≠ '/' && c ≠ '?' && c ≠ '#') = N := by
    rw [takeWhile_append_all R hNmem, hR1, List.append_nil]
  constructor
  · exact ht
  · rw [drop_takeWhile_length, dropWhile_append_all R hNmem, hR2]

/-- Explicit rendering of `urlunsplit` when an authority is present. -/
theorem unsplit_shape {S N P Q f : List Char} (hN : N ≠ []) :
    urlunsplitC S N P Q f =
      (if S.isEmpty then [] else S ++ [':']) ++
        '/' :: '/' :: (N ++ (insSlash P ++ (if Q.isEmpty then [] else '?' :: Q) ++
          (if f.isEmpty then [] else '#' :: f))) := by
  have hN2 : N.isEmpty = false := by
    cases N with
    | nil => exact absurd rfl hN
    | cons c cs => rfl
  unfold urlunsplitC
  simp only [hN2, Bool.not_false, Bool.true_or, if_true]
  by_cases hSe : S.isEmpty = true <;> by_cases hQe : Q.isEmpty = true <;>
    by_cases hfe : f.isEmpty = true <;>
    simp [hSe, hQe, hfe, List.append_assoc]

/-- Membership in the slash-inserted path. -/
theorem not_mem_insSlash {c : Char} {P : List Char} (hc : c ≠ '/') (h : c ∉ P) :
    c ∉ insSlash P := by
  unfold insSlash
  split
  · intro hx
    rcases List.mem_cons.mp hx with he | hx2
    · exact hc he
    · exact h hx2
  · exact h

/-- The terminal splits recover path, query and fragment from a rendering. -/
theorem finishSplit_build {P Q : List Char} (f : List Char) (sch nl : List Char)
    (hP1 : '#' ∉ P) (hP2 : '?' ∉ P) (hQ : '#' ∉ Q) :
    finishSplit sch nl (insSlash P ++ (if Q.isEmpty then [] else '?' :: Q) ++
        (if f.isEmpty then [] else '#' :: f)) = ⟨sch, nl, insSlash P, Q, f⟩ := by
  have hiP1 : '#' ∉ insSlash P := not_mem_insSlash (by decide) hP1
  have hiP2 : '?' ∉ insSlash P := not_mem_insSlash (by decide) hP2
  have hx1 : '#' ∉ insSlash P ++ (if Q.isEmpty then [] else '?' :: Q) := by
    intro hx
    rcases List.mem_append.mp hx with h1 | h2
    · exact hiP1 h1
    · by_cases hQe : Q.isEmpty = true
      · rw [if_pos hQe] at h2
        cases h2
      · rw [if_neg hQe] at h2
        rcases List.mem_cons.mp h2 with he | h3
        · cases he
        · exact hQ h3
  have hq : splitFirst '?' (insSlash P ++ (if Q.isEmpty then [] else '?' :: Q)) =
      (insSlash P, if Q.isEmpty then none else some Q) := by
    by_cases hQe : Q.isEmpty = true
    · rw [if_pos hQe, if_pos hQe, List.append_nil]
      exact splitFirst_of_not_mem hiP2
    · rw [if_neg hQe, if_neg hQe]
      exact splitFirst_append Q hiP2
  have hf : splitFirst '#' (insSlash P ++ (if Q.isEmpty then [] else '?' :: Q) ++
      (if f.isEmpty then [] else '#' :: f)) =
      (insSlash P ++ (if Q.isEmpty then [] else '?' :: Q),
        if f.isEmpty then none else some f) := by
    by_cases hfe : f.isEmpty = true
    · rw [if_pos hfe, if_pos hfe, List.append_nil]
      exact splitFirst_of_not_mem hx1
    · rw [if_neg hfe, if_neg hfe]
      exact splitFirst_append f hx1
  unfold finishSplit
  simp only [hf, hq]
  by_cases hQe : Q.isEmpty = true <;> by_cases hfe : f.isEmpty = true
  · rw [if_pos hQe, if_pos hfe, List.isEmpty_iff.mp hQe, List.isEmpty_iff.mp hfe]
    rfl
  · rw [if_pos hQe, if_neg hfe, List.isEmpty_iff.mp hQe]
    rfl
  · rw [if_neg hQe, if_pos hfe, List.isEmpty_iff.mp hfe]
    rfl
  · rw [if_neg hQe, if_neg hfe]
    rfl

/-- Parsing a rendering with a nonempty well-formed authority recovers the
components (the path gaining its root slash, the scheme falling back to the
default when empty). -/
theorem urlsplitCore_unsplit {S N P Q f d : List Char} (hN : N ≠ [])
    (hNall : N.all (fun c => c ≠ '/' && c ≠ '?' && c ≠ '#') = true)
    (hA : ((N.contains '[' && !N.contains ']') ||
      (N.contains ']' && !N.contains '[')) = false)
    (hB : (N.contains '[' && N.contains ']' &&
      !bracketedHostOk (bracketedHostOf N)) = false)
    (hP1 : '#' ∉ P) (hP2 : '?' ∉ P) (hQ : '#' ∉ Q)
    (hS : S = [] ∨ (headAlpha S = true ∧ S.all schemeChar = true ∧
      S.map pyLowerChar = S)) :
    urlsplitCore (urlunsplitC S N P Q f) d =
      .ok ⟨if S.isEmpty then d else S, N, insSlash P, Q, f⟩ := by
  rw [unsplit_shape hN]
  obtain ⟨hR1, hR2⟩ := tail_nlp_break P Q f
  have hns := netlocSplit_build (N := N)
    (insSlash P ++ (if Q.isEmpty then [] else '?' :: Q) ++
      (if f.isEmpty then [] else '#' :: f)) hNall hR1 hR2
  rcases hS with hSe | ⟨hh, hall, hmap⟩
  · subst hSe
    simp only [List.isEmpty_nil, if_true, List.nil_append]
    have hes : extractScheme ('/' :: '/' ::
        (N ++ (insSlash P ++ (if Q.isEmpty then [] else '?' :: Q) ++
          (if f.isEmpty then [] else '#' :: f)))) =
        (none, '/' :: '/' ::
        (N ++ (insSlash P ++ (if Q.isEmpty then [] else '?' :: Q) ++
          (if f.isEmpty then [] else '#' :: f)))) :=
      extractScheme_headFalse rfl
    rw [urlsplitCore_reduce_netloc hes hns]
    unfold nlChecks
    rw [if_neg (by rw [hA]; exact Bool.false_ne_true),
      if_neg (by rw [hB]; exact Bool.false_ne_true)]
    rw [finishSplit_build f _ _ hP1 hP2 hQ]
    rfl
  · have hSne : S ≠ [] := by
      cases S with
      | nil => cases hh
      | cons c cs => simp
    have hSne2 : ¬(S.isEmpty = true) := by
      simpa using hSne
    rw [if_neg hSne2]
    rw [show (S ++ [':']) ++ '/' :: '/' ::
        (N ++ (insSlash P ++ (if Q.isEmpty then [] else '?' :: Q) ++
          (if f.isEmpty then [] else '#' :: f))) =
      S ++ ':' :: ('/' :: '/' ::
        (N ++ (insSlash P ++ (if Q.isEmpty then [] else '?' :: Q) ++
          (if f.isEmpty then [] else '#' :: f)))) by simp]
    have hes := extractScheme_build ('/' :: '/' ::
        (N ++ (insSlash P ++ (if Q.isEmpty then [] else '?' :: Q) ++
          (if f.isEmpty then [] else '#' :: f)))) hSne hh hall
    rw [hmap] at hes
    rw [urlsplitCore_reduce_netloc hes hns]
    unfold nlChecks
    rw [if_neg (by rw [hA]; exact Bool.false_ne_true),
      if_neg (by rw [hB]; exact Bool.false_ne_true)]
    rw [finishSplit_build f _ _ hP1 hP2 hQ]
    rw [if_neg hSne2]
    try rfl

/-- A failing `splitFirst` means the separator is absent. -/
theorem splitFirst_none_not_mem {sep : Char} {l : List Char}
    (h : (splitFirst sep l).2 = none) : sep ∉ l := by
  induction l with
  | nil => intro hx; cases hx
  | cons c cs ih =>
    by_cases hc : c = sep
    · subst hc
      simp only [splitFirst, if_pos rfl] at h
      exact Option.noConfusion h
    · simp only [splitFirst, if_neg hc] at h
      intro hx
      rcases List.mem_cons.mp hx with he | hx2
      · exact hc he.symm
      · exact ih h hx2

/-- Truncation ignores a trailing failing element. -/
theorem takeWhile_append_last {p : Char → Bool} {c : Char} (a : List Char)
    (hc : p c = false) : (a ++ [c]).takeWhile p = a.takeWhile p := by
  induction a with
  | nil => simp [List.takeWhile_cons, hc]
  | cons x xs ih =>
    by_cases hx : p x
    · simp only [List.cons_append, List.takeWhile_cons, hx, if_true]
      rw [ih]
    · simp [List.takeWhile_cons, hx]

/-- A leading slash does not change the after-last-slash region. -/
theorem afterLastSlash_cons_slash (l : List Char) :
    afterLastSlash ('/' :: l) = afterLastSlash l := by
  unfold afterLastSlash
  rw [show ('/' :: l).reverse = l.reverse ++ ['/'] by simp]
  rw [takeWhile_append_last l.reverse (by simp)]

/-- Inserting a root slash does not change the final segment. -/
theorem afterLastSlash_insSlash (P : List Char) :
    afterLastSlash (insSlash P) = afterLastSlash P := by
  unfold insSlash
  split
  · exact afterLastSlash_cons_slash P
  · rfl

/-- The final segment of a merged path/params rendering. -/
theorem mergeParams_region {P0 prm : List Char} (hne : prm ≠ [])
    (hslash : '/' ∉ prm) :
    afterLastSlash (mergeParams P0 prm) = afterLastSlash P0 ++ ';' :: prm := by
  have hm : mergeParams P0 prm = P0 ++ ';' :: prm := by
    unfold mergeParams
    rw [if_neg (by simpa using hne)]
  rw [hm]
  by_cases hc : '/' ∈ P0
  · obtain ⟨hdec, hpre⟩ := afterLastSlash_decomp P0
    obtain ⟨pre0, hpre0⟩ := hpre (List.elem_iff.mpr hc)
    have hP0 : P0 = pre0 ++ '/' :: afterLastSlash P0 := by
      conv => lhs; rw [hdec]
      rw [hpre0]
      simp
    conv => lhs; rw [hP0]
    rw [show (pre0 ++ '/' :: afterLastSlash P0) ++ ';' :: prm =
      pre0 ++ '/' :: (afterLastSlash P0 ++ ';' :: prm) by simp]
    apply afterLastSlash_append
    intro hx
    rcases List.mem_append.mp hx with h1 | h2
    · exact afterLastSlash_noslash P0 h1
    · rcases List.mem_cons.mp h2 with he | h3
      · cases he
      · exact hslash h3
  · rw [afterLastSlash_of_not_mem hc, afterLastSlash_of_not_mem]
    intro hx
    rcases List.mem_append.mp hx with h1 | h2
    · exact hc h1
    · rcases List.mem_cons.mp h2 with he | h3
      · cases he
      · exact hslash h3

/-- A path survives the params round trip when its final segment either has
no `;` or has material after its first `;`. -/
def GoodPath (X : List Char) : Prop :=
  ';' ∉ afterLastSlash X ∨
    ∃ a b, afterLastSlash X = a ++ ';' :: b ∧ ';' ∉ a ∧ b ≠ []

/-- Re-merging the params split of a good path recovers it. -/
theorem mergeParams_splitParams {X : List Char} (h : GoodPath X) :
    mergeParams (splitParams X).1 (splitParams X).2 = X := by
  rcases h with h | ⟨a, b, hreg, ha, hb⟩
  · rw [splitParams_nosemi h]
    rfl
  · by_cases hc : '/' ∈ X
    · obtain ⟨hdec, hpre⟩ := afterLastSlash_decomp X
      obtain ⟨pre0, hpre0⟩ := hpre (List.elem_iff.mpr hc)
      have hX : X = pre0 ++ '/' :: afterLastSlash X := by
        conv => lhs; rw [hdec]
        rw [hpre0]
        simp
      have hX2 : X = mergeParams (pre0 ++ '/' :: a) b := by
        unfold mergeParams
        rw [if_neg (by simpa using hb)]
        conv => lhs; rw [hX, hreg]
        simp
      have hslB : '/' ∉ b := by
        intro hx
        have hmem : '/' ∈ afterLastSlash X := by
          rw [hreg]
          exact List.mem_append_right _ (List.mem_cons_of_mem _ hx)
        exact afterLastSlash_noslash X hmem
      have hslA : '/' ∉ a := by
        intro hx
        have hmem : '/' ∈ afterLastSlash X := by
          rw [hreg]
          exact List.mem_append_left _ hx
        exact afterLastSlash_noslash X hmem
      have hsm : ';' ∉ afterLastSlash (pre0 ++ '/' :: a) := by
        rw [afterLastSlash_append a hslA]
        exact ha
      rw [hX2, splitParams_merge hb hslB hsm]
    · have hXa : X = mergeParams a b := by
        unfold mergeParams
        rw [if_neg (by simpa using hb)]
        rw [← hreg, afterLastSlash_of_not_mem hc]
      have hslB : '/' ∉ b := by
        intro hx
        apply hc
        rw [← afterLastSlash_of_not_mem hc, hreg]
        exact List.mem_append_right _ (List.mem_cons_of_mem _ hx)
      have hslA : '/' ∉ a := by
        intro hx
        apply hc
        rw [← afterLastSlash_of_not_mem hc, hreg]
        exact List.mem_append_left _ hx
      have hsm : ';' ∉ afterLastSlash a := by
        rw [afterLastSlash_of_not_mem hslA]
        exact ha
      rw [hXa, splitParams_merge hb hslB hsm]

/-- The params split `urlparse` applies on top of a successful `urlsplit`. -/
def paramsOf (sp : SplitC) : ParseC :=
  if uses_params.contains ⟨sp.scheme⟩ && sp.path.contains ';' then
    ⟨sp.scheme, sp.netloc, (splitParams sp.path).1, (splitParams sp.path).2,
      sp.query, sp.fragment⟩
  else ⟨sp.scheme, sp.netloc, sp.path, [], sp.query, sp.fragment⟩

/-- `urlparse` is `urlsplit` followed by the params split. -/
theorem urlparseC_of_split {u d : List Char} {sp : SplitC}
    (h : urlsplitC u d = .ok sp) : urlparseC u d = .ok (paramsOf sp) := by
  have h0 : urlparseC u d =
      (if uses_params.contains ⟨sp.scheme⟩ && sp.path.contains ';' then
        .ok ⟨sp.scheme, sp.netloc, (splitParams sp.path).1, (splitParams sp.path).2,
          sp.query, sp.fragment⟩
      else .ok ⟨sp.scheme, sp.netloc, sp.path, [], sp.query, sp.fragment⟩) := by
    unfold urlparseC
    rw [h]
  rw [h0]
  unfold paramsOf
  by_cases hc : (uses_params.contains ⟨sp.scheme⟩ && sp.path.contains ';') = true
  · rw [if_pos hc, if_pos hc]
  · rw [if_neg hc, if_neg hc]

/-- The after-last-slash region is part of the list. -/
theorem afterLastSlash_subset (p : List Char) : afterLastSlash p ⊆ p := by
  intro c hc
  unfold afterLastSlash at hc
  rw [List.mem_reverse] at hc
  have h2 := List.takeWhile_subset _ hc
  exact List.mem_reverse.mp h2

/-- The params split keeps the final path segment `;`-free and never puts a
slash into the params. -/
theorem splitParams_region_spec (p : List Char) :
    ';' ∉ afterLastSlash (splitParams p).1 ∧ '/' ∉ (splitParams p).2 := by
  unfold splitParams
  by_cases hc : p.contains '/' = true
  · rw [if_pos hc]
    cases h2 : (splitFirst ';' (afterLastSlash p)).2 with
    | some b =>
      obtain ⟨a0, h2d⟩ : ∃ a0, splitFirst ';' (afterLastSlash p) = (a0, some b) :=
        ⟨(splitFirst ';' (afterLastSlash p)).1, by rw [← h2]⟩
      simp only [h2d]
      obtain ⟨hdec, hpre⟩ := afterLastSlash_decomp p
      obtain ⟨pre0, hpre0⟩ := hpre hc
      have hP : p = pre0 ++ '/' :: afterLastSlash p := by
        conv => lhs; rw [hdec]
        rw [hpre0]
        simp
      have hlenP : p.length = pre0.length + 1 + (afterLastSlash p).length := by
        conv => lhs; rw [hP]
        simp only [List.length_append, List.length_cons]
        omega
      have htake : p.take (p.length - (afterLastSlash p).length) = pre0 ++ ['/'] := by
        have he : p.length - (afterLastSlash p).length = (pre0 ++ ['/']).length := by
          simp only [List.length_append, List.length_singleton]
          omega
        rw [he]
        conv => lhs; rw [hP]
        rw [show pre0 ++ '/' :: afterLastSlash p =
          (pre0 ++ ['/']) ++ afterLastSlash p by simp]
        exact take_len_append _ _
      have ha0 : a0 = (splitFirst ';' (afterLastSlash p)).1 := by
        rw [h2d]
      have hsla : '/' ∉ a0 := by
        intro hx
        rw [ha0] at hx
        exact afterLastSlash_noslash p (splitFirst_fst_subset ';' _ hx)
      constructor
      · rw [htake]
        rw [show pre0 ++ ['/'] ++ a0 = pre0 ++ '/' :: a0 by simp]
        rw [afterLastSlash_append a0 hsla]
        rw [ha0]
        exact splitFirst_fst_not_mem ';' _
      · intro hx
        exact afterLastSlash_noslash p (splitFirst_snd_subset h2 hx)
    | none =>
      simp only [splitFirst_snd_none h2]
      constructor
      · intro hx
        exact splitFirst_none_not_mem h2 hx
      · intro hx
        cases hx
  · rw [if_neg hc]
    have hnos : '/' ∉ p := fun hx => hc (List.elem_iff.mpr hx)
    cases h2 : (splitFirst ';' p).2 with
    | some b =>
      obtain ⟨a0, h2d⟩ : ∃ a0, splitFirst ';' p = (a0, some b) :=
        ⟨(splitFirst ';' p).1, by rw [← h2]⟩
      simp only [h2d]
      have ha0 : a0 = (splitFirst ';' p).1 := by
        rw [h2d]
      constructor
      · rw [afterLastSlash_of_not_mem (fun hx => hnos
          (by rw [ha0] at hx; exact splitFirst_fst_subset ';' p hx))]
        rw [ha0]
        exact splitFirst_fst_not_mem ';' p
      · intro hx
        exact hnos (splitFirst_snd_subset h2 hx)
    | none =>
      simp only [splitFirst_snd_none h2]
      constructor
      · intro hx
        exact splitFirst_none_not_mem h2 (afterLastSlash_subset p hx)
      · intro hx
        cases hx

/-- What `urlparse` guarantees about its params and final path segment. -/
theorem paramsOf_region_spec (sp : SplitC) :
    ((paramsOf sp).params ≠ [] →
      '/' ∉ (paramsOf sp).params ∧ ';' ∉ afterLastSlash ((paramsOf sp).path) ∧
        uses_params.contains ⟨sp.scheme⟩ = true) ∧
    (uses_params.contains ⟨sp.scheme⟩ = true →
      ';' ∉ afterLastSlash ((paramsOf sp).path)) := by
  unfold paramsOf
  by_cases hc : (uses_params.contains ⟨sp.scheme⟩ && sp.path.contains ';') = true
  · rw [if_pos hc]
    refine ⟨fun hne => ⟨?_, ?_, ?_⟩, fun hu => ?_⟩
    · exact (splitParams_region_spec sp.path).2
    · exact (splitParams_region_spec sp.path).1
    · exact ((Bool.and_eq_true _ _).mp hc).1
    · exact (splitParams_region_spec sp.path).1
  · rw [if_neg hc]
    refine ⟨fun hne => absurd rfl hne, fun hu => ?_⟩
    have hns : sp.path.contains ';' = false := by
      cases hcc : sp.path.contains ';' with
      | false => rfl
      | true => exact absurd (by rw [hu, hcc]; rfl) hc
    intro hx
    have hmem : ';' ∈ sp.path := afterLastSlash_subset sp.path hx
    have hco : sp.path.contains ';' = true := List.elem_iff.mpr hmem
    rw [hco] at hns
    cases hns

/-- Splitting never yields an empty piece list. -/
theorem splitCharsOn_ne_nil (sep : Char) (l : List Char) :
    splitCharsOn sep l ≠ [] := by
  induction l with
  | nil => exact fun h => List.noConfusion h
  | cons c cs ih =>
    unfold splitCharsOn
    by_cases hc : c = sep
    · rw [if_pos hc]
      exact fun h => List.noConfusion h
    · rw [if_neg hc]
      cases hsp : splitCharsOn sep cs with
      | nil => exact fun h => List.noConfusion h
      | cons p more => exact fun h => List.noConfusion h

/-- Splitting a separator-free list is trivial. -/
theorem splitCharsOn_of_not_mem {sep : Char} {l : List Char} (h : sep ∉ l) :
    splitCharsOn sep l = [l] := by
  induction l with
  | nil => rfl
  | cons c cs ih =>
    have hc : ¬(c = sep) := fun he => h (he ▸ List.mem_cons_self _ _)
    unfold splitCharsOn
    rw [if_neg hc, ih (fun hm => h (List.mem_cons_of_mem _ hm))]

/-- Splitting at the final separator occurrence appends the last piece. -/
theorem splitCharsOn_append_last {sep : Char} (a : List Char) {b : List Char}
    (h : sep ∉ b) :
    splitCharsOn sep (a ++ sep :: b) = splitCharsOn sep a ++ [b] := by
  induction a with
  | nil =>
    simp only [List.nil_append]
    unfold splitCharsOn
    rw [if_pos rfl, splitCharsOn_of_not_mem h]
    rfl
  | cons c a2 ih =>
    by_cases hc : c = sep
    · subst hc
      show splitCharsOn c (c :: (a2 ++ c :: b)) = splitCharsOn c (c :: a2) ++ [b]
      unfold splitCharsOn
      rw [if_pos rfl, if_pos rfl, ih]
      rfl
    · show splitCharsOn sep (c :: (a2 ++ sep :: b)) = splitCharsOn sep (c :: a2) ++ [b]
      unfold splitCharsOn
      rw [if_neg hc, if_neg hc, ih]
      cases hsp : splitCharsOn sep a2 with
      | nil => exact absurd hsp (splitCharsOn_ne_nil sep a2)
      | cons p more => rfl

/-- The default is irrelevant for the last element of a nonempty right part. -/
theorem getLastD_irrel {α : Type} {b : List α} (h : b ≠ []) (d d2 : α) :
    b.getLastD d = b.getLastD d2 := by
  cases b with
  | nil => exact absurd rfl h
  | cons y b2 => rw [List.getLastD_cons, List.getLastD_cons]

/-- The default is irrelevant for the last element of a nonempty right part. -/
theorem getLastD_append_right {α : Type} {b : List α} (a : List α) (d : α)
    (h : b ≠ []) : (a ++ b).getLastD d = b.getLastD d := by
  induction a generalizing d with
  | nil => rfl
  | cons x a2 ih =>
    rw [List.cons_append, List.getLastD_cons, ih x]
    exact getLastD_irrel h x d

/-- The last split piece is the after-last-separator region. -/
theorem splitCharsOn_getLast (l : List Char) :
    (splitCharsOn '/' l).getLastD [] = afterLastSlash l := by
  by_cases hc : '/' ∈ l
  · obtain ⟨hdec, hpre⟩ := afterLastSlash_decomp l
    obtain ⟨pre0, hpre0⟩ := hpre (List.elem_iff.mpr hc)
    have hP : l = pre0 ++ '/' :: afterLastSlash l := by
      conv => lhs; rw [hdec]
      rw [hpre0]
      simp
    conv => lhs; rw [hP]
    rw [splitCharsOn_append_last pre0 (afterLastSlash_noslash l)]
    rw [getLastD_append_right _ _ (by exact fun h => List.noConfusion h)]
    rfl
  · rw [splitCharsOn_of_not_mem hc, afterLastSlash_of_not_mem hc]
    rfl

/-- Split pieces are made of input characters. -/
theorem splitCharsOn_subset {sep : Char} {l : List Char} {p : List Char}
    (hp : p ∈ splitCharsOn sep l) : p ⊆ l := by
  induction l generalizing p with
  | nil =>
    rcases List.mem_singleton.mp hp with rfl
    exact fun x hx => absurd hx (List.not_mem_nil x)
  | cons c cs ih =>
    unfold splitCharsOn at hp
    by_cases hc : c = sep
    · rw [if_pos hc] at hp
      rcases List.mem_cons.mp hp with rfl | hp2
      · exact fun x hx => absurd hx (List.not_mem_nil x)
      · exact fun x hx => List.mem_cons_of_mem _ (ih hp2 hx)
    · rw [if_neg hc] at hp
      cases hsp : splitCharsOn sep cs with
      | nil => exact absurd hsp (splitCharsOn_ne_nil sep cs)
      | cons p0 more =>
        rw [hsp] at hp
        rcases List.mem_cons.mp hp with rfl | hp2
        · intro x hx
          rcases List.mem_cons.mp hx with rfl | hx2
          · exact List.mem_cons_self _ _
          · exact List.mem_cons_of_mem _ (ih (hsp ▸ List.mem_cons_self _ _) hx2)
        · exact fun x hx =>
            List.mem_cons_of_mem _ (ih (hsp ▸ List.mem_cons_of_mem _ hp2) hx)

/-- Truncation that stops inside the left part ignores the right part. -/
theorem takeWhile_append_of_stop {p : Char → Bool} {a : List Char} (b : List Char)
    (h : a.takeWhile p ≠ a) : (a ++ b).takeWhile p = a.takeWhile p := by
  induction a with
  | nil => exact absurd rfl h
  | cons c cs ih =>
    by_cases hc : p c
    · simp only [List.cons_append, List.takeWhile_cons, hc, if_true] at h ⊢
      rw [ih (fun he => h (by rw [he]))]
    · simp [List.takeWhile_cons, hc]

/-- With a slash in the right part, the region comes from the right part. -/
theorem afterLastSlash_append_right {b : List Char} (a : List Char)
    (h : '/' ∈ b) : afterLastSlash (a ++ b) = afterLastSlash b := by
  unfold afterLastSlash
  rw [List.reverse_append]
  rw [takeWhile_append_of_stop a.reverse]
  intro he
  have h2 : '/' ∈ b.reverse.takeWhile (fun c => c ≠ '/') := by
    rw [he]
    exact List.mem_reverse.mpr h
  have h3 := List.mem_takeWhile_imp h2
  simp at h3

/-- `midKeepLast` keeps the final element of a nonempty list and its
members come from the input. -/
theorem midKeepLast_spec : ∀ (l : List (List Char)), (l ≠ [] →
    midKeepLast l ≠ [] ∧ ∀ d, (midKeepLast l).getLastD d = l.getLastD d) ∧
    ∀ x ∈ midKeepLast l, x ∈ l := by
  intro l
  induction l with
  | nil =>
    exact ⟨fun h => absurd rfl h, fun x hx => absurd hx (List.not_mem_nil x)⟩
  | cons y rest ih =>
    cases rest with
    | nil =>
      refine ⟨fun h => ⟨fun he => List.noConfusion he, fun d => rfl⟩, ?_⟩
      intro x hx
      exact hx
    | cons z rest2 =>
      have hrne : z :: rest2 ≠ [] := fun he => List.noConfusion he
      obtain ⟨hmain, hmem⟩ := ih
      obtain ⟨hne2, hlast⟩ := hmain hrne
      by_cases hy : y.isEmpty = true
      · have hstep : midKeepLast (y :: z :: rest2) = midKeepLast (z :: rest2) := by
          show (if y.isEmpty then midKeepLast (z :: rest2)
            else y :: midKeepLast (z :: rest2)) = _
          rw [if_pos hy]
        refine ⟨fun h => ⟨hstep ▸ hne2, fun d => ?_⟩, ?_⟩
        · rw [hstep, hlast d]
          simp only [List.getLastD_cons]
        · intro x hx
          rw [hstep] at hx
          exact List.mem_cons_of_mem _ (hmem x hx)
      · have hstep : midKeepLast (y :: z :: rest2) = y :: midKeepLast (z :: rest2) := by
          show (if y.isEmpty then midKeepLast (z :: rest2)
            else y :: midKeepLast (z :: rest2)) = _
          rw [if_neg hy]
        refine ⟨fun h => ⟨hstep ▸ fun he => List.noConfusion he, fun d => ?_⟩, ?_⟩
        · rw [hstep, List.getLastD_cons, hlast y]
          simp only [List.getLastD_cons]
        · intro x hx
          rw [hstep] at hx
          rcases List.mem_cons.mp hx with rfl | hx2
          · exact List.mem_cons_self _ _
          · exact List.mem_cons_of_mem _ (hmem x hx2)

/-- Members of the fold accumulator of `resolveSegs`. -/
theorem resolveAcc_mem {q : List Char} :
    ∀ (segs : List (List Char)) (acc0 : List (List Char)),
    q ∈ List.foldl
      (fun acc seg =>
        if seg = ['.', '.'] then acc.tail
        else if seg = ['.'] then acc
        else seg :: acc) acc0 segs → q ∈ acc0 ∨ q ∈ segs := by
  intro segs
  induction segs with
  | nil => exact fun acc0 h => Or.inl h
  | cons s rest ih =>
    intro acc0 h
    rcases ih _ h with h2 | h2
    · change q ∈ (if s = ['.', '.'] then acc0.tail
        else if s = ['.'] then acc0 else s :: acc0) at h2
      by_cases h1 : s = ['.', '.']
      · rw [if_pos h1] at h2
        exact Or.inl (List.mem_of_mem_tail h2)
      · rw [if_neg h1] at h2
        by_cases h3 : s = ['.']
        · rw [if_pos h3] at h2
          exact Or.inl h2
        · rw [if_neg h3] at h2
          rcases List.mem_cons.mp h2 with rfl | h4
          · exact Or.inr (List.mem_cons_self _ _)
          · exact Or.inl h4
    · exact Or.inr (List.mem_cons_of_mem _ h2)

/-- Members of the resolved segment list come from the input or are empty. -/
theorem resolveSegs_mem {q : List Char} {segs : List (List Char)}
    (h : q ∈ resolveSegs segs) : q ∈ segs ∨ q = [] := by
  unfold resolveSegs at h
  rw [List.mem_reverse] at h
  by_cases hdot : (segs.getLastD [] = ['.'] || segs.getLastD [] = ['.', '.']) = true
  · rw [if_pos hdot] at h
    rcases List.mem_cons.mp h with rfl | h2
    · exact Or.inr rfl
    · rcases resolveAcc_mem segs [] h2 with h3 | h3
      · exact absurd h3 (List.not_mem_nil q)
      · exact Or.inl h3
  · rw [if_neg hdot] at h
    rcases resolveAcc_mem segs [] h with h3 | h3
    · exact absurd h3 (List.not_mem_nil q)
    · exact Or.inl h3

/-- The last element of a reversed list is its head. -/
theorem getLastD_reverse {α : Type} (l : List α) (d : α) :
    l.reverse.getLastD d = l.headD d := by
  cases l with
  | nil => rfl
  | cons x xs =>
    rw [show (x :: xs).reverse = xs.reverse ++ [x] by simp]
    rw [List.getLastD_concat]
    rfl

/-- The resolved segment list ends in the input's last segment or an empty
segment. -/
theorem resolveSegs_last {segs : List (List Char)} (hne : segs ≠ []) :
    (resolveSegs segs).getLastD [] = [] ∨
      (resolveSegs segs).getLastD [] = segs.getLastD [] := by
  unfold resolveSegs
  rw [getLastD_reverse]
  by_cases hdot : (segs.getLastD [] = ['.'] || segs.getLastD [] = ['.', '.']) = true
  · rw [if_pos hdot]
    exact Or.inl rfl
  · rw [if_neg hdot]
    cases hrev : segs.reverse with
    | nil =>
      exfalso
      apply hne
      rw [← List.reverse_reverse segs, hrev]
      rfl
    | cons L Arev =>
      have hsegs : segs = Arev.reverse ++ [L] := by
        rw [← List.reverse_reverse segs, hrev]
        simp
      have hlastL : segs.getLastD [] = L := by
        rw [hsegs]
        exact List.getLastD_concat _ _ _
      simp only [Bool.or_eq_true, decide_eq_true_eq, not_or] at hdot
      rw [hlastL] at hdot
      obtain ⟨hd1, hd2⟩ := hdot
      refine Or.inr ?_
      conv => lhs; rw [hsegs]
      rw [List.foldl_append]
      simp only [List.foldl_cons, List.foldl_nil]
      rw [if_neg hd2, if_neg hd1, hlastL]
      rfl

/-- The region of a slash-joined list is its final piece. -/
theorem joinSlash_region {ps : List (List Char)} (hne : ps ≠ [])
    (hlast : '/' ∉ ps.getLastD []) :
    afterLastSlash (joinSlash ps) = ps.getLastD [] := by
  induction ps with
  | nil => exact absurd rfl hne
  | cons x rest ih =>
    cases rest with
    | nil =>
      show afterLastSlash x = (x :: ([] : List (List Char))).getLastD []
      rw [List.getLastD_cons] at hlast ⊢
      exact afterLastSlash_of_not_mem hlast
    | cons y rest2 =>
      have hrne : y :: rest2 ≠ [] := fun he => List.noConfusion he
      have hlast2 : '/' ∉ (y :: rest2).getLastD [] := by
        intro hx
        apply hlast
        rw [List.getLastD_cons]
        rw [getLastD_irrel hrne x []]
        exact hx
      show afterLastSlash (x ++ '/' :: joinSlash (y :: rest2)) = _
      rw [afterLastSlash_append_right x (List.mem_cons_self '/' _)]
      rw [afterLastSlash_cons_slash]
      rw [ih hrne hlast2]
      exact getLastD_irrel hrne [] x

/-- Characters of a slash-joined list are separators or piece characters. -/
theorem joinSlash_chars {c : Char} {ps : List (List Char)}
    (h : c ∈ joinSlash ps) : c = '/' ∨ ∃ p ∈ ps, c ∈ p := by
  induction ps with
  | nil => cases h
  | cons x rest ih =>
    cases rest with
    | nil => exact Or.inr ⟨x, List.mem_cons_self _ _, h⟩
    | cons y rest2 =>
      have h0 : c ∈ x ++ '/' :: joinSlash (y :: rest2) := h
      rcases List.mem_append.mp h0 with h1 | h2
      · exact Or.inr ⟨x, List.mem_cons_self _ _, h1⟩
      · rcases List.mem_cons.mp h2 with rfl | h3
        · exact Or.inl rfl
        · rcases ih h3 with h4 | ⟨p, hp, hcp⟩
          · exact Or.inl h4
          · exact Or.inr ⟨p, List.mem_cons_of_mem _ hp, hcp⟩

/-- An empty join comes from an empty piece list. -/
theorem joinSlash_eq_nil {ps : List (List Char)} (h : ps = []) :
    joinSlash ps = [] := by
  rw [h]
  rfl

/-- The merged segment list is nonempty and ends in the reference path's
final segment. -/
theorem mergedSegs_last (b r : ParseC) :
    mergedSegs b r ≠ [] ∧
      (mergedSegs b r).getLastD [] = afterLastSlash r.path := by
  unfold mergedSegs
  by_cases habs : r.path.take 1 = ['/']
  · rw [if_pos habs]
    exact ⟨splitCharsOn_ne_nil '/' r.path, splitCharsOn_getLast r.path⟩
  · rw [if_neg habs]
    have hSPne : splitCharsOn '/' r.path ≠ [] := splitCharsOn_ne_nil '/' r.path
    cases hm : (if (splitCharsOn '/' b.path).getLastD [] ≠ [] then
        (splitCharsOn '/' b.path).dropLast else splitCharsOn '/' b.path) ++
        splitCharsOn '/' r.path with
    | nil =>
      exfalso
      exact hSPne (List.append_eq_nil.mp hm).2
    | cons x rest =>
      constructor
      · exact fun he => List.noConfusion he
      · cases hrest : rest with
        | nil =>
          have hx : splitCharsOn '/' r.path = [x] := by
            rw [hrest] at hm
            rcases List.append_eq_cons_iff.mp hm with ⟨hb0, hsp⟩ | ⟨a2, hb0, hsp⟩
            · exact hsp
            · exact absurd (List.append_eq_nil.mp hsp.symm).2 hSPne
          show (x :: midKeepLast []).getLastD [] = afterLastSlash r.path
          rw [← splitCharsOn_getLast r.path, hx]
          rfl
        | cons z rest2 =>
          rw [hrest] at hm
          show (x :: midKeepLast (z :: rest2)).getLastD [] = afterLastSlash r.path
          have hrne : z :: rest2 ≠ [] := fun he => List.noConfusion he
          obtain ⟨hmain, -⟩ := midKeepLast_spec (z :: rest2)
          obtain ⟨hne2, hlast⟩ := hmain hrne
          rw [List.getLastD_cons, getLastD_irrel hne2 x [], hlast [],
            ← splitCharsOn_getLast r.path]
          have h9 : (x :: z :: rest2).getLastD [] =
              (splitCharsOn '/' r.path).getLastD [] := by
            rw [← hm]
            exact getLastD_append_right _ _ hSPne
          rw [← h9]
          simp only [List.getLastD_cons]

/-- Characters of the merged segments come from the two paths. -/
theorem mergedSegs_chars {b r : ParseC} {p : List Char}
    (hp : p ∈ mergedSegs b r) : ∀ c ∈ p, c ∈ b.path ∨ c ∈ r.path := by
  unfold mergedSegs at hp
  by_cases habs : r.path.take 1 = ['/']
  · rw [if_pos habs] at hp
    exact fun c hc => Or.inr (splitCharsOn_subset hp hc)
  · rw [if_neg habs] at hp
    have hbase : ∀ q ∈ (if (splitCharsOn '/' b.path).getLastD [] ≠ [] then
        (splitCharsOn '/' b.path).dropLast else splitCharsOn '/' b.path),
        ∀ c ∈ q, c ∈ b.path := by
      intro q hq c hc
      have hq2 : q ∈ splitCharsOn '/' b.path := by
        revert hq
        split
        · intro hq
          exact (List.dropLast_prefix _).subset hq
        · intro hq
          exact hq
      exact splitCharsOn_subset hq2 hc
    cases hm : (if (splitCharsOn '/' b.path).getLastD [] ≠ [] then
        (splitCharsOn '/' b.path).dropLast else splitCharsOn '/' b.path) ++
        splitCharsOn '/' r.path with
    | nil =>
      rw [hm] at hp
      cases hp
    | cons x rest =>
      rw [hm] at hp
      have hp2 : p ∈ x :: rest := by
        rcases List.mem_cons.mp hp with rfl | hp3
        · exact List.mem_cons_self _ _
        · exact List.mem_cons_of_mem _ ((midKeepLast_spec rest).2 p hp3)
      rw [← hm] at hp2
      rcases List.mem_append.mp hp2 with h1 | h2
      · exact fun c hc => Or.inl (hbase p h1 c hc)
      · exact fun c hc => Or.inr (splitCharsOn_subset h2 hc)

/-- The final segment of the joined path is empty or the reference path's
final segment. -/
theorem joinedPathC_region (b r : ParseC) :
    afterLastSlash (joinedPathC b r) = [] ∨
      afterLastSlash (joinedPathC b r) = afterLastSlash r.path := by
  unfold joinedPathC
  by_cases hje : (joinSlash (resolveSegs (mergedSegs b r))).isEmpty = true
  · rw [if_pos hje]
    exact Or.inl rfl
  · rw [if_neg hje]
    have hpsne : resolveSegs (mergedSegs b r) ≠ [] := by
      intro hps
      rw [joinSlash_eq_nil hps] at hje
      exact hje rfl
    obtain ⟨hsegne, hseglast⟩ := mergedSegs_last b r
    rcases resolveSegs_last hsegne with hrl | hrl
    · have hnos : '/' ∉ (resolveSegs (mergedSegs b r)).getLastD [] := by
        rw [hrl]
        exact List.not_mem_nil '/'
      rw [joinSlash_region hpsne hnos, hrl]
      exact Or.inl rfl
    · have hnos : '/' ∉ (resolveSegs (mergedSegs b r)).getLastD [] := by
        rw [hrl, hseglast]
        exact afterLastSlash_noslash r.path
      rw [joinSlash_region hpsne hnos, hrl, hseglast]
      exact Or.inr rfl

/-- Characters of the joined path are separators or path characters. -/
theorem joinedPathC_chars {b r : ParseC} {c : Char}
    (hc : c ∈ joinedPathC b r) : c = '/' ∨ c ∈ b.path ∨ c ∈ r.path := by
  unfold joinedPathC at hc
  by_cases hje : (joinSlash (resolveSegs (mergedSegs b r))).isEmpty = true
  · rw [if_pos hje] at hc
    rcases List.mem_singleton.mp hc with rfl
    exact Or.inl rfl
  · rw [if_neg hje] at hc
    rcases joinSlash_chars hc with h1 | ⟨p, hp, hcp⟩
    · exact Or.inl h1
    · rcases resolveSegs_mem hp with h2 | rfl
      · exact Or.inr (mergedSegs_chars h2 c hcp)
      · exact absurd hcp (List.not_mem_nil c)

/-- ASCII letters are above the control/space range. -/
theorem isAsciiAlpha_big {c : Char} (h : isAsciiAlpha c = true) : 0x20 < c.toNat := by
  unfold isAsciiAlpha at h
  simp only [Bool.or_eq_true, Bool.and_eq_true, decide_eq_true_eq] at h
  rcases h with hab | hab
  · have h1 := @charLe_toNat 'a' c hab.1
    have h2 : Char.toNat 'a' = 97 := rfl
    omega
  · have h1 := @charLe_toNat 'A' c hab.1
    have h2 : Char.toNat 'A' = 65 := rfl
    omega

/-- Every scheme of `uses_relative` is in `uses_netloc`. -/
theorem uses_rel_sub_netloc :
    ∀ s ∈ uses_relative, s ∈ uses_netloc := by decide

/-- Membership in the canonical host list, concretely. -/
theorem hosts_mem_iff {l : List Char} :
    lidovkyHosts.contains ⟨l⟩ = true ↔
      l = "www.lidovky.cz".data ∨ l = "lidovky.cz".data := by
  constructor
  · intro h
    have h2 : (⟨l⟩ : String) ∈ lidovkyHosts := List.elem_iff.mp h
    rcases List.mem_cons.mp h2 with he | h3
    · exact Or.inl (congrArg String.data he)
    · rcases List.mem_cons.mp h3 with he | h4
      · exact Or.inr (congrArg String.data he)
      · exact absurd h4 (List.not_mem_nil _)
  · intro h
    apply List.elem_iff.mpr
    rcases h with rfl | rfl
    · exact List.mem_cons_self _ _
    · exact List.mem_cons_of_mem _ (List.mem_cons_self _ _)

/-- Canonical hosts are nonempty strings. -/
theorem hosts_ne_nil {l : List Char} (h : lidovkyHosts.contains ⟨l⟩ = true) :
    l ≠ [] := by
  rcases hosts_mem_iff.mp h with rfl | rfl <;> decide

/-- A path already starting with `//` is untouched by the root-slash fix. -/
theorem insSlash_of_take2 {P : List Char} (h : P.take 2 = ['/', '/']) :
    insSlash P = P := by
  unfold insSlash
  rw [if_neg]
  intro hcond
  simp only [Bool.and_eq_true, decide_eq_true_eq] at hcond
  apply hcond.2
  cases P with
  | nil => cases h
  | cons c t =>
    simp only [List.take, List.cons.injEq] at h
    rw [h.1]
    rfl

/-- Merging empty params is the identity. -/
theorem mergeParams_nil (p : List Char) : mergeParams p [] = p := rfl

/-- The good-path property only concerns the final segment. -/
theorem goodPath_insSlash {P : List Char} (h : GoodPath P) :
    GoodPath (insSlash P) := by
  unfold GoodPath at h ⊢
  rw [afterLastSlash_insSlash]
  exact h

/-- The rendered tail after a `//`-free path cannot begin with `//`. -/
theorem take2_tail {PM Q f : List Char} (h : PM.take 2 ≠ ['/', '/']) :
    (PM ++ (if Q.isEmpty then [] else '?' :: Q) ++
      (if f.isEmpty then [] else '#' :: f)).take 2 ≠ ['/', '/'] := by
  match PM, h with
  | [], h =>
    simp only [List.nil_append]
    by_cases hQe : Q.isEmpty = true
    · rw [if_pos hQe]
      simp only [List.nil_append]
      by_cases hfe : f.isEmpty = true
      · rw [if_pos hfe]
        decide
      · rw [if_neg hfe]
        intro hc
        simp only [List.take, List.cons.injEq] at hc
        cases hc.1
    · rw [if_neg hQe]
      intro hc
      simp only [List.cons_append, List.take, List.cons.injEq] at hc
      cases hc.1
  | [c], h =>
    by_cases hcs : c = '/'
    · subst hcs
      show (('/' : Char) :: ((if Q.isEmpty then [] else '?' :: Q) ++
        (if f.isEmpty then [] else '#' :: f))).take 2 ≠ ['/', '/']
      by_cases hQe : Q.isEmpty = true
      · rw [if_pos hQe]
        simp only [List.nil_append]
        by_cases hfe : f.isEmpty = true
        · rw [if_pos hfe]
          decide
        · rw [if_neg hfe]
          intro hc
          simp only [List.take, List.cons.injEq] at hc
          cases hc.2.1
      · rw [if_neg hQe]
        intro hc
        simp only [List.cons_append, List.take, List.cons.injEq] at hc
        cases hc.2.1
    · intro hc
      have : c = '/' := by
        have h2 : (c :: ((if Q.isEmpty then [] else '?' :: Q) ++
          (if f.isEmpty then [] else '#' :: f))).take 2 = ['/', '/'] := hc
        cases hsplit : (if Q.isEmpty then [] else '?' :: Q) ++
            (if f.isEmpty then [] else '#' :: f) with
        | nil =>
          rw [hsplit] at h2
          simp only [List.take, List.cons.injEq] at h2
          exact h2.1
        | cons y t =>
          rw [hsplit] at h2
          simp only [List.take, List.cons.injEq] at h2
          exact h2.1
      exact hcs this
  | c1 :: c2 :: t, h =>
    intro hc
    apply h
    simp only [List.cons_append, List.take, List.cons.injEq] at hc ⊢
    exact ⟨hc.1, hc.2.1, trivial⟩

/-- Sanitized URLs are clean. -/
theorem sanitizeUrl_clean (l : List Char) : Clean (sanitizeUrl l) := by
  intro c hc
  unfold sanitizeUrl at hc
  have h2 := List.of_mem_filter hc
  simp only [Bool.not_eq_true'] at h2
  exact h2

/-- A clean list stays clean under `insSlash`. -/
theorem clean_insSlash {P : List Char} (h : Clean P) : Clean (insSlash P) := by
  unfold insSlash
  split
  · intro c hc
    rcases List.mem_cons.mp hc with rfl | hc2
    · rfl
    · exact h c hc2
  · exact h

/-- Membership in the slash-fixed path. -/
theorem mem_insSlash {c : Char} {P : List Char} (h : c ∈ insSlash P) :
    c = '/' ∨ c ∈ P := by
  revert h
  unfold insSlash
  split
  · intro h
    rcases List.mem_cons.mp h with rfl | h2
    · exact Or.inl rfl
    · exact Or.inr h2
  · exact Or.inr

set_option maxHeartbeats 2000000 in
/-- Characters of a rendering come from the components or are separators. -/
theorem mem_unsplit {c : Char} {S N P Q f : List Char}
    (hc : c ∈ urlunsplitC S N P Q f) :
    c ∈ S ∨ c ∈ N ∨ c ∈ P ∨ c ∈ Q ∨ c ∈ f ∨
      c = ':' ∨ c = '/' ∨ c = '?' ∨ c = '#' := by
  have hins : c ∈ insSlash P → c = '/' ∨ c ∈ P := fun hx => mem_insSlash hx
  unfold urlunsplitC at hc
  split_ifs at hc <;>
    simp only [List.mem_append, List.mem_cons, List.not_mem_nil, or_false] at hc <;>
    tauto

/-- A rendering of clean components is clean. -/
theorem clean_unsplit {S N P Q f : List Char} (hS : Clean S) (hN : Clean N)
    (hP : Clean P) (hQ : Clean Q) (hf : Clean f) :
    Clean (urlunsplitC S N P Q f) := by
  intro c hc
  rcases mem_unsplit hc with h | h | h | h | h | rfl | rfl | rfl | rfl
  · exact hS c h
  · exact hN c h
  · exact hP c h
  · exact hQ c h
  · exact hf c h
  · decide
  · decide
  · decide
  · decide

/-- Sanitization is the identity on a rendering with authority whose clean
components give it a scheme-letter or slash head. -/
theorem sanitizeUrl_noop_unsplit {S N P Q f : List Char} (hN : N ≠ [])
    (hclean : Clean (urlunsplitC S N P Q f))
    (hS : S = [] ∨ headAlpha S = true) :
    sanitizeUrl (urlunsplitC S N P Q f) = urlunsplitC S N P Q f := by
  apply sanitizeUrl_noop hclean
  right
  rw [unsplit_shape hN]
  rcases hS with rfl | hS2
  · rw [show (if ([] : List Char).isEmpty = true then ([] : List Char)
      else [] ++ [':']) = [] from rfl]
    rw [List.nil_append]
    exact ⟨'/', _, rfl, by decide⟩
  · cases hSE : S with
    | nil =>
      rw [hSE] at hS2
      cases hS2
    | cons c t =>
      rw [show (if (c :: t).isEmpty = true then ([] : List Char)
        else (c :: t) ++ [':']) = (c :: t) ++ [':'] from rfl]
      refine ⟨c, _, rfl, ?_⟩
      rw [hSE] at hS2
      have hbig := isAsciiAlpha_big (show isAsciiAlpha c = true from hS2)
      unfold isC0OrSpace
      exact decide_eq_false (by omega)

/-- The params split leaves scheme, netloc, query and fragment unchanged. -/
theorem paramsOf_proj (sp : SplitC) :
    (paramsOf sp).scheme = sp.scheme ∧ (paramsOf sp).netloc = sp.netloc ∧
    (paramsOf sp).query = sp.query ∧ (paramsOf sp).fragment = sp.fragment := by
  unfold paramsOf
  split
  · exact ⟨rfl, rfl, rfl, rfl⟩
  · exact ⟨rfl, rfl, rfl, rfl⟩

/-- Re-merging the params split recovers a good path. -/
theorem paramsOf_merge_back {sp : SplitC}
    (hG : uses_params.contains ⟨sp.scheme⟩ = true → sp.path.contains ';' = true →
      GoodPath sp.path) :
    mergeParams (paramsOf sp).path (paramsOf sp).params = sp.path := by
  unfold paramsOf
  by_cases hc : (uses_params.contains ⟨sp.scheme⟩ && sp.path.contains ';') = true
  · rw [if_pos hc]
    obtain ⟨h1, h2⟩ := (Bool.and_eq_true _ _).mp hc
    exact mergeParams_splitParams (hG h1 h2)
  · rw [if_neg hc]
    exact mergeParams_nil _

/-- `urlsplit` is sanitization followed by the core split. -/
theorem urlsplitC_core (u d : List Char) :
    urlsplitC u d = urlsplitCore (sanitizeUrl u) (sanitizeDflt d) := rfl

/-- Fragment truncation at the `urlsplit` level. -/
theorem urlsplitC_tU {u d : List Char} {sp : SplitC}
    (h : urlsplitC u d = .ok sp) (hn : sp.netloc ≠ []) :
    urlsplitC (tU u) d = .ok ⟨sp.scheme, sp.netloc, sp.path, sp.query, []⟩ := by
  rw [urlsplitC_core] at h ⊢
  rw [sanitizeUrl_tU]
  exact urlsplitCore_tU h hn

/-- The params split commutes with dropping the fragment. -/
theorem paramsOf_dropFrag (sp : SplitC) :
    paramsOf ⟨sp.scheme, sp.netloc, sp.path, sp.query, []⟩ =
      ⟨(paramsOf sp).scheme, (paramsOf sp).netloc, (paramsOf sp).path,
        (paramsOf sp).params, (paramsOf sp).query, []⟩ := by
  unfold paramsOf
  by_cases hc : (uses_params.contains ⟨sp.scheme⟩ && sp.path.contains ';') = true
  · rw [if_pos hc, if_pos hc]
  · rw [if_neg hc, if_neg hc]

/-- The default scheme only lands in the scheme field (`urlsplit` level). -/
theorem urlsplitC_dflt {u d d2 : List Char} {sp : SplitC}
    (h : urlsplitC u d = .ok sp) :
    sp.scheme = (extractScheme (sanitizeUrl u)).1.getD (sanitizeDflt d) ∧
    urlsplitC u d2 =
      .ok ⟨(extractScheme (sanitizeUrl u)).1.getD (sanitizeDflt d2),
        sp.netloc, sp.path, sp.query, sp.fragment⟩ := by
  rw [urlsplitC_core] at h
  rw [urlsplitC_core]
  exact urlsplitCore_dflt h

/-- Case analysis of a successful `urljoin` with nonempty base and url. -/
theorem urljoinC_ok_cases {base href absu : List Char} (hb : base ≠ [])
    (hh : href ≠ []) (hjoin : urljoinC base href = .ok absu) :
    ∃ b rh, urlparseC base [] = .ok b ∧ urlparseC href b.scheme = .ok rh ∧
      ((decide (rh.scheme ≠ b.scheme) || !uses_relative.contains ⟨rh.scheme⟩) = true ∧
        absu = href ∨
       (decide (rh.scheme ≠ b.scheme) || !uses_relative.contains ⟨rh.scheme⟩) = false ∧
        ((uses_netloc.contains ⟨rh.scheme⟩ && !rh.netloc.isEmpty) = true ∧
          absu = urlunparseC rh.scheme rh.netloc rh.path rh.params rh.query
            rh.fragment ∨
         (uses_netloc.contains ⟨rh.scheme⟩ && !rh.netloc.isEmpty) = false ∧
          ((rh.path.isEmpty && rh.params.isEmpty) = true ∧
            absu = urlunparseC rh.scheme
              (if uses_netloc.contains ⟨rh.scheme⟩ then b.netloc else rh.netloc)
              b.path b.params
              (if rh.query.isEmpty then b.query else rh.query) rh.fragment ∨
           (rh.path.isEmpty && rh.params.isEmpty) = false ∧
            absu = joinPathsC b rh
              (if uses_netloc.contains ⟨rh.scheme⟩ then b.netloc
               else rh.netloc)))) := by
  unfold urljoinC at hjoin
  rw [if_neg (by simpa using hb), if_neg (by simpa using hh)] at hjoin
  cases hpb : urlparseC base [] with
  | error e =>
    rw [hpb] at hjoin
    have hjoin2 : (Except.error e : Except String (List Char)) = .ok absu := hjoin
    cases hjoin2
  | ok b =>
    rw [hpb] at hjoin
    have hjoin1 : (match urlparseC href b.scheme with
        | .error e => (.error e : Except String (List Char))
        | .ok r =>
          if decide (r.scheme ≠ b.scheme) || !uses_relative.contains ⟨r.scheme⟩ then
            .ok href
          else if uses_netloc.contains ⟨r.scheme⟩ && !r.netloc.isEmpty then
            .ok (urlunparseC r.scheme r.netloc r.path r.params r.query r.fragment)
          else
            if r.path.isEmpty && r.params.isEmpty then
              .ok (urlunparseC r.scheme
                (if uses_netloc.contains ⟨r.scheme⟩ then b.netloc else r.netloc)
                b.path b.params
                (if r.query.isEmpty then b.query else r.query) r.fragment)
            else .ok (joinPathsC b r
              (if uses_netloc.contains ⟨r.scheme⟩ then b.netloc
               else r.netloc))) = .ok absu := hjoin
    cases hpr : urlparseC href b.scheme with
    | error e =>
      rw [hpr] at hjoin1
      have hjoin2 : (Except.error e : Except String (List Char)) = .ok absu := hjoin1
      cases hjoin2
    | ok rh =>
      rw [hpr] at hjoin1
      have hjoin3 :
          (if decide (rh.scheme ≠ b.scheme) || !uses_relative.contains ⟨rh.scheme⟩ then
            (.ok href : Except String (List Char))
          else if uses_netloc.contains ⟨rh.scheme⟩ && !rh.netloc.isEmpty then
            .ok (urlunparseC rh.scheme rh.netloc rh.path rh.params rh.query
              rh.fragment)
          else
            if rh.path.isEmpty && rh.params.isEmpty then
              .ok (urlunparseC rh.scheme
                (if uses_netloc.contains ⟨rh.scheme⟩ then b.netloc else rh.netloc)
                b.path b.params
                (if rh.query.isEmpty then b.query else rh.query) rh.fragment)
            else .ok (joinPathsC b rh
              (if uses_netloc.contains ⟨rh.scheme⟩ then b.netloc
               else rh.netloc))) = .ok absu := hjoin1
      refine ⟨b, rh, rfl, hpr, ?_⟩
      by_cases h1 : (decide (rh.scheme ≠ b.scheme) ||
          !uses_relative.contains ⟨rh.scheme⟩) = true
      · rw [if_pos h1] at hjoin3
        exact Or.inl ⟨h1, (Except.ok.inj hjoin3).symm⟩
      · rw [if_neg h1] at hjoin3
        refine Or.inr ⟨Bool.not_eq_true _ ▸ h1, ?_⟩
        by_cases h2 : (uses_netloc.contains ⟨rh.scheme⟩ && !rh.netloc.isEmpty) = true
        · rw [if_pos h2] at hjoin3
          exact Or.inl ⟨h2, (Except.ok.inj hjoin3).symm⟩
        · rw [if_neg h2] at hjoin3
          refine Or.inr ⟨Bool.not_eq_true _ ▸ h2, ?_⟩
          by_cases h3 : (rh.path.isEmpty && rh.params.isEmpty) = true
          · rw [if_pos h3] at hjoin3
            exact Or.inl ⟨h3, (Except.ok.inj hjoin3).symm⟩
          · rw [if_neg h3] at hjoin3
            exact Or.inr ⟨Bool.not_eq_true _ ▸ h3, (Except.ok.inj hjoin3).symm⟩

/-- The reduced body of `urljoin` once both parses succeeded. -/
def joinBody (b : ParseC) (url : List Char) (r : ParseC) :
    Except String (List Char) :=
  if decide (r.scheme ≠ b.scheme) || !uses_relative.contains ⟨r.scheme⟩ then .ok url
  else if uses_netloc.contains ⟨r.scheme⟩ && !r.netloc.isEmpty then
    .ok (urlunparseC r.scheme r.netloc r.path r.params r.query r.fragment)
  else
    if r.path.isEmpty && r.params.isEmpty then
      .ok (urlunparseC r.scheme
        (if uses_netloc.contains ⟨r.scheme⟩ then b.netloc else r.netloc)
        b.path b.params
        (if r.query.isEmpty then b.query else r.query) r.fragment)
    else .ok (joinPathsC b r
      (if uses_netloc.contains ⟨r.scheme⟩ then b.netloc else r.netloc))

/-- `urljoin` reduces to its body on successful parses. -/
theorem urljoinC_reduce {base url : List Char} {b r : ParseC} (hb : base ≠ [])
    (hu : url ≠ []) (hpb : urlparseC base [] = .ok b)
    (hpr : urlparseC url b.scheme = .ok r) :
    urljoinC base url = joinBody b url r := by
  unfold urljoinC
  rw [if_neg (by simpa using hb), if_neg (by simpa using hu), hpb]
  have h0 : (match urlparseC url b.scheme with
      | .error e => (.error e : Except String (List Char))
      | .ok r =>
        if decide (r.scheme ≠ b.scheme) || !uses_relative.contains ⟨r.scheme⟩ then
          .ok url
        else if uses_netloc.contains ⟨r.scheme⟩ && !r.netloc.isEmpty then
          .ok (urlunparseC r.scheme r.netloc r.path r.params r.query r.fragment)
        else
          if r.path.isEmpty && r.params.isEmpty then
            .ok (urlunparseC r.scheme
              (if uses_netloc.contains ⟨r.scheme⟩ then b.netloc else r.netloc)
              b.path b.params
              (if r.query.isEmpty then b.query else r.query) r.fragment)
          else .ok (joinPathsC b r
            (if uses_netloc.contains ⟨r.scheme⟩ then b.netloc else r.netloc))) =
      joinBody b url r := by
    rw [hpr]
    unfold joinBody
    try rfl
  exact h0

/-- Scheme extraction on a rendering with authority. -/
theorem extractScheme_unsplit {S N P Q f : List Char} (hN : N ≠ [])
    (hS : S = [] ∨ (headAlpha S = true ∧ S.all schemeChar = true ∧
      S.map pyLowerChar = S)) :
    (extractScheme (urlunsplitC S N P Q f)).1 =
      if S.isEmpty then none else some S := by
  rw [unsplit_shape hN]
  rcases hS with rfl | ⟨hh, hall, hmap⟩
  · rw [show (if ([] : List Char).isEmpty = true then ([] : List Char)
      else [] ++ [':']) = [] from rfl, List.nil_append]
    rw [extractScheme_headFalse (show headAlpha ('/' :: '/' ::
      (N ++ (insSlash P ++ (if Q.isEmpty then [] else '?' :: Q) ++
        (if f.isEmpty then [] else '#' :: f)))) = false from rfl)]
    rfl
  · have hSne : S ≠ [] := by
      cases S with
      | nil => cases hh
      | cons c t => exact fun he => List.noConfusion he
    have hSne2 : ¬(S.isEmpty = true) := by
      simpa using hSne
    rw [if_neg hSne2, if_neg hSne2]
    rw [show (S ++ [':']) ++ '/' :: '/' ::
        (N ++ (insSlash P ++ (if Q.isEmpty then [] else '?' :: Q) ++
          (if f.isEmpty then [] else '#' :: f))) =
      S ++ ':' :: ('/' :: '/' ::
        (N ++ (insSlash P ++ (if Q.isEmpty then [] else '?' :: Q) ++
          (if f.isEmpty then [] else '#' :: f)))) by simp]
    rw [extractScheme_build _ hSne hh hall, hmap]

/-- The authority checks pass trivially for an empty netloc. -/
theorem nlChecks_nil (sch rest2 : List Char) :
    nlChecks sch [] rest2 = .ok (finishSplit sch [] rest2) := by
  unfold nlChecks
  rw [if_neg (by decide), if_neg (by decide)]

/-- The head of a `#`-truncated list is the head of the list. -/
theorem tU_head {l : List Char} {c : Char} {t : List Char}
    (h : tU l = c :: t) : ∃ t2, l = c :: t2 := by
  cases l with
  | nil => cases h
  | cons x xs =>
    by_cases hx : x = '#'
    · subst hx
      have h0 : tU ('#' :: xs) = [] := by
        unfold tU takeUntil
        simp [List.takeWhile_cons]
      rw [h0] at h
      cases h
    · have h0 : tU (x :: xs) = x :: tU xs := by
        unfold tU takeUntil
        rw [List.takeWhile_cons, if_pos (by simpa using hx)]
      rw [h0] at h
      injection h with h1 h2
      exact ⟨xs, by rw [h1]⟩

/-- Characters of a merged path/params pair. -/
theorem mem_mergeParams {c : Char} {P0 prm : List Char}
    (h : c ∈ mergeParams P0 prm) : c ∈ P0 ∨ c = ';' ∨ c ∈ prm := by
  unfold mergeParams at h
  revert h
  split
  · exact fun h => Or.inl h
  · intro h
    rcases List.mem_append.mp h with h1 | h2
    · exact Or.inl h1
    · rcases List.mem_cons.mp h2 with rfl | h3
      · exact Or.inr (Or.inl rfl)
      · exact Or.inr (Or.inr h3)

/-- An authority passing the character test has no `/`, `?` or `#`. -/
theorem all_nlp_not_mem {N : List Char}
    (h : N.all (fun c => c ≠ '/' && c ≠ '?' && c ≠ '#') = true) :
    '/' ∉ N ∧ '?' ∉ N ∧ '#' ∉ N := by
  refine ⟨?_, ?_, ?_⟩ <;> intro hx
  · have h2 := List.all_eq_true.mp h _ hx
    simp at h2
  · have h2 := List.all_eq_true.mp h _ hx
    simp at h2
  · have h2 := List.all_eq_true.mp h _ hx
    simp at h2

/-- Scheme strings are clean. -/
theorem clean_of_schemeChars {S : List Char} (h : S.all schemeChar = true) :
    Clean S :=
  fun c hc => (schemeChar_clean (List.all_eq_true.mp h c hc)).2

/-- Scheme strings have no `#` or `?`. -/
theorem schemeChars_not_mem {S : List Char} (h : S.all schemeChar = true) :
    '#' ∉ S ∧ '?' ∉ S := by
  constructor <;> intro hx
  · exact (schemeChar_ne (List.all_eq_true.mp h _ hx)).2.1 rfl
  · exact (schemeChar_ne (List.all_eq_true.mp h _ hx)).2.2.1 rfl

/-- Re-rendering the re-parse of a rendered URL with authority reproduces
its fragment-free form. -/
theorem constructed_restab_pos {absu : List Char} {sp : SplitC}
    (S N P0 prm Qe Fe : List Char) (hNE : N ≠ [])
    (habsu : absu = urlunsplitC S N (mergeParams P0 prm) Qe Fe)
    (hsp : urlsplitC absu [] = .ok sp)
    (hSwf : S = [] ∨ (headAlpha S = true ∧ S.all schemeChar = true ∧
      S.map pyLowerChar = S))
    (hNall : N.all (fun c => c ≠ '/' && c ≠ '?' && c ≠ '#') = true)
    (hNA : ((N.contains '[' && !N.contains ']') ||
      (N.contains ']' && !N.contains '[')) = false)
    (hNB : (N.contains '[' && N.contains ']' &&
      !bracketedHostOk (bracketedHostOf N)) = false)
    (hCN : Clean N) (hCP : Clean P0) (hCprm : Clean prm) (hCQ : Clean Qe)
    (hCF : Clean Fe)
    (hP0h : '#' ∉ P0) (hP0q : '?' ∉ P0)
    (hprmh : '#' ∉ prm) (hprmq : '?' ∉ prm)
    (hQh : '#' ∉ Qe)
    (hGP : uses_params.contains ⟨S⟩ = true → GoodPath (mergeParams P0 prm)) :
    urlunparseC S sp.netloc
      (paramsOf ⟨S, sp.netloc, sp.path, sp.query, []⟩).path
      (paramsOf ⟨S, sp.netloc, sp.path, sp.query, []⟩).params
      sp.query [] = tU absu := by
  have hCPM : Clean (mergeParams P0 prm) := by
    intro c hc
    rcases mem_mergeParams hc with h | rfl | h
    · exact hCP c h
    · decide
    · exact hCprm c h
  have hPMh : '#' ∉ mergeParams P0 prm := by
    intro hc
    rcases mem_mergeParams hc with h | he | h
    · exact hP0h h
    · exact absurd he (by decide)
    · exact hprmh h
  have hPMq : '?' ∉ mergeParams P0 prm := by
    intro hc
    rcases mem_mergeParams hc with h | he | h
    · exact hP0q h
    · exact absurd he (by decide)
    · exact hprmq h
  have hCS : Clean S := by
    rcases hSwf with rfl | ⟨-, hall, -⟩
    · exact fun c hc => absurd hc (List.not_mem_nil c)
    · exact clean_of_schemeChars hall
  have hSh : '#' ∉ S := by
    rcases hSwf with rfl | ⟨-, hall, -⟩
    · exact List.not_mem_nil _
    · exact (schemeChars_not_mem hall).1
  have hShead : S = [] ∨ headAlpha S = true := by
    rcases hSwf with rfl | ⟨hh, -, -⟩
    · exact Or.inl rfl
    · exact Or.inr hh
  have hclean : Clean (urlunsplitC S N (mergeParams P0 prm) Qe Fe) :=
    clean_unsplit hCS hCN hCPM hCQ hCF
  have hsani : sanitizeUrl absu = absu := by
    rw [habsu]
    exact sanitizeUrl_noop_unsplit hNE hclean hShead
  have hcore0 : urlsplitCore (sanitizeUrl absu) [] = .ok sp := hsp
  rw [hsani] at hcore0
  have hU4 : urlsplitCore absu [] =
      .ok ⟨if S.isEmpty then [] else S, N, insSlash (mergeParams P0 prm), Qe, Fe⟩ := by
    rw [habsu]
    exact urlsplitCore_unsplit hNE hNall hNA hNB hPMh hPMq hQh hSwf
  have hspid : sp =
      ⟨if S.isEmpty then [] else S, N, insSlash (mergeParams P0 prm), Qe, Fe⟩ :=
    Except.ok.inj (hcore0.symm.trans hU4)
  have hspn : sp.netloc = N := by rw [hspid]
  have hsppa : sp.path = insSlash (mergeParams P0 prm) := by rw [hspid]
  have hspq : sp.query = Qe := by rw [hspid]
  have htUa : tU absu = urlunsplitC S N (mergeParams P0 prm) Qe [] := by
    rw [habsu]
    exact tU_unsplit Fe hSh (all_nlp_not_mem hNall).2.2 hPMh hQh
  have hmb : mergeParams (paramsOf ⟨S, sp.netloc, sp.path, sp.query, []⟩).path
      (paramsOf ⟨S, sp.netloc, sp.path, sp.query, []⟩).params = sp.path := by
    apply paramsOf_merge_back
    intro hu hcs
    show GoodPath sp.path
    rw [hsppa]
    exact goodPath_insSlash (hGP hu)
  show urlunsplitC S sp.netloc
    (mergeParams (paramsOf ⟨S, sp.netloc, sp.path, sp.query, []⟩).path
      (paramsOf ⟨S, sp.netloc, sp.path, sp.query, []⟩).params) sp.query [] = tU absu
  rw [hmb, hsppa, hspn, hspq, unsplit_insSlash _ hNE]
  exact htUa.symm

/-- Rendering without authority: the path gets `//` only when it already
starts with it. -/
theorem unsplit_shape_nil {S PM Q f : List Char} :
    urlunsplitC S [] PM Q f =
      (if S.isEmpty then [] else S ++ [':']) ++
        ((if PM.take 2 = ['/', '/'] then '/' :: '/' :: PM else PM) ++
          (if Q.isEmpty then [] else '?' :: Q) ++
          (if f.isEmpty then [] else '#' :: f)) := by
  unfold urlunsplitC
  by_cases hPM2 : PM.take 2 = ['/', '/']
  · have h1 : ((!([] : List Char).isEmpty) || decide (PM.take 2 = ['/', '/'])) = true := by
      simp [hPM2]
    simp only [h1, if_true, insSlash_of_take2 hPM2, List.nil_append, if_pos hPM2]
    by_cases hSe : S.isEmpty = true <;> by_cases hQe : Q.isEmpty = true <;>
      by_cases hfe : f.isEmpty = true <;> simp [hSe, hQe, hfe, List.append_assoc]
  · have h1 : ((!([] : List Char).isEmpty) || decide (PM.take 2 = ['/', '/'])) = false := by
      simp [hPM2]
    simp only [h1, Bool.false_eq_true, if_false, if_neg hPM2]
    by_cases hSe : S.isEmpty = true <;> by_cases hQe : Q.isEmpty = true <;>
      by_cases hfe : f.isEmpty = true <;> simp [hSe, hQe, hfe, List.append_assoc]

/-- An empty truncation means the drop is trivial. -/
theorem dropWhile_of_takeWhile_nil {p : Char → Bool} {l : List Char}
    (h : l.takeWhile p = []) : l.dropWhile p = l := by
  cases l with
  | nil => rfl
  | cons c cs =>
    rw [List.takeWhile_cons] at h
    by_cases hc : p c
    · rw [if_pos hc] at h
      cases h
    · rw [List.dropWhile_cons, if_neg hc]

/-- An authority-less remainder after `//` with a blocked head gives an
empty netloc. -/
theorem core_netloc_of_slash2 {w d rest r2 : List Char} {sp : SplitC}
    {o : Option (List Char)}
    (hes : extractScheme w = (o, rest)) (hrest : rest = '/' :: '/' :: r2)
    (hr2 : r2.takeWhile (fun c => c ≠ '/' && c ≠ '?' && c ≠ '#') = [])
    (hcore : urlsplitCore w d = .ok sp) : sp.netloc = [] := by
  have hns : netlocSplit rest = some ([], r2) := by
    rw [hrest]
    have h0 := netlocSplit_build r2 (show ([] : List Char).all
      (fun c => c ≠ '/' && c ≠ '?' && c ≠ '#') = true from rfl) hr2
      (dropWhile_of_takeWhile_nil hr2)
    exact h0
  rw [urlsplitCore_reduce_netloc hes hns, nlChecks_nil] at hcore
  have h1 := Except.ok.inj hcore
  rw [← h1]
  rfl

/-- With no authority split, the netloc is empty. -/
theorem core_netloc_of_nosplit {w d rest : List Char} {sp : SplitC}
    {o : Option (List Char)}
    (hes : extractScheme w = (o, rest)) (hns : netlocSplit rest = none)
    (hcore : urlsplitCore w d = .ok sp) : sp.netloc = [] := by
  rw [urlsplitCore_reduce_nonetloc hes hns] at hcore
  have h1 := Except.ok.inj hcore
  rw [← h1]
  rfl

/-- Both pieces of the params split are made of path characters. -/
theorem splitParams_subset (p : List Char) :
    (∀ c ∈ (splitParams p).1, c ∈ p) ∧ ∀ c ∈ (splitParams p).2, c ∈ p := by
  unfold splitParams
  by_cases hc : p.contains '/' = true
  · rw [if_pos hc]
    cases h2 : (splitFirst ';' (afterLastSlash p)).2 with
    | some b =>
      obtain ⟨a0, h2d⟩ : ∃ a0, splitFirst ';' (afterLastSlash p) = (a0, some b) :=
        ⟨(splitFirst ';' (afterLastSlash p)).1, by rw [← h2]⟩
      simp only [h2d]
      have ha0 : a0 = (splitFirst ';' (afterLastSlash p)).1 := by rw [h2d]
      constructor
      · intro c hcm
        rcases List.mem_append.mp hcm with h1 | h1
        · exact List.take_subset _ p h1
        · apply afterLastSlash_subset p
          rw [ha0] at h1
          exact splitFirst_fst_subset ';' _ h1
      · intro c hcm
        exact afterLastSlash_subset p (splitFirst_snd_subset h2 hcm)
    | none =>
      simp only [splitFirst_snd_none h2]
      exact ⟨fun c h => h, fun c h => absurd h (List.not_mem_nil c)⟩
  · rw [if_neg hc]
    cases h2 : (splitFirst ';' p).2 with
    | some b =>
      obtain ⟨a0, h2d⟩ : ∃ a0, splitFirst ';' p = (a0, some b) :=
        ⟨(splitFirst ';' p).1, by rw [← h2]⟩
      simp only [h2d]
      have ha0 : a0 = (splitFirst ';' p).1 := by rw [h2d]
      constructor
      · intro c hcm
        rw [ha0] at hcm
        exact splitFirst_fst_subset ';' p hcm
      · intro c hcm
        exact splitFirst_snd_subset h2 hcm
    | none =>
      simp only [splitFirst_snd_none h2]
      exact ⟨fun c h => h, fun c h => absurd h (List.not_mem_nil c)⟩

/-- The parsed path and params are made of the split path's characters. -/
theorem paramsOf_subset (sp : SplitC) :
    (∀ c ∈ (paramsOf sp).path, c ∈ sp.path) ∧
      ∀ c ∈ (paramsOf sp).params, c ∈ sp.path := by
  unfold paramsOf
  by_cases hc : (uses_params.contains ⟨sp.scheme⟩ && sp.path.contains ';') = true
  · rw [if_pos hc]
    exact splitParams_subset sp.path
  · rw [if_neg hc]
    exact ⟨fun c h => h, fun c h => absurd h (List.not_mem_nil c)⟩

/-- Well-formedness of a scheme known only through the first projection. -/
theorem extract_fst_some_wf {w s : List Char}
    (h : (extractScheme w).1 = some s) :
    s ≠ [] ∧ headAlpha s = true ∧ s.all schemeChar = true ∧
      s.map pyLowerChar = s := by
  have hfull : extractScheme w = (some s, (extractScheme w).2) := by
    cases hfe : extractScheme w with
    | mk o r =>
      rw [hfe] at h
      have ho : o = some s := h
      rw [ho]
  exact extractScheme_some_wf hfull

/-- Re-merging a parse's path and params gives a good path when the scheme
uses params. -/
theorem goodPath_mergeParams_paramsOf {sph : SplitC}
    (hu : uses_params.contains ⟨sph.scheme⟩ = true) :
    GoodPath (mergeParams (paramsOf sph).path (paramsOf sph).params) := by
  by_cases hp : (paramsOf sph).params = []
  · rw [hp, mergeParams_nil]
    exact Or.inl ((paramsOf_region_spec sph).2 hu)
  · obtain ⟨hsl, hsemi, -⟩ := (paramsOf_region_spec sph).1 hp
    exact Or.inr ⟨afterLastSlash (paramsOf sph).path, (paramsOf sph).params,
      mergeParams_region hp hsl, hsemi, hp⟩

/-- Re-merging the joined path with the reference's params gives a good
path when the scheme uses params. -/
theorem goodPath_mergeParams_joined {b r : ParseC} {sph : SplitC}
    (hr : r = paramsOf sph)
    (hu : uses_params.contains ⟨sph.scheme⟩ = true) :
    GoodPath (mergeParams (joinedPathC b r) r.params) := by
  subst hr
  by_cases hp : (paramsOf sph).params = []
  · rw [hp, mergeParams_nil]
    left
    rcases joinedPathC_region b (paramsOf sph) with he | he
    · rw [he]
      exact List.not_mem_nil _
    · rw [he]
      exact (paramsOf_region_spec sph).2 hu
  · obtain ⟨hsl, -, -⟩ := (paramsOf_region_spec sph).1 hp
    right
    refine ⟨afterLastSlash (joinedPathC b (paramsOf sph)), (paramsOf sph).params,
      mergeParams_region hp hsl, ?_, hp⟩
    rcases joinedPathC_region b (paramsOf sph) with he | he
    · rw [he]
      exact List.not_mem_nil _
    · rw [he]
      exact (paramsOf_region_spec sph).2 hu

/-- Reparsing a fragment-free rendering whose authority slot is empty
recovers an empty netloc, provided the reparsed scheme is the rendered one
and the rendering does not begin with a control or space character. -/
theorem constructed_restab_nil {u2 d : List Char} {sp2 : SplitC}
    (S P0 prm Qe : List Char)
    (hu2 : u2 = urlunsplitC S [] (mergeParams P0 prm) Qe [])
    (hsp : urlsplitC u2 d = .ok sp2)
    (hSwf : S = [] ∨ (headAlpha S = true ∧ S.all schemeChar = true ∧
      S.map pyLowerChar = S))
    (hCP : Clean P0) (hCprm : Clean prm) (hCQ : Clean Qe)
    (hhead : ∀ c t, u2 = c :: t → isC0OrSpace c = false)
    (hsch : sp2.scheme = S) :
    sp2.netloc = [] := by
  have hCPM : Clean (mergeParams P0 prm) := by
    intro c hc
    rcases mem_mergeParams hc with h | rfl | h
    · exact hCP c h
    · decide
    · exact hCprm c h
  have hCS : Clean S := by
    rcases hSwf with rfl | ⟨-, hall, -⟩
    · exact fun c hc => absurd hc (List.not_mem_nil c)
    · exact clean_of_schemeChars hall
  have hclean : Clean u2 := by
    rw [hu2]
    exact clean_unsplit hCS (fun c hc => absurd hc (List.not_mem_nil c)) hCPM hCQ
      (fun c hc => absurd hc (List.not_mem_nil c))
  have hdis : u2 = [] ∨ ∃ c rest, u2 = c :: rest ∧ isC0OrSpace c = false := by
    rcases u2 with _ | ⟨c, t⟩
    · exact Or.inl rfl
    · exact Or.inr ⟨c, t, rfl, hhead c t rfl⟩
  have hsani : sanitizeUrl u2 = u2 := sanitizeUrl_noop hclean hdis
  have hcore : urlsplitCore u2 (sanitizeDflt d) = .ok sp2 := by
    have h := hsp
    rw [urlsplitC_core, hsani] at h
    exact h
  have hshape : u2 = (if S.isEmpty then [] else S ++ [':']) ++
      (((if (mergeParams P0 prm).take 2 = ['/', '/'] then
          '/' :: '/' :: mergeParams P0 prm else mergeParams P0 prm) ++
        (if Qe.isEmpty then [] else '?' :: Qe)) ++ []) := by
    rw [hu2, unsplit_shape_nil]
    rfl
  by_cases hPM2 : (mergeParams P0 prm).take 2 = ['/', '/']
  · obtain ⟨pmr, hpmr⟩ : ∃ pmr, mergeParams P0 prm = '/' :: pmr := by
      cases hpm : mergeParams P0 prm with
      | nil =>
        rw [hpm] at hPM2
        exact absurd hPM2 (by decide)
      | cons c t =>
        rw [hpm] at hPM2
        rw [List.take_succ_cons] at hPM2
        injection hPM2 with h1 h2
        exact ⟨t, by rw [h1]⟩
    have hr2tw : ((mergeParams P0 prm ++ (if Qe.isEmpty then [] else '?' :: Qe)) ++
        ([] : List Char)).takeWhile (fun c => c ≠ '/' && c ≠ '?' && c ≠ '#') = [] := by
      rw [hpmr]
      rw [show (('/' :: pmr) ++ (if Qe.isEmpty then [] else '?' :: Qe)) ++
          ([] : List Char) =
        '/' :: ((pmr ++ (if Qe.isEmpty then [] else '?' :: Qe)) ++ []) by simp]
      rw [List.takeWhile_cons]
      rfl
    rcases hSwf with rfl | ⟨hh, hall, hmap⟩
    · have habs2 : u2 = '/' :: '/' :: ((mergeParams P0 prm ++
          (if Qe.isEmpty then [] else '?' :: Qe)) ++ []) := by
        rw [hshape, if_pos hPM2]
        simp
      have hes : extractScheme u2 = (none, u2) :=
        extractScheme_headFalse (by rw [habs2]; rfl)
      exact core_netloc_of_slash2 hes habs2 hr2tw hcore
    · have hSne : S ≠ [] := by
        cases S with
        | nil => cases hh
        | cons c t => exact fun he => List.noConfusion he
      have habs2 : u2 = S ++ ':' :: ('/' :: '/' :: ((mergeParams P0 prm ++
          (if Qe.isEmpty then [] else '?' :: Qe)) ++ [])) := by
        rw [hshape, if_pos hPM2, if_neg (by simpa using hSne)]
        simp
      have hes : extractScheme u2 = (some S, '/' :: '/' :: ((mergeParams P0 prm ++
          (if Qe.isEmpty then [] else '?' :: Qe)) ++ [])) := by
        rw [habs2, extractScheme_build _ hSne hh hall, hmap]
      exact core_netloc_of_slash2 hes rfl hr2tw hcore
  · have htk : ((mergeParams P0 prm ++ (if Qe.isEmpty then [] else '?' :: Qe)) ++
        ([] : List Char)).take 2 ≠ ['/', '/'] := by
      have h0 := @take2_tail (mergeParams P0 prm) Qe [] hPM2
      simpa using h0
    rcases hSwf with rfl | ⟨hh, hall, hmap⟩
    · have habs2 : u2 = (mergeParams P0 prm ++
          (if Qe.isEmpty then [] else '?' :: Qe)) ++ [] := by
        rw [hshape, if_neg hPM2]
        simp
      cases hex : (extractScheme u2).1 with
      | none =>
        have hes := extractScheme_none_snd hex
        have hns : netlocSplit u2 = none := by
          rw [habs2]
          exact (netlocSplit_none_iff _).mpr htk
        exact core_netloc_of_nosplit hes hns hcore
      | some s =>
        exfalso
        have h9 := (urlsplitCore_ok_spec hcore).2.2.2.2.2.2
        rw [hex] at h9
        have hscheme : sp2.scheme = s := h9
        exact (extract_fst_some_wf hex).1 (hscheme.symm.trans hsch)
    · have hSne : S ≠ [] := by
        cases S with
        | nil => cases hh
        | cons c t => exact fun he => List.noConfusion he
      have habs2 : u2 = S ++ ':' :: ((mergeParams P0 prm ++
          (if Qe.isEmpty then [] else '?' :: Qe)) ++ []) := by
        rw [hshape, if_neg hPM2, if_neg (by simpa using hSne)]
        simp
      have hes : extractScheme u2 = (some S, (mergeParams P0 prm ++
          (if Qe.isEmpty then [] else '?' :: Qe)) ++ []) := by
        rw [habs2, extractScheme_build _ hSne hh hall, hmap]
      have hns : netlocSplit ((mergeParams P0 prm ++
          (if Qe.isEmpty then [] else '?' :: Qe)) ++ []) = none :=
        (netlocSplit_none_iff _).mpr htk
      exact core_netloc_of_nosplit hes hns hcore

set_option maxHeartbeats 2000000 in
/-- A successful `urljoin` output that reparses with a nonempty authority,
truncated at its first `#`, is a fixed point of rejoining against the same
base whenever the truncation is nonempty and does not start with a control
or space character. -/
theorem urljoin_restab {base href absu : List Char} {sp : SplitC}
    (hb : base ≠ []) (hh : href ≠ [])
    (hjoin : urljoinC base href = .ok absu)
    (hsp : urlsplitC absu [] = .ok sp)
    (hnet : sp.netloc ≠ [])
    (htne : tU absu ≠ [])
    (hhead : ∀ c t, tU absu = c :: t → isC0OrSpace c = false) :
    urljoinC base (tU absu) = .ok (tU absu) := by
  obtain ⟨b, rh, hpb, hpr, hbr⟩ := urljoinC_ok_cases hb hh hjoin
  obtain ⟨spb, hsplitb, hbdef⟩ : ∃ spb, urlsplitC base [] = .ok spb ∧
      b = paramsOf spb := by
    cases hsb : urlsplitC base [] with
    | error e =>
      have h0 : urlparseC base [] = .error e := by
        unfold urlparseC
        rw [hsb]
      rw [h0] at hpb
      cases hpb
    | ok spb =>
      have h0 := urlparseC_of_split hsb
      rw [h0] at hpb
      exact ⟨spb, rfl, (Except.ok.inj hpb).symm⟩
  obtain ⟨sph, hsplith, hrhdef⟩ : ∃ sph, urlsplitC href b.scheme = .ok sph ∧
      rh = paramsOf sph := by
    cases hsb : urlsplitC href b.scheme with
    | error e =>
      have h0 : urlparseC href b.scheme = .error e := by
        unfold urlparseC
        rw [hsb]
      rw [h0] at hpr
      cases hpr
    | ok sph =>
      have h0 := urlparseC_of_split hsb
      rw [h0] at hpr
      exact ⟨sph, rfl, (Except.ok.inj hpr).symm⟩
  have hcoreb : urlsplitCore (sanitizeUrl base) (sanitizeDflt []) = .ok spb := hsplitb
  have hcoreh : urlsplitCore (sanitizeUrl href) (sanitizeDflt b.scheme) = .ok sph :=
    hsplith
  have hspecb := urlsplitCore_ok_spec hcoreb
  have hspech := urlsplitCore_ok_spec hcoreh
  have hcharsb := urlsplitCore_chars hcoreb (fun c hc => clean_sanitizeUrl base c hc)
  have hcharsh := urlsplitCore_chars hcoreh (fun c hc => clean_sanitizeUrl href c hc)
  have hbsch : b.scheme = spb.scheme := by
    rw [hbdef]
    exact (paramsOf_proj spb).1
  have hrhsch : rh.scheme = sph.scheme := by
    rw [hrhdef]
    exact (paramsOf_proj sph).1
  have hbnet : b.netloc = spb.netloc := by
    rw [hbdef]
    exact (paramsOf_proj spb).2.1
  have hrnet : rh.netloc = sph.netloc := by
    rw [hrhdef]
    exact (paramsOf_proj sph).2.1
  have hbq : b.query = spb.query := by
    rw [hbdef]
    exact (paramsOf_proj spb).2.2.1
  have hrq : rh.query = sph.query := by
    rw [hrhdef]
    exact (paramsOf_proj sph).2.2.1
  have hrf : rh.fragment = sph.fragment := by
    rw [hrhdef]
    exact (paramsOf_proj sph).2.2.2
  have hbP : ∀ c ∈ b.path, c ∈ spb.path := by
    rw [hbdef]
    exact (paramsOf_subset spb).1
  have hbPrm : ∀ c ∈ b.params, c ∈ spb.path := by
    rw [hbdef]
    exact (paramsOf_subset spb).2
  have hrP : ∀ c ∈ rh.path, c ∈ sph.path := by
    rw [hrhdef]
    exact (paramsOf_subset sph).1
  have hrPrm : ∀ c ∈ rh.params, c ∈ sph.path := by
    rw [hrhdef]
    exact (paramsOf_subset sph).2
  have hCbN : Clean b.netloc := by
    rw [hbnet]
    exact hcharsb.1
  have hCbP : Clean b.path := fun c hc => hcharsb.2.1 c (hbP c hc)
  have hCbPrm : Clean b.params := fun c hc => hcharsb.2.1 c (hbPrm c hc)
  have hCbQ : Clean b.query := by
    rw [hbq]
    exact hcharsb.2.2.1
  have hCrN : Clean rh.netloc := by
    rw [hrnet]
    exact hcharsh.1
  have hCrP : Clean rh.path := fun c hc => hcharsh.2.1 c (hrP c hc)
  have hCrPrm : Clean rh.params := fun c hc => hcharsh.2.1 c (hrPrm c hc)
  have hCrQ : Clean rh.query := by
    rw [hrq]
    exact hcharsh.2.2.1
  have hCrF : Clean rh.fragment := by
    rw [hrf]
    exact hcharsh.2.2.2
  have hbPh : '#' ∉ b.path := fun hc => hspecb.2.2.2.1 (hbP _ hc)
  have hbPq : '?' ∉ b.path := fun hc => hspecb.2.2.2.2.1 (hbP _ hc)
  have hbPrmh : '#' ∉ b.params := fun hc => hspecb.2.2.2.1 (hbPrm _ hc)
  have hbPrmq : '?' ∉ b.params := fun hc => hspecb.2.2.2.2.1 (hbPrm _ hc)
  have hbQh : '#' ∉ b.query := by
    rw [hbq]
    exact hspecb.2.2.2.2.2.1
  have hrPh : '#' ∉ rh.path := fun hc => hspech.2.2.2.1 (hrP _ hc)
  have hrPq : '?' ∉ rh.path := fun hc => hspech.2.2.2.2.1 (hrP _ hc)
  have hrPrmh : '#' ∉ rh.params := fun hc => hspech.2.2.2.1 (hrPrm _ hc)
  have hrPrmq : '?' ∉ rh.params := fun hc => hspech.2.2.2.2.1 (hrPrm _ hc)
  have hrQh : '#' ∉ rh.query := by
    rw [hrq]
    exact hspech.2.2.2.2.2.1
  have hbNall : b.netloc.all (fun c => c ≠ '/' && c ≠ '?' && c ≠ '#') = true := by
    rw [hbnet]
    exact hspecb.1
  have hbNA : ((b.netloc.contains '[' && !b.netloc.contains ']') ||
      (b.netloc.contains ']' && !b.netloc.contains '[')) = false := by
    rw [hbnet]
    exact hspecb.2.1
  have hbNB : (b.netloc.contains '[' && b.netloc.contains ']' &&
      !bracketedHostOk (bracketedHostOf b.netloc)) = false := by
    rw [hbnet]
    exact hspecb.2.2.1
  have hrNall : rh.netloc.all (fun c => c ≠ '/' && c ≠ '?' && c ≠ '#') = true := by
    rw [hrnet]
    exact hspech.1
  have hrNA : ((rh.netloc.contains '[' && !rh.netloc.contains ']') ||
      (rh.netloc.contains ']' && !rh.netloc.contains '[')) = false := by
    rw [hrnet]
    exact hspech.2.1
  have hrNB : (rh.netloc.contains '[' && rh.netloc.contains ']' &&
      !bracketedHostOk (bracketedHostOf rh.netloc)) = false := by
    rw [hrnet]
    exact hspech.2.2.1
  have hSwfb : b.scheme = [] ∨ (headAlpha b.scheme = true ∧
      b.scheme.all schemeChar = true ∧ b.scheme.map pyLowerChar = b.scheme) := by
    have h1 := hspecb.2.2.2.2.2.2
    rw [hbsch, h1]
    cases hexb : (extractScheme (sanitizeUrl base)).1 with
    | none => exact Or.inl rfl
    | some s =>
      right
      obtain ⟨-, h2, h3, h4⟩ := extract_fst_some_wf hexb
      exact ⟨h2, h3, h4⟩
  have hsptU : urlsplitC (tU absu) [] =
      .ok ⟨sp.scheme, sp.netloc, sp.path, sp.query, []⟩ := urlsplitC_tU hsp hnet
  have hdfl2b : urlsplitC (tU absu) b.scheme =
      .ok ⟨(extractScheme (sanitizeUrl (tU absu))).1.getD (sanitizeDflt b.scheme),
        sp.netloc, sp.path, sp.query, []⟩ :=
    (@urlsplitC_dflt (tU absu) [] b.scheme _ hsptU).2
  have hpr2 : urlparseC (tU absu) b.scheme =
      .ok (paramsOf ⟨(extractScheme (sanitizeUrl (tU absu))).1.getD
        (sanitizeDflt b.scheme), sp.netloc, sp.path, sp.query, []⟩) :=
    urlparseC_of_split hdfl2b
  have hred := urljoinC_reduce hb htne hpb hpr2
  rw [hred]
  unfold joinBody
  have hps : (paramsOf ⟨(extractScheme (sanitizeUrl (tU absu))).1.getD
      (sanitizeDflt b.scheme), sp.netloc, sp.path, sp.query, []⟩).scheme =
      (extractScheme (sanitizeUrl (tU absu))).1.getD (sanitizeDflt b.scheme) :=
    (paramsOf_proj _).1
  have hpn : (paramsOf ⟨(extractScheme (sanitizeUrl (tU absu))).1.getD
      (sanitizeDflt b.scheme), sp.netloc, sp.path, sp.query, []⟩).netloc =
      sp.netloc := (paramsOf_proj _).2.1
  have hpq : (paramsOf ⟨(extractScheme (sanitizeUrl (tU absu))).1.getD
      (sanitizeDflt b.scheme), sp.netloc, sp.path, sp.query, []⟩).query =
      sp.query := (paramsOf_proj _).2.2.1
  have hpf : (paramsOf ⟨(extractScheme (sanitizeUrl (tU absu))).1.getD
      (sanitizeDflt b.scheme), sp.netloc, sp.path, sp.query, []⟩).fragment =
      [] := (paramsOf_proj _).2.2.2
  rw [hps, hpn, hpq, hpf]
  by_cases hc2 : (decide ((extractScheme (sanitizeUrl (tU absu))).1.getD
      (sanitizeDflt b.scheme) ≠ b.scheme) ||
      !uses_relative.contains ⟨(extractScheme (sanitizeUrl (tU absu))).1.getD
        (sanitizeDflt b.scheme)⟩) = true
  · rw [if_pos hc2]
  · rw [if_neg hc2]
    have hc2f : (decide ((extractScheme (sanitizeUrl (tU absu))).1.getD
        (sanitizeDflt b.scheme) ≠ b.scheme) ||
        !uses_relative.contains ⟨(extractScheme (sanitizeUrl (tU absu))).1.getD
          (sanitizeDflt b.scheme)⟩) = false := by
      cases hbb : (decide ((extractScheme (sanitizeUrl (tU absu))).1.getD
          (sanitizeDflt b.scheme) ≠ b.scheme) ||
          !uses_relative.contains ⟨(extractScheme (sanitizeUrl (tU absu))).1.getD
            (sanitizeDflt b.scheme)⟩) with
      | true => exact absurd hbb hc2
      | false => rfl
    have hE2db : (extractScheme (sanitizeUrl (tU absu))).1.getD
        (sanitizeDflt b.scheme) = b.scheme := by
      by_contra hne
      rw [decide_eq_true hne] at hc2f
      simp at hc2f
    have hrel2 : uses_relative.contains
        ⟨(extractScheme (sanitizeUrl (tU absu))).1.getD
          (sanitizeDflt b.scheme)⟩ = true := by
      cases hcc : uses_relative.contains
          ⟨(extractScheme (sanitizeUrl (tU absu))).1.getD
            (sanitizeDflt b.scheme)⟩ with
      | true => rfl
      | false =>
        rw [hcc] at hc2f
        simp at hc2f
    have hcond2 : (uses_netloc.contains
        ⟨(extractScheme (sanitizeUrl (tU absu))).1.getD (sanitizeDflt b.scheme)⟩ &&
        !sp.netloc.isEmpty) = true := by
      apply (Bool.and_eq_true _ _).mpr
      constructor
      · exact List.elem_iff.mpr (uses_rel_sub_netloc _ (List.elem_iff.mp hrel2))
      · cases hnn : sp.netloc with
        | nil => exact absurd hnn hnet
        | cons c t => rfl
    rw [if_pos hcond2]
    rcases hbr with ⟨hcond1, habsE⟩ | ⟨hcond1, hbr2⟩
    · exfalso
      subst habsE
      have h1a : sp.scheme =
          (extractScheme (sanitizeUrl absu)).1.getD (sanitizeDflt []) :=
        (@urlsplitC_dflt absu [] [] sp hsp).1
      have h1b : sp.scheme =
          (extractScheme (sanitizeUrl (tU absu))).1.getD (sanitizeDflt []) :=
        (@urlsplitC_dflt (tU absu) [] [] _ hsptU).1
      have hg : (extractScheme (sanitizeUrl absu)).1.getD (sanitizeDflt []) =
          (extractScheme (sanitizeUrl (tU absu))).1.getD (sanitizeDflt []) := by
        rw [← h1a, ← h1b]
      have hE : (extractScheme (sanitizeUrl absu)).1 =
          (extractScheme (sanitizeUrl (tU absu))).1 := by
        cases he1 : (extractScheme (sanitizeUrl absu)).1 with
        | none =>
          cases he2 : (extractScheme (sanitizeUrl (tU absu))).1 with
          | none => rfl
          | some s2 =>
            rw [he1, he2] at hg
            have hg2 : ([] : List Char) = s2 := hg
            exact absurd hg2.symm (extract_fst_some_wf he2).1
        | some s1 =>
          cases he2 : (extractScheme (sanitizeUrl (tU absu))).1 with
          | none =>
            rw [he1, he2] at hg
            have hg2 : s1 = ([] : List Char) := hg
            exact absurd hg2 (extract_fst_some_wf he1).1
          | some s2 =>
            rw [he1, he2] at hg
            have hg2 : s1 = s2 := hg
            rw [hg2]
      have hrs2 : rh.scheme = (extractScheme (sanitizeUrl (tU absu))).1.getD
          (sanitizeDflt b.scheme) := by
        rw [hrhsch, hspech.2.2.2.2.2.2, hE]
      rcases (Bool.or_eq_true _ _).mp hcond1 with h | h
      · exact (of_decide_eq_true h) (by rw [hrs2]; exact hE2db)
      · have hf : uses_relative.contains ⟨rh.scheme⟩ = false := by
          simpa using h
        rw [hrs2, hrel2] at hf
        exact Bool.noConfusion hf
    · have hS1 : rh.scheme = b.scheme := by
        by_contra hne
        rw [decide_eq_true hne] at hcond1
        simp at hcond1
      have hrelS : uses_relative.contains ⟨rh.scheme⟩ = true := by
        cases hcc : uses_relative.contains ⟨rh.scheme⟩ with
        | true => rfl
        | false =>
          rw [hcc] at hcond1
          simp at hcond1
      have hE2rh : (extractScheme (sanitizeUrl (tU absu))).1.getD
          (sanitizeDflt b.scheme) = rh.scheme := hE2db.trans hS1.symm
      have hSwfS : rh.scheme = [] ∨ (headAlpha rh.scheme = true ∧
          rh.scheme.all schemeChar = true ∧
          rh.scheme.map pyLowerChar = rh.scheme) := by
        rw [hS1]
        exact hSwfb
      have hSh : '#' ∉ rh.scheme := by
        rcases hSwfS with he | ⟨-, hall, -⟩
        · rw [he]
          exact List.not_mem_nil _
        · exact (schemeChars_not_mem hall).1
      have hun : uses_netloc.contains ⟨rh.scheme⟩ = true :=
        List.elem_iff.mpr (uses_rel_sub_netloc _ (List.elem_iff.mp hrelS))
      rcases hbr2 with ⟨hcB2, habsu⟩ | ⟨hcB2n, hbr3⟩
      · have hNE2 : rh.netloc ≠ [] := by
          have h2 := ((Bool.and_eq_true _ _).mp hcB2).2
          intro he
          rw [he] at h2
          exact absurd h2 (by decide)
        have hGP2 : uses_params.contains ⟨rh.scheme⟩ = true →
            GoodPath (mergeParams rh.path rh.params) := by
          intro hu
          have hu2 : uses_params.contains ⟨sph.scheme⟩ = true := by
            rw [← hrhsch]
            exact hu
          have h0 := goodPath_mergeParams_paramsOf hu2
          rw [← hrhdef] at h0
          exact h0
        rw [hE2rh]
        exact congrArg Except.ok (constructed_restab_pos rh.scheme rh.netloc rh.path
          rh.params rh.query rh.fragment hNE2 habsu hsp hSwfS hrNall hrNA hrNB hCrN
          hCrP hCrPrm hCrQ hCrF hrPh hrPq hrPrmh hrPrmq hrQh hGP2)
      · rcases hbr3 with ⟨hcB3, habsu⟩ | ⟨hcB3n, habsu⟩
        · rw [if_pos hun] at habsu
          have hCQif : Clean (if rh.query.isEmpty then b.query else rh.query) := by
            by_cases hq : rh.query.isEmpty = true
            · rw [if_pos hq]
              exact hCbQ
            · rw [if_neg hq]
              exact hCrQ
          have hQifh : '#' ∉ (if rh.query.isEmpty then b.query else rh.query) := by
            by_cases hq : rh.query.isEmpty = true
            · rw [if_pos hq]
              exact hbQh
            · rw [if_neg hq]
              exact hrQh
          by_cases hbnil : b.netloc = []
          · exfalso
            apply hnet
            have hPMh3 : '#' ∉ mergeParams b.path b.params := by
              intro hcm
              rcases mem_mergeParams hcm with h | he | h
              · exact hbPh h
              · exact absurd he (by decide)
              · exact hbPrmh h
            have hu2 : tU absu = urlunsplitC rh.scheme []
                (mergeParams b.path b.params)
                (if rh.query.isEmpty then b.query else rh.query) [] := by
              rw [habsu, hbnil]
              exact tU_unsplit rh.fragment hSh (List.not_mem_nil '#') hPMh3 hQifh
            exact @constructed_restab_nil (tU absu) b.scheme
              ⟨(extractScheme (sanitizeUrl (tU absu))).1.getD (sanitizeDflt b.scheme),
                sp.netloc, sp.path, sp.query, []⟩ rh.scheme b.path b.params
              (if rh.query.isEmpty then b.query else rh.query) hu2 hdfl2b hSwfS
              hCbP hCbPrm hCQif hhead hE2rh
          · have hGP3 : uses_params.contains ⟨rh.scheme⟩ = true →
                GoodPath (mergeParams b.path b.params) := by
              intro hu
              have hu2 : uses_params.contains ⟨spb.scheme⟩ = true := by
                rw [← hbsch, ← hS1]
                exact hu
              have h0 := goodPath_mergeParams_paramsOf hu2
              rw [← hbdef] at h0
              exact h0
            rw [hE2rh]
            exact congrArg Except.ok (constructed_restab_pos rh.scheme b.netloc
              b.path b.params (if rh.query.isEmpty then b.query else rh.query)
              rh.fragment hbnil habsu hsp hSwfS hbNall hbNA hbNB hCbN hCbP hCbPrm
              hCQif hCrF hbPh hbPq hbPrmh hbPrmq hQifh hGP3)
        · rw [if_pos hun] at habsu
          have hCjp : Clean (joinedPathC b rh) := by
            intro c hc
            rcases joinedPathC_chars hc with rfl | h | h
            · decide
            · exact hCbP c h
            · exact hCrP c h
          have hjph : '#' ∉ joinedPathC b rh := by
            intro hc
            rcases joinedPathC_chars hc with he | h | h
            · exact absurd he (by decide)
            · exact hbPh h
            · exact hrPh h
          have hjpq : '?' ∉ joinedPathC b rh := by
            intro hc
            rcases joinedPathC_chars hc with he | h | h
            · exact absurd he (by decide)
            · exact hbPq h
            · exact hrPq h
          by_cases hbnil : b.netloc = []
          · exfalso
            apply hnet
            have hPMh4 : '#' ∉ mergeParams (joinedPathC b rh) rh.params := by
              intro hcm
              rcases mem_mergeParams hcm with h | he | h
              · exact hjph h
              · exact absurd he (by decide)
              · exact hrPrmh h
            have hu2 : tU absu = urlunsplitC rh.scheme []
                (mergeParams (joinedPathC b rh) rh.params) rh.query [] := by
              rw [habsu, hbnil]
              exact tU_unsplit rh.fragment hSh (List.not_mem_nil '#') hPMh4 hrQh
            exact @constructed_restab_nil (tU absu) b.scheme
              ⟨(extractScheme (sanitizeUrl (tU absu))).1.getD (sanitizeDflt b.scheme),
                sp.netloc, sp.path, sp.query, []⟩ rh.scheme (joinedPathC b rh)
              rh.params rh.query hu2 hdfl2b hSwfS hCjp hCrPrm hCrQ hhead hE2rh
          · have hGP4 : uses_params.contains ⟨rh.scheme⟩ = true →
                GoodPath (mergeParams (joinedPathC b rh) rh.params) := by
              intro hu
              have hu2 : uses_params.contains ⟨sph.scheme⟩ = true := by
                rw [← hrhsch]
                exact hu
              exact goodPath_mergeParams_joined hrhdef hu2
            rw [hE2rh]
            exact congrArg Except.ok (constructed_restab_pos rh.scheme b.netloc
              (joinedPathC b rh) rh.params rh.query rh.fragment hbnil habsu hsp
              hSwfS hbNall hbNA hbNB hCbN hCjp hCrPrm hCrQ hCrF hjph hjpq hrPrmh
              hrPrmq hrQh hGP4)

/-- The second `normalize_url` run, once the rejoin is known to be the
identity on the fragment-free URL and the host check is known to pass. -/
theorem normalize_second_run {base2 : String} {v : List Char} {sp3 : SplitC}
    (hv : v ≠ [])
    (hjoin2 : urljoinC base2.data v = .ok v)
    (hsp3 : urlsplitC v [] = .ok sp3)
    (hhost : lidovkyHosts.contains ⟨sp3.netloc⟩ = true) (htuv : tU v = v) :
    normalize_url base2 ⟨v⟩ = .ok ⟨v⟩ := by
  have hne : ¬((⟨v⟩ : String) = "") := fun he => hv (congrArg String.data he)
  unfold normalize_url
  rw [if_neg hne]
  have h1 : (match urljoinC base2.data v with
      | .error e => (.error e : Except String String)
      | .ok absu =>
        match urlparseC absu [] with
        | .error e => .error e
        | .ok parsed =>
          if lidovkyHosts.contains ⟨parsed.netloc⟩ then .ok ⟨takeUntil '#' absu⟩
          else .ok "") = .ok ⟨v⟩ := by
    rw [hjoin2]
    have h2 : (match urlparseC v [] with
        | .error e => (.error e : Except String String)
        | .ok parsed =>
          if lidovkyHosts.contains ⟨parsed.netloc⟩ then .ok ⟨takeUntil '#' v⟩
          else .ok "") = .ok ⟨v⟩ := by
      rw [urlparseC_of_split hsp3]
      have h3 : (if lidovkyHosts.contains ⟨(paramsOf sp3).netloc⟩ = true
          then (.ok ⟨takeUntil '#' v⟩ : Except String String)
          else .ok "") = .ok ⟨v⟩ := by
        rw [(paramsOf_proj sp3).2.1, if_pos hhost]
        rw [show takeUntil '#' v = v from htuv]
      exact h3
    exact h2
  exact h1

/-- `normalize_url` is idempotent on every output that does not begin with
a control or space character. -/
theorem normalize_idem {base href u : String}
    (h : normalize_url base href = .ok u)
    (hhead : ∀ c t, u.data = c :: t → isC0OrSpace c = false) :
    normalize_url base u = .ok u := by
  by_cases hu : u = ""
  · subst hu
    unfold normalize_url
    rw [if_pos rfl]
  · unfold normalize_url at h
    have hhrefne : ¬(href = "") := by
      intro he
      rw [if_pos he] at h
      exact hu (Except.ok.inj h).symm
    rw [if_neg hhrefne] at h
    cases hj : urljoinC base.data href.data with
    | error e =>
      rw [hj] at h
      have h2 : (Except.error e : Except String String) = .ok u := h
      cases h2
    | ok absu =>
      rw [hj] at h
      have h2 : (match urlparseC absu [] with
          | .error e => (.error e : Except String String)
          | .ok parsed =>
            if lidovkyHosts.contains ⟨parsed.netloc⟩ then .ok ⟨takeUntil '#' absu⟩
            else .ok "") = .ok u := h
      cases hp : urlparseC absu [] with
      | error e =>
        rw [hp] at h2
        have h3 : (Except.error e : Except String String) = .ok u := h2
        cases h3
      | ok parsed =>
        rw [hp] at h2
        have h3 : (if lidovkyHosts.contains ⟨parsed.netloc⟩ = true
            then (.ok ⟨takeUntil '#' absu⟩ : Except String String)
            else .ok "") = .ok u := h2
        by_cases hhost : lidovkyHosts.contains ⟨parsed.netloc⟩ = true
        · rw [if_pos hhost] at h3
          have hu2 : u = ⟨takeUntil '#' absu⟩ := (Except.ok.inj h3).symm
          subst hu2
          obtain ⟨sp, hsp, hpdef⟩ : ∃ sp, urlsplitC absu [] = .ok sp ∧
              parsed = paramsOf sp := by
            cases hsb : urlsplitC absu [] with
            | error e =>
              have h0 : urlparseC absu [] = .error e := by
                unfold urlparseC
                rw [hsb]
              rw [h0] at hp
              cases hp
            | ok sp =>
              have h0 := urlparseC_of_split hsb
              rw [h0] at hp
              exact ⟨sp, rfl, (Except.ok.inj hp).symm⟩
          have hnetp : parsed.netloc = sp.netloc := by
            rw [hpdef]
            exact (paramsOf_proj sp).2.1
          have hnet : sp.netloc ≠ [] := by
            rw [← hnetp]
            exact hosts_ne_nil hhost
          have htne : tU absu ≠ [] := by
            intro he
            apply hu
            show (⟨takeUntil '#' absu⟩ : String) = ""
            have he2 : takeUntil '#' absu = [] := he
            rw [he2]
          have hhead2 : ∀ c t, tU absu = c :: t → isC0OrSpace c = false :=
            fun c t hct => hhead c t hct
          have hsptU : urlsplitC (tU absu) [] =
              .ok ⟨sp.scheme, sp.netloc, sp.path, sp.query, []⟩ :=
            urlsplitC_tU hsp hnet
          have hhost2 : lidovkyHosts.contains
              ⟨(⟨sp.scheme, sp.netloc, sp.path, sp.query, []⟩ : SplitC).netloc⟩ =
              true := by
            show lidovkyHosts.contains ⟨sp.netloc⟩ = true
            rw [← hnetp]
            exact hhost
          by_cases hbase : base = ""
          · have hj2 : urljoinC base.data (tU absu) = .ok (tU absu) := by
              rw [hbase]
              rfl
            exact normalize_second_run htne hj2 hsptU hhost2 (tU_tU absu)
          · have hbne : base.data ≠ [] := fun he => hbase (String.ext he)
            have hhne : href.data ≠ [] := fun he => hhrefne (String.ext he)
            have hj2 := urljoin_restab hbne hhne hj hsp hnet htne hhead2
            exact normalize_second_run htne hj2 hsptU hhost2 (tU_tU absu)
        · rw [if_neg hhost] at h3
          exact absurd (Except.ok.inj h3).symm hu

/-- C6 (counterexample): both halves of the claim fail on the source code.
Idempotence fails without a guard: `normalize_url "x" "/../ //www.lidovky.cz/p"`
returns the non-empty URL `" //www.lidovky.cz/p"`, yet re-normalizing that
output strips its leading space and returns the different string
`"//www.lidovky.cz/p"`.  And a href that fails to parse does not yield the
empty string: `normalize_url "https://www.lidovky.cz/" "//[x"` propagates
the `ValueError` (modelled as `.error "Invalid IPv6 URL"`). -/
theorem C6_counterexample :
    normalize_url "x" "/../ //www.lidovky.cz/p" = .ok " //www.lidovky.cz/p" ∧
    normalize_url "x" " //www.lidovky.cz/p" = .ok "//www.lidovky.cz/p" ∧
    (" //www.lidovky.cz/p" : String) ≠ "//www.lidovky.cz/p" ∧
    normalize_url "https://www.lidovky.cz/" "//[x" = .error "Invalid IPv6 URL" :=
  ⟨rfl, rfl, by decide, rfl⟩

/-- C6 (amended): `normalize_url` is idempotent on every output that does
not begin with a C0-control or space character (re-normalizing such an
output returns it unchanged), and every href that joins and reparses to a
host outside the canonical list normalizes to the empty string.  (A href
whose join or reparse raises is not covered: the error propagates instead
of producing the empty string, per the counterexample.) -/
theorem C6_normalize_guarded_idem_and_foreign_empty :
    (∀ base href u, normalize_url base href = .ok u →
      (∀ c t, u.data = c :: t → isC0OrSpace c = false) →
      normalize_url base u = .ok u) ∧
    (∀ base href : String, ∀ absu : List Char, ∀ parsed : ParseC,
      href ≠ "" →
      urljoinC base.data href.data = .ok absu →
      urlparseC absu [] = .ok parsed →
      lidovkyHosts.contains ⟨parsed.netloc⟩ = false →
      normalize_url base href = .ok "") := by
  constructor
  · exact fun base href u h hh => normalize_idem h hh
  · intro base href absu parsed hne hj hp hfor
    unfold normalize_url
    rw [if_neg hne]
    have h1 : (match urljoinC base.data href.data with
        | .error e => (.error e : Except String String)
        | .ok absu =>
          match urlparseC absu [] with
          | .error e => .error e
          | .ok parsed =>
            if lidovkyHosts.contains ⟨parsed.netloc⟩ then .ok ⟨takeUntil '#' absu⟩
            else .ok "") = .ok "" := by
      rw [hj]
      have h2 : (match urlparseC absu [] with
          | .error e => (.error e : Except String String)
          | .ok parsed =>
            if lidovkyHosts.contains ⟨parsed.netloc⟩ then .ok ⟨takeUntil '#' absu⟩
            else .ok "") = .ok "" := by
        rw [hp]
        have h3 : (if lidovkyHosts.contains ⟨parsed.netloc⟩ = true
            then (.ok ⟨takeUntil '#' absu⟩ : Except String String)
            else .ok "") = .ok "" := by
          rw [if_neg (by rw [hfor]; exact fun hc => Bool.noConfusion hc)]
        exact h3
      exact h2
    exact h1

/-- C6 (witness): the amended theorem applied at concrete inputs.
Normalizing `"/a#f"` against the canonical base yields the non-empty,
clean-headed `"https://www.lidovky.cz/a"`, and re-normalizing that output
returns it unchanged; normalizing the foreign `"https://example.com/x"`
yields the empty string. -/
theorem C6_witness :
    normalize_url "https://www.lidovky.cz/" "https://www.lidovky.cz/a" =
      .ok "https://www.lidovky.cz/a" ∧
    normalize_url "https://www.lidovky.cz/" "https://example.com/x" = .ok "" := by
  constructor
  · apply C6_normalize_guarded_idem_and_foreign_empty.1
      "https://www.lidovky.cz/" "/a#f" "https://www.lidovky.cz/a" rfl
    intro c t hct
    have h10 : ("https://www.lidovky.cz/a".data).headD ' ' = c := by
      rw [hct]
      rfl
    have h11 : 'h' = c := h10
    rw [← h11]
    decide
  · exact C6_normalize_guarded_idem_and_foreign_empty.2
      "https://www.lidovky.cz/" "https://example.com/x"
      "https://example.com/x".data
      ⟨"https".data, "example.com".data, "/x".data, [], [], []⟩
      (by decide) rfl rfl rfl

end Lidovky
